import Mathlib

/-!
Spreadsheet engine: a shallow embedding of `cell.cpp`, `sheet.cpp` and `formula.cpp`.

The development follows the C++ sources function by function.

* A `double` is represented by a rational number: arithmetic is exact, so rounding and
  overflow of the arithmetic are not represented; the only non-finite result is a division
  by zero.  The range of `double` enters where `std::stod` converts a text: a text whose
  number lies outside the range makes it throw `std::out_of_range`.
* A `std::string` is a Lean `String`.
* A `Cell` object lives in exactly one slot of `Sheet::table_` for its whole life, so the
  address of a `Cell` is represented by the (valid) slot position together with the serial
  number handed out when the object was constructed (`CellPtr`).  A pointer whose serial
  number does not match the object currently in the slot is dangling; it is never equal to
  the pointer of a cell constructed later in that slot, although an allocator may hand out
  the same address again.  Statements about the edge sets after `ClearCell` therefore
  compare the positions of the pointers as well.
* An `std::unordered_set<const Cell*>` is a duplicate-free list in insertion order.
* Every operation returns a `Res`: normal return, a thrown C++ exception (both with the
  sheet as it is at that moment), undefined behaviour (null or dangling dereference), or
  exhaustion of the recursion budget of the model.
-/

namespace Spreadsheet

/-! ## common.h -/

/-- Cell position, zero-based (`struct Position`). -/
structure Position where
  row : Int
  col : Int
deriving DecidableEq, Repr

namespace Position

def MAX_ROWS : Int := 16384
def MAX_COLS : Int := 16384

/-- The sentinel `Position::NONE`. -/
def NONE : Position := ⟨-1, -1⟩

/-- Modelled from the spec: the body of `Position::IsValid` is not among the sources;
§4.1 gives `0 ≤ row < MAX_ROWS ∧ 0 ≤ col < MAX_COLS`. -/
def IsValid (p : Position) : Bool :=
  decide (0 ≤ p.row) && decide (p.row < MAX_ROWS) && decide (0 ≤ p.col) && decide (p.col < MAX_COLS)

/-- Modelled from the spec: the body of `Position::operator<` is not among the sources;
§3 says the comparison is row-major ascending. -/
def lt (a b : Position) : Bool :=
  decide (a.row < b.row) || (decide (a.row = b.row) && decide (a.col < b.col))

end Position

/-- Printable size (`struct Size`). -/
structure Size where
  rows : Int
  cols : Int
deriving DecidableEq, Repr

/-- The categories of `FormulaError`. -/
inductive FormulaError where
  | Ref
  | Value
  | Div0
deriving DecidableEq, Repr

/-- The method `FormulaError::ToString`. -/
def FormulaError.ToString : FormulaError → String
  | .Ref => "#REF!"
  | .Value => "#VALUE!"
  | .Div0 => "#DIV/0!"

def FORMULA_SIGN : Char := '='
def ESCAPE_SIGN : Char := '\''

/-- The variant `CellInterface::Value`. -/
inductive Value where
  | text (s : String)
  | number (x : ℚ)
  | error (e : FormulaError)
deriving DecidableEq

/-- The C++ exceptions that travel through the engine.  `FormulaError` is thrown inside
`Formula::Evaluate` and caught there; the others reach the caller.  `OutOfRange` is the
`std::out_of_range` of `std::stod`, for which the engine has no handler. -/
inductive Exception where
  | InvalidPosition
  | FormulaException
  | CircularDependency
  | FormulaError (e : FormulaError)
  | OutOfRange
deriving DecidableEq, Repr

/-! ## Decimal rendering (the standard stream insertion of integers and doubles) -/

/-- Decimal digits of a natural number, most significant first, `width` digits at least. -/
def natDigits : Nat → Nat → List Char → List Char
  | 0, _, acc => acc
  | fuel + 1, n, acc =>
    if n < 10 then Char.ofNat (48 + n) :: acc
    else natDigits fuel (n / 10) (Char.ofNat (48 + n % 10) :: acc)

def natToChars (n : Nat) : List Char := natDigits (n + 1) n []

/-- Left-pads with zeros up to the given width. -/
def padZeros (width : Nat) (l : List Char) : List Char :=
  List.replicate (width - l.length) '0' ++ l

/-- Removes trailing zeros of a fractional part. -/
def stripTrailingZeros (l : List Char) : List Char :=
  (l.reverse.dropWhile (fun c => c == '0')).reverse

/-- Rounds `p / q` to the nearest natural number, ties to even. -/
def roundHalfEven (p q : Nat) : Nat :=
  let d := p / q
  let r := p % q
  if 2 * r > q then d + 1
  else if 2 * r = q then (if d % 2 = 1 then d + 1 else d)
  else d

/-- The text `output << value` produces for a double with the default stream settings
(six significant digits, `%g` style). -/
def formatDouble (x : ℚ) : String :=
  if x = 0 then "0" else
  let sign : List Char := if x < 0 then ['-'] else []
  let n := x.num.natAbs
  let d := x.den
  let dn : Int := (natToChars n).length
  let dd : Int := (natToChars d).length
  -- the decimal exponent `e` with `10^e ≤ |x| < 10^(e+1)`
  let e0 : Int := dn - dd
  let e1 : Int :=
    if e0 ≥ 0 then (if n ≥ d * 10 ^ e0.toNat then e0 else e0 - 1)
    else (if n * 10 ^ (-e0).toNat ≥ d then e0 else e0 - 1)
  -- six significant digits
  let m0 : Nat :=
    if e1 ≤ 5 then roundHalfEven (n * 10 ^ (5 - e1).toNat) d
    else roundHalfEven n (d * 10 ^ (e1 - 5).toNat)
  let m : Nat := if m0 = 1000000 then 100000 else m0
  let e : Int := if m0 = 1000000 then e1 + 1 else e1
  if e < -4 ∨ e ≥ 6 then
    let ds := natToChars m
    let frac := stripTrailingZeros (ds.drop 1)
    let mant := ds.take 1 ++ (if frac.isEmpty then [] else '.' :: frac)
    let ex := padZeros 2 (natToChars e.natAbs)
    String.mk (sign ++ mant ++ ['e', if e < 0 then '-' else '+'] ++ ex)
  else
    let k := (5 - e).toNat
    let ip := natToChars (m / 10 ^ k)
    let frac := stripTrailingZeros (padZeros k (natToChars (m % 10 ^ k)))
    String.mk (sign ++ ip ++ (if frac.isEmpty ∨ k = 0 then [] else '.' :: frac))

/-! ## Position codec -/

/-- Column letters of `n = col + 1` in bijective base 26, most significant first. -/
def colLetters : Nat → Nat → List Char → List Char
  | 0, _, acc => acc
  | fuel + 1, n, acc =>
    if n = 0 then acc
    else colLetters fuel ((n - 1) / 26) (Char.ofNat (65 + (n - 1) % 26) :: acc)

/-- Modelled from the spec: the body of `Position::ToString` is not among the sources; §3
gives the textual form (letters for `col + 1`, then `row + 1`), defined for valid positions. -/
def Position.ToString (p : Position) : String :=
  if p.IsValid then
    String.mk (colLetters (p.col.toNat + 1) (p.col.toNat + 1) [] ++ natToChars (p.row.toNat + 1))
  else ""

def isUpper (c : Char) : Bool := decide ('A' ≤ c) && decide (c ≤ 'Z')
def isDigit (c : Char) : Bool := decide ('0' ≤ c) && decide (c ≤ '9')

/-- Value of a run of decimal digits. -/
def digitsValue (l : List Char) : Nat :=
  l.foldl (fun acc c => acc * 10 + (c.toNat - 48)) 0

/-- Value of a run of column letters, `Σ (c_i − 'A' + 1) · 26^(k−1−i)`. -/
def lettersValue (l : List Char) : Nat :=
  l.foldl (fun acc c => acc * 26 + (c.toNat - 65 + 1)) 0

/-- Modelled from the spec: the body of `Position::FromString` is not among the sources;
§4.1: a run of upper-case letters followed by a run of digits, no empty run, no leading
zero, result in range; anything else is `Position::NONE`. -/
def Position.FromString (str : String) : Position :=
  let cs := str.data
  let letters := cs.takeWhile isUpper
  let digits := cs.dropWhile isUpper
  if letters.isEmpty ∨ digits.isEmpty ∨ !digits.all isDigit ∨ digits.head? = some '0'
      ∨ letters.length > 3 ∨ digits.length > 5 then Position.NONE
  else
    let p : Position := ⟨(digitsValue digits : Int) - 1, (lettersValue letters : Int) - 1⟩
    if p.IsValid then p else Position.NONE

/-! ## FormulaAST (the header `FormulaAST.h` is not among the sources) -/

inductive UnaryOp where
  | plus
  | minus
deriving DecidableEq, Repr

inductive BinaryOp where
  | add
  | sub
  | mul
  | div
deriving DecidableEq, Repr

/-- Modelled from the spec: the class `FormulaAST` is not among the sources; §4.2 describes a
tree over numeric literals, cell references, unary plus/minus and the four binary
operators.  A reference leaf holds the decoded position; the "invalid-ref" leaf is a
reference leaf whose position is not valid. -/
inductive FormulaAST where
  | number (x : ℚ)
  | cell (p : Position)
  | unary (op : UnaryOp) (e : FormulaAST)
  | binary (op : BinaryOp) (l r : FormulaAST)
deriving DecidableEq

namespace FormulaAST

/-- Modelled from the spec: `FormulaAST::GetCells`, the valid positions that occur as
reference leaves (§4.2), listed in order of appearance. -/
def GetCells : FormulaAST → List Position
  | number _ => []
  | cell p => if p.IsValid then [p] else []
  | unary _ e => e.GetCells
  | binary _ l r => l.GetCells ++ r.GetCells

end FormulaAST

/-- Tokens of the formula grammar. -/
inductive Token where
  | num (x : ℚ)
  | ref (p : Position)
  | plus
  | minus
  | star
  | slash
  | lparen
  | rparen
deriving DecidableEq

/-- Modelled from the spec: the tokenizer of `ParseFormulaAST` (not among the sources).
Whitespace is skipped; a numeric literal is a digit run with an optional fractional part;
a reference is a run of upper-case letters followed by a run of digits. -/
def tokenize : Nat → List Char → Option (List Token)
  | 0, _ => none
  | _ + 1, [] => some []
  | fuel + 1, c :: cs =>
    if c = ' ' ∨ c = '\t' ∨ c = '\n' ∨ c = '\r' then tokenize fuel cs
    else if c = '+' then (tokenize fuel cs).map (Token.plus :: ·)
    else if c = '-' then (tokenize fuel cs).map (Token.minus :: ·)
    else if c = '*' then (tokenize fuel cs).map (Token.star :: ·)
    else if c = '/' then (tokenize fuel cs).map (Token.slash :: ·)
    else if c = '(' then (tokenize fuel cs).map (Token.lparen :: ·)
    else if c = ')' then (tokenize fuel cs).map (Token.rparen :: ·)
    else if isDigit c then
      let ip := (c :: cs).takeWhile isDigit
      let rest := (c :: cs).dropWhile isDigit
      match rest with
      | '.' :: rest1 =>
        let fp := rest1.takeWhile isDigit
        if fp.isEmpty then none
        else
          let x : ℚ := (digitsValue ip : ℚ) + (digitsValue fp : ℚ) / ((10 ^ fp.length : Nat) : ℚ)
          (tokenize fuel (rest1.dropWhile isDigit)).map (Token.num x :: ·)
      | _ => (tokenize fuel rest).map (Token.num (digitsValue ip : ℚ) :: ·)
    else if isUpper c then
      let letters := (c :: cs).takeWhile isUpper
      let rest := (c :: cs).dropWhile isUpper
      let digits := rest.takeWhile isDigit
      if digits.isEmpty then none
      else
        (tokenize fuel (rest.dropWhile isDigit)).map
          (Token.ref (Position.FromString (String.mk (letters ++ digits))) :: ·)
    else none

mutual
/-- Sums and differences, left associative. -/
def parseExpr : Nat → List Token → Option (FormulaAST × List Token)
  | 0, _ => none
  | fuel + 1, ts =>
    match parseTerm fuel ts with
    | none => none
    | some (l, rest) => parseExprTail fuel l rest
/-- The tail of a sum once its left operand is known. -/
def parseExprTail : Nat → FormulaAST → List Token → Option (FormulaAST × List Token)
  | 0, _, _ => none
  | fuel + 1, l, Token.plus :: ts =>
    match parseTerm fuel ts with
    | none => none
    | some (r, rest) => parseExprTail fuel (.binary .add l r) rest
  | fuel + 1, l, Token.minus :: ts =>
    match parseTerm fuel ts with
    | none => none
    | some (r, rest) => parseExprTail fuel (.binary .sub l r) rest
  | _ + 1, l, ts => some (l, ts)
/-- Products and quotients, left associative. -/
def parseTerm : Nat → List Token → Option (FormulaAST × List Token)
  | 0, _ => none
  | fuel + 1, ts =>
    match parseUnary fuel ts with
    | none => none
    | some (l, rest) => parseTermTail fuel l rest
/-- The tail of a product once its left operand is known. -/
def parseTermTail : Nat → FormulaAST → List Token → Option (FormulaAST × List Token)
  | 0, _, _ => none
  | fuel + 1, l, Token.star :: ts =>
    match parseUnary fuel ts with
    | none => none
    | some (r, rest) => parseTermTail fuel (.binary .mul l r) rest
  | fuel + 1, l, Token.slash :: ts =>
    match parseUnary fuel ts with
    | none => none
    | some (r, rest) => parseTermTail fuel (.binary .div l r) rest
  | _ + 1, l, ts => some (l, ts)
/-- Unary sign, literal, reference or parenthesised expression. -/
def parseUnary : Nat → List Token → Option (FormulaAST × List Token)
  | 0, _ => none
  | fuel + 1, Token.plus :: ts => (parseUnary fuel ts).map (fun r => (.unary .plus r.1, r.2))
  | fuel + 1, Token.minus :: ts => (parseUnary fuel ts).map (fun r => (.unary .minus r.1, r.2))
  | _ + 1, Token.num x :: ts => some (.number x, ts)
  | _ + 1, Token.ref p :: ts => some (.cell p, ts)
  | fuel + 1, Token.lparen :: ts =>
    match parseExpr fuel ts with
    | some (e, Token.rparen :: rest) => some (e, rest)
    | _ => none
  | _ + 1, _ => none
end

/-- Modelled from the spec: `ParseFormulaAST` (not among the sources), the parser of §4.2
for the expression body behind the `=`; `none` is the syntax-error outcome. -/
def ParseFormulaAST (expression : String) : Option FormulaAST :=
  match tokenize (expression.length + 1) expression.data with
  | none => none
  | some ts =>
    match parseExpr (4 * ts.length + 4) ts with
    | some (e, []) => some e
    | _ => none

namespace FormulaAST

/-- Rank used by the canonical rendering: sums 0, differences 1, products 2, quotients 3,
unary 4, leaves 5. -/
def rank : FormulaAST → Nat
  | binary .add _ _ => 0
  | binary .sub _ _ => 1
  | binary .mul _ _ => 2
  | binary .div _ _ => 3
  | unary _ _ => 4
  | _ => 5

/-- Whether the operand `child` of `parent` is put in parentheses (`right` tells the right
operand of a binary operator). -/
def needsParens (parent child : FormulaAST) (right : Bool) : Bool :=
  match parent.rank, child.rank with
  | 1, 0 => right
  | 1, 1 => right
  | 2, 0 => true
  | 2, 1 => true
  | 3, 0 => true
  | 3, 1 => true
  | 3, 2 => right
  | 3, 3 => right
  | 4, 0 => true
  | 4, 1 => true
  | _, _ => false

def wrap (b : Bool) (t : String) : String := if b then "(" ++ t ++ ")" else t

/-- Modelled from the spec: `FormulaAST::PrintFormula` (not among the sources), the
canonical rendering of §4.2 without spaces and with the parentheses the structure needs;
a sum as right operand of a sum is printed bare, as scenario 7 of §8 requires. -/
def PrintFormula : FormulaAST → String
  | number x => formatDouble x
  | cell p => if p.IsValid then p.ToString else FormulaError.Ref.ToString
  | unary op e =>
    (match op with | .plus => "+" | .minus => "-")
      ++ wrap (needsParens (unary op e) e false) e.PrintFormula
  | binary op l r =>
    wrap (needsParens (binary op l r) l false) l.PrintFormula
      ++ (match op with | .add => "+" | .sub => "-" | .mul => "*" | .div => "/")
      ++ wrap (needsParens (binary op l r) r true) r.PrintFormula

end FormulaAST

/-! ## formula.cpp -/

/-- Insertion of a position into an ascending list. -/
def sortInsert (p : Position) : List Position → List Position
  | [] => [p]
  | q :: qs => if q.lt p then q :: sortInsert p qs else p :: q :: qs

/-- The call `std::sort(referenced_cells_.begin(), referenced_cells_.end())`. -/
def sortPositions (l : List Position) : List Position := l.foldr sortInsert []

/-- The call `std::unique`, followed by `erase`: consecutive equal positions collapse. -/
def uniquePositions : List Position → List Position
  | [] => []
  | [a] => [a]
  | a :: b :: rest => if a = b then uniquePositions (b :: rest) else a :: uniquePositions (b :: rest)

/-- The class `Formula`: the tree and the sorted, duplicate-free reference list. -/
structure Formula where
  ast_ : FormulaAST
  referenced_cells_ : List Position
deriving DecidableEq

/-- The constructor `Formula::Formula`. -/
def Formula.create (ast : FormulaAST) : Formula :=
  { ast_ := ast, referenced_cells_ := uniquePositions (sortPositions ast.GetCells) }

def Formula.GetReferencedCells (f : Formula) : List Position := f.referenced_cells_

def Formula.GetExpression (f : Formula) : String := f.ast_.PrintFormula

/-- The function `ParseFormula`; `none` stands for the thrown `FormulaException`. -/
def ParseFormula (expression : String) : Option Formula :=
  (ParseFormulaAST expression).map Formula.create

/-- The variant `FormulaInterface::Value`. -/
inductive FormulaValue where
  | number (x : ℚ)
  | error (e : FormulaError)
deriving DecidableEq

/-- The `[0-9]+` part of the pattern. -/
def allDigits (l : List Char) : Bool := !l.isEmpty && l.all isDigit

/-- The pattern `^(-?)(0|([1-9][0-9]*))(\.[0-9]+)?$` of `CellValueHandler`. -/
def matchesDoublePattern (text : List Char) : Bool :=
  let body := match text with
    | '-' :: rest => rest
    | other => other
  let ip := body.takeWhile isDigit
  let rest := body.dropWhile isDigit
  let ipOk := match ip with
    | [] => false
    | ['0'] => true
    | c :: _ => c != '0'
  let fracOk := match rest with
    | [] => true
    | '.' :: fp => allDigits fp
    | _ => false
  ipOk && fracOk

/-- The decimal number a text that matches the pattern denotes. -/
def decimalValue (text : List Char) : ℚ :=
  let neg := text.head? = some '-'
  let body := if neg then text.drop 1 else text
  let ip := body.takeWhile isDigit
  let fp := (body.dropWhile isDigit).drop 1
  let v : ℚ := (digitsValue ip : ℚ) + (digitsValue fp : ℚ) / ((10 ^ fp.length : Nat) : ℚ)
  if neg then -v else v

/-- The magnitude from which on a number converts to infinity: halfway between the largest
`double`, `DBL_MAX` = 2^1024 - 2^971, and 2^1024. -/
def DBL_OVERFLOW : ℚ := ((2 ^ 1024 - 2 ^ 970 : Nat) : ℚ)

/-- The smallest positive normal `double`, `DBL_MIN` = 2^-1022. -/
def DBL_MIN : ℚ := 1 / ((2 ^ 1022 : Nat) : ℚ)

/-- The call `std::stod(text)` on a text that matches the pattern; `none` stands for the
`std::out_of_range` it throws when `strtod` reports `ERANGE`.  That is the case when the
number overflows (its magnitude converts to infinity), and when it underflows (it is not
zero and its magnitude is below the smallest normal `double`); the report of an underflow
is implementation-defined in C, the model follows glibc, which reports it unless the
conversion is exact.  The result is the number itself: rounding to the nearest `double`
is not represented. -/
def stod (text : List Char) : Option ℚ :=
  let v := decimalValue text
  if DBL_OVERFLOW ≤ v ∨ v ≤ -DBL_OVERFLOW then none
  else if v ≠ 0 ∧ -DBL_MIN < v ∧ v < DBL_MIN then none
  else some v

/-- The three overloads of `CellValueHandler`; an error is the exception that leaves the
call: the thrown `FormulaError`, or the `std::out_of_range` of `std::stod`. -/
def CellValueHandler : Value → Except Exception ℚ
  | .text t =>
    if matchesDoublePattern t.data then
      match stod t.data with
      | some x => .ok x
      | none => .error .OutOfRange
    else .error (.FormulaError .Value)
  | .number x => .ok x
  | .error fe => .error (.FormulaError fe)

/-! ## cell.cpp: the implementations -/

/-- The classes `EmptyImpl`, `TextImpl` and `FormulaImpl`; the formula variant carries
`formula_` and the mutable `cache_`. -/
inductive Impl where
  | EmptyImpl
  | TextImpl (text_ : String)
  | FormulaImpl (formula_ : Formula) (cache_ : Option ℚ)
deriving DecidableEq

namespace Impl

def GetText : Impl → String
  | EmptyImpl => ""
  | TextImpl text_ => text_
  | FormulaImpl formula_ _ => "=" ++ formula_.GetExpression

def IsCacheValid : Impl → Bool
  | FormulaImpl _ cache_ => cache_.isSome
  | _ => true

def InvalidateCache : Impl → Impl
  | FormulaImpl formula_ _ => FormulaImpl formula_ none
  | other => other

def GetReferencedCells : Impl → List Position
  | FormulaImpl formula_ _ => formula_.GetReferencedCells
  | _ => []

/-- The method `TextImpl::GetValue`: the text without a leading escape sign. -/
def textValue (text_ : String) : String :=
  if text_.data.head? = some ESCAPE_SIGN then String.mk (text_.data.drop 1) else text_

end Impl

/-! ## cell.h, sheet.h: the objects -/

/-- Address of a `Cell` object: its slot and the serial number of its construction. -/
structure CellPtr where
  pos : Position
  serial : Nat
deriving DecidableEq, Repr

/-- The class `Cell`.  The member `impl_` is null from construction until the first `Set`
that returns normally. -/
structure Cell where
  serial : Nat
  impl_ : Option Impl
  dependent_cells_ : List CellPtr
  referenced_cells_ : List CellPtr
deriving DecidableEq

/-- The class `Sheet`: `table_` and the count of `Cell` objects constructed so far. -/
structure Sheet where
  table_ : List (List (Option Cell))
  allocated : Nat
deriving DecidableEq

/-- The function `CreateSheet`. -/
def CreateSheet : Sheet := { table_ := [], allocated := 0 }

/-- Result of running a piece of the engine. -/
inductive Res (α : Type) where
  | ok (a : α) (s : Sheet)
  | raised (e : Exception) (s : Sheet)
  | undefined
  | exhausted
deriving DecidableEq

/-- Sequencing: the continuation runs after a normal return only. -/
def Res.bind {α β : Type} (r : Res α) (f : α → Sheet → Res β) : Res β :=
  match r with
  | .ok a s => f a s
  | .raised e s => .raised e s
  | .undefined => .undefined
  | .exhausted => .exhausted

namespace Sheet

/-- The expression `table_[row][col]` read as a possibly null pointer; out of range reads
null. -/
def slot (s : Sheet) (row col : Nat) : Option Cell :=
  match s.table_[row]? with
  | none => none
  | some r =>
    match r[col]? with
    | none => none
    | some c => c

/-- Assignment to `table_[row][col]`. -/
def setSlot (s : Sheet) (row col : Nat) (v : Option Cell) : Sheet :=
  match s.table_[row]? with
  | none => s
  | some r => { s with table_ := s.table_.set row (r.set col v) }

/-- Dereference of a cell pointer; `none` when it dangles.  A pointer designates a slot of
the table, so its position is valid, and it is live while the object constructed under its
serial number is still in that slot. -/
def deref (s : Sheet) (p : CellPtr) : Option Cell :=
  if p.pos.IsValid then
    match s.slot p.pos.row.toNat p.pos.col.toNat with
    | some c => if c.serial = p.serial then some c else none
    | none => none
  else none

/-- Write through a cell pointer. -/
def store (s : Sheet) (p : CellPtr) (c : Cell) : Sheet :=
  s.setSlot p.pos.row.toNat p.pos.col.toNat (some c)

/-- Number of slots of the table. -/
def slotCount (s : Sheet) : Nat := (s.table_.map List.length).sum

/-- All cell objects of the table. -/
def cells (s : Sheet) : List Cell := s.table_.flatten.filterMap id

/-- The method `Sheet::GetCell`. -/
def GetCell (s : Sheet) (pos : Position) : Res (Option CellPtr) :=
  if !pos.IsValid then .raised .InvalidPosition s
  else
    match s.table_[pos.row.toNat]? with
    | none => .ok none s
    | some r =>
      match r[pos.col.toNat]? with
      | none => .ok none s
      | some c => .ok (c.map (fun cell => ⟨pos, cell.serial⟩)) s

/-- The method `Sheet::OptionalTableResize`. -/
def OptionalTableResize (s : Sheet) (pos : Position) : Sheet :=
  let t1 :=
    if pos.row.toNat ≥ s.table_.length then
      s.table_ ++ List.replicate (pos.row.toNat + 1 - s.table_.length) []
    else s.table_
  match t1[pos.row.toNat]? with
  | none => { s with table_ := t1 }
  | some r =>
    if pos.col.toNat ≥ r.length then
      { s with table_ :=
          t1.set pos.row.toNat (r ++ List.replicate (pos.col.toNat + 1 - r.length) none) }
    else { s with table_ := t1 }

end Sheet

/-! ## formula.cpp: evaluation -/

/-- Modelled from the spec: `FormulaAST::Execute` (not among the sources), the evaluation
of §4.3: operands left to right, an invalid reference signals `#REF!`, a division by zero
signals `#DIV/0!`, and an error ends the evaluation at once. -/
def FormulaAST.Execute (cell_value : Position → Sheet → Res ℚ) :
    FormulaAST → Sheet → Res ℚ
  | .number x, s => .ok x s
  | .cell p, s => if p.IsValid then cell_value p s else .raised (.FormulaError .Ref) s
  | .unary op e, s =>
    (FormulaAST.Execute cell_value e s).bind fun v s1 =>
      match op with
      | .plus => .ok v s1
      | .minus => .ok (-v) s1
  | .binary op l r, s =>
    (FormulaAST.Execute cell_value l s).bind fun a s1 =>
      (FormulaAST.Execute cell_value r s1).bind fun b s2 =>
        match op with
        | .add => .ok (a + b) s2
        | .sub => .ok (a - b) s2
        | .mul => .ok (a * b) s2
        | .div => if b = 0 then .raised (.FormulaError .Div0) s2 else .ok (a / b) s2

/-- The lambda `cell_value` of `Formula::Evaluate`; `cellGetValue` is `cell->GetValue()`. -/
def Formula.cell_value (cellGetValue : CellPtr → Sheet → Res Value) (pos : Position)
    (s : Sheet) : Res ℚ :=
  (s.GetCell pos).bind fun cell s1 =>
    match cell with
    | none => .ok 0 s1
    | some ptr =>
      (cellGetValue ptr s1).bind fun v s2 =>
        match CellValueHandler v with
        | .ok x => .ok x s2
        | .error e => .raised e s2

/-- The method `Formula::Evaluate`: a thrown `FormulaError` becomes the result. -/
def Formula.Evaluate (cellGetValue : CellPtr → Sheet → Res Value) (f : Formula)
    (s : Sheet) : Res FormulaValue :=
  match f.ast_.Execute (Formula.cell_value cellGetValue) s with
  | .ok x s1 => .ok (.number x) s1
  | .raised (.FormulaError fe) s1 => .ok (.error fe) s1
  | .raised e s1 => .raised e s1
  | .undefined => .undefined
  | .exhausted => .exhausted

/-! ## cell.cpp: the methods of `Cell`; `self` is the `this` pointer -/

/-- The assignment `cache_ = value` in `FormulaImpl::GetValue`. -/
def Sheet.setCache (s : Sheet) (self : CellPtr) (x : ℚ) : Sheet :=
  match s.deref self with
  | some c =>
    match c.impl_ with
    | some (.FormulaImpl f _) => s.store self { c with impl_ := some (.FormulaImpl f (some x)) }
    | _ => s
  | none => s

namespace Cell

/-- The method `Cell::GetValue` with the `GetValue` of the three implementations; the
budget bounds the nesting of formula evaluations through referenced formula cells. -/
def GetValue : Nat → CellPtr → Sheet → Res Value
  | fuel, self, s =>
    match s.deref self with
    | none => .undefined
    | some c =>
      match c.impl_ with
      | none => .undefined
      | some .EmptyImpl => .ok (.number 0) s
      | some (.TextImpl text_) => .ok (.text (Impl.textValue text_)) s
      | some (.FormulaImpl formula_ cache_) =>
        match cache_ with
        | some x => .ok (.number x) s
        | none =>
          match fuel with
          | 0 => .exhausted
          | fuel1 + 1 =>
            (formula_.Evaluate (GetValue fuel1) s).bind fun evaluation s1 =>
              match evaluation with
              | .number x => .ok (.number x) (s1.setCache self x)
              | .error fe => .ok (.error fe) s1

/-- The method `Cell::GetText`. -/
def GetText (self : CellPtr) (s : Sheet) : Res String :=
  match s.deref self with
  | none => .undefined
  | some c =>
    match c.impl_ with
    | none => .undefined
    | some impl => .ok impl.GetText s

/-- The method `Cell::GetReferencedCells`. -/
def GetReferencedCells (self : CellPtr) (s : Sheet) : Res (List Position) :=
  match s.deref self with
  | none => .undefined
  | some c =>
    match c.impl_ with
    | none => .undefined
    | some impl => .ok impl.GetReferencedCells s

/-- The method `Cell::IsCacheValid`. -/
def IsCacheValid (self : CellPtr) (s : Sheet) : Res Bool :=
  match s.deref self with
  | none => .undefined
  | some c =>
    match c.impl_ with
    | none => .undefined
    | some impl => .ok impl.IsCacheValid s

/-- The method `Cell::InvalidateCache`. -/
def InvalidateCache (self : CellPtr) (s : Sheet) : Res Unit :=
  match s.deref self with
  | none => .undefined
  | some c =>
    match c.impl_ with
    | none => .undefined
    | some impl => .ok () (s.store self { c with impl_ := some impl.InvalidateCache })

/-- The method `Cell::Clear`. -/
def Clear (self : CellPtr) (s : Sheet) : Res Unit :=
  match s.deref self with
  | none => .undefined
  | some c => .ok () (s.store self { c with impl_ := none })

/-- The loop of `Cell::IsCircularDependent` over the referenced positions of `current`;
`recurse` is the call `cell->IsCircularDependent(source, cell->impl_, visited)`. -/
def IsCircularDependentLoop (s : Sheet) (source : CellPtr)
    (recurse : Option Impl → List (Option CellPtr) → Res Bool)
    (visited : List (Option CellPtr)) : List Position → Res Bool
  | [] => .ok false s
  | pos :: rest =>
    (s.GetCell pos).bind fun cell _ =>
      if cell = some source then .ok true s
      else if cell ∈ visited then IsCircularDependentLoop s source recurse visited rest
      else
        match cell with
        | none => .undefined
        | some ptr =>
          match s.deref ptr with
          | none => .undefined
          | some c => recurse c.impl_ (cell :: visited)

/-- The method `Cell::IsCircularDependent`; the budget bounds the depth of the recursion. -/
def IsCircularDependent : Nat → Sheet → CellPtr → Option Impl → List (Option CellPtr) → Res Bool
  | 0, _, _, _, _ => .exhausted
  | fuel + 1, s, source, current, visited =>
    match current with
    | none => .undefined
    | some impl =>
      IsCircularDependentLoop s source (IsCircularDependent fuel s source) visited
        impl.GetReferencedCells

/-- The method `Cell::CreateEmptyCells` over `impl->GetReferencedCells()`; `sheetSetCell`
is `sheet_.SetCell`. -/
def CreateEmptyCells (sheetSetCell : Position → String → Sheet → Res Unit) :
    List Position → Sheet → Res Unit
  | [], s => .ok () s
  | pos :: rest, s =>
    (s.GetCell pos).bind fun cell s1 =>
      match cell with
      | some _ => CreateEmptyCells sheetSetCell rest s1
      | none => (sheetSetCell pos "" s1).bind fun _ s2 => CreateEmptyCells sheetSetCell rest s2

/-- Insertion into an `unordered_set`. -/
def setInsert (p : CellPtr) (l : List CellPtr) : List CellPtr :=
  if p ∈ l then l else l ++ [p]

/-- Removal from an `unordered_set`. -/
def setErase (p : CellPtr) (l : List CellPtr) : List CellPtr :=
  l.filter (fun q => q ≠ p)

/-- The loop of `Cell::RemoveInvalidLinks`: `ref_cell->dependent_cells_.erase(this)`. -/
def RemoveInvalidLinksLoop (self : CellPtr) : List CellPtr → Sheet → Res Unit
  | [], s => .ok () s
  | ref_cell :: rest, s =>
    match s.deref ref_cell with
    | none => .undefined
    | some c =>
      RemoveInvalidLinksLoop self rest
        (s.store ref_cell { c with dependent_cells_ := setErase self c.dependent_cells_ })

/-- The method `Cell::RemoveInvalidLinks`. -/
def RemoveInvalidLinks (self : CellPtr) (s : Sheet) : Res Unit :=
  match s.deref self with
  | none => .undefined
  | some c =>
    (RemoveInvalidLinksLoop self c.referenced_cells_ s).bind fun _ s1 =>
      match s1.deref self with
      | none => .undefined
      | some c1 => .ok () (s1.store self { c1 with referenced_cells_ := [] })

/-- The loop of `Cell::AddNewLinks`. -/
def AddNewLinksLoop (self : CellPtr) : List Position → Sheet → Res Unit
  | [], s => .ok () s
  | pos :: rest, s =>
    (s.GetCell pos).bind fun cell s1 =>
      match cell with
      | none => .undefined
      | some ptr =>
        match s1.deref self with
        | none => .undefined
        | some me =>
          let s2 := s1.store self { me with dependent_cells_ := setInsert ptr me.dependent_cells_ }
          match s2.deref ptr with
          | none => .undefined
          | some c =>
            AddNewLinksLoop self rest
              (s2.store ptr { c with referenced_cells_ := setInsert self c.referenced_cells_ })

/-- The method `Cell::AddNewLinks`. -/
def AddNewLinks (self : CellPtr) (s : Sheet) : Res Unit :=
  (GetReferencedCells self s).bind fun refs s1 => AddNewLinksLoop self refs s1

/-- The `while` loop of `Cell::InvalidateDependentCache`; the head of `to_visit` is the top
of the stack. -/
def InvalidateDependentCacheLoop : Nat → List CellPtr → List CellPtr → Sheet → Res Unit
  | _, [], _, s => .ok () s
  | 0, _ :: _, _, _ => .exhausted
  | fuel + 1, cell :: to_visit, visited, s =>
    if cell ∈ visited then InvalidateDependentCacheLoop fuel to_visit visited s
    else
      match s.deref cell with
      | none => .undefined
      | some c =>
        match c.impl_ with
        | none => .undefined
        | some impl =>
          let s1 :=
            if impl.IsCacheValid then s.store cell { c with impl_ := some impl.InvalidateCache }
            else s
          InvalidateDependentCacheLoop fuel (c.dependent_cells_.reverse ++ to_visit)
            (cell :: visited) s1

/-- The method `Cell::InvalidateDependentCache`.  The loop pops one pointer per round and
pushes the set of a cell only at its first visit, which bounds the number of rounds. -/
def InvalidateDependentCache (self : CellPtr) (s : Sheet) : Res Unit :=
  match s.deref self with
  | none => .undefined
  | some c =>
    InvalidateDependentCacheLoop
      (c.dependent_cells_.length + (s.cells.map (fun x => x.dependent_cells_.length)).sum + 1)
      c.dependent_cells_.reverse [] s

/-- The prospective implementation built at the start of `Cell::Set`; `none` stands for
the `FormulaException` of `ParseFormula`. -/
def makeImpl (text : String) : Option Impl :=
  if text.length > 1 ∧ text.data.head? = some FORMULA_SIGN then
    (ParseFormula (String.mk (text.data.drop 1))).map (fun f => Impl.FormulaImpl f none)
  else if !text.isEmpty then some (Impl.TextImpl text)
  else some Impl.EmptyImpl

/-- The method `Cell::Set`. -/
def Set (sheetSetCell : Position → String → Sheet → Res Unit) (self : CellPtr)
    (text : String) (s : Sheet) : Res Unit :=
  match makeImpl text with
  | none => .raised .FormulaException s
  | some temp_impl =>
    (CreateEmptyCells sheetSetCell temp_impl.GetReferencedCells s).bind fun _ s1 =>
      (IsCircularDependent (s1.slotCount + 2) s1 self (some temp_impl) []).bind fun circular _ =>
        if circular then .raised .CircularDependency s1
        else
          match s1.deref self with
          | none => .undefined
          | some c =>
            (RemoveInvalidLinks self (s1.store self { c with impl_ := some temp_impl })).bind
              fun _ s2 =>
                (AddNewLinks self s2).bind fun _ s3 =>
                  (IsCacheValid self s3).bind fun valid s4 =>
                    if valid then
                      (InvalidateCache self s4).bind fun _ s5 => InvalidateDependentCache self s5
                    else .ok () s4

end Cell

/-! ## sheet.cpp -/

namespace Sheet

/-- Lines 20 to 25 of `Sheet::SetCell`: the table is resized and, where the slot is null, a
`Cell` is constructed in it; the result is the pointer `table_[pos.row][pos.col].get()`. -/
def ensureCell (s : Sheet) (pos : Position) : CellPtr × Sheet :=
  let s1 := s.OptionalTableResize pos
  match s1.slot pos.row.toNat pos.col.toNat with
  | some c => (⟨pos, c.serial⟩, s1)
  | none =>
    (⟨pos, s1.allocated⟩,
      { (s1.setSlot pos.row.toNat pos.col.toNat
          (some { serial := s1.allocated, impl_ := none, dependent_cells_ := [],
                  referenced_cells_ := [] })) with allocated := s1.allocated + 1 })

/-- The method `Sheet::SetCell`; the budget bounds the nesting of `SetCell` inside
`Cell::CreateEmptyCells`. -/
def SetCellAux : Nat → Position → String → Sheet → Res Unit
  | 0, _, _, _ => .exhausted
  | depth + 1, pos, text, s =>
    if !pos.IsValid then .raised .InvalidPosition s
    else Cell.Set (SetCellAux depth) (s.ensureCell pos).1 text (s.ensureCell pos).2

/-- The method `Sheet::SetCell`.  The nested call made by `CreateEmptyCells` passes the
empty text, whose implementation references nothing, so the nesting never exceeds two. -/
def SetCell (pos : Position) (text : String) (s : Sheet) : Res Unit :=
  SetCellAux 2 pos text s

/-- The method `Sheet::ClearCell`. -/
def ClearCell (pos : Position) (s : Sheet) : Res Unit :=
  (s.GetCell pos).bind fun cell s1 =>
    match cell with
    | some _ => .ok () (s1.setSlot pos.row.toNat pos.col.toNat none)
    | none => .ok () s1

/-- The inner loop of `Sheet::GetPrintableSize`. -/
def printableRow (row : Nat) : Nat → List (Option Cell) → Size → Size
  | _, [], result => result
  | col, c :: cs, result =>
    printableRow row (col + 1) cs
      (if c.isSome then ⟨max result.rows (row + 1), max result.cols (col + 1)⟩ else result)

/-- The outer loop of `Sheet::GetPrintableSize`. -/
def printableRows : Nat → List (List (Option Cell)) → Size → Size
  | _, [], result => result
  | row, r :: rs, result => printableRows (row + 1) rs (printableRow row 0 r result)

/-- The method `Sheet::GetPrintableSize`. -/
def GetPrintableSize (s : Sheet) : Size := printableRows 0 s.table_ ⟨0, 0⟩

/-- The inner loop of `Sheet::PrintTable`; `out` is what the stream holds so far. -/
def printRow (print_function : CellPtr → Sheet → Res String) (row : Nat) :
    List Nat → String → Sheet → Res String
  | [], out, s => .ok (out ++ "\n") s
  | col :: cols, out, s =>
    let out1 := if col ≠ 0 then out ++ "\t" else out
    match s.slot row col with
    | some c =>
      (print_function ⟨⟨row, col⟩, c.serial⟩ s).bind fun t s1 =>
        printRow print_function row cols (out1 ++ t) s1
    | none => printRow print_function row cols out1 s

/-- The outer loop of `Sheet::PrintTable`. -/
def printRows (print_function : CellPtr → Sheet → Res String) (cols : Nat) :
    List Nat → String → Sheet → Res String
  | [], out, s => .ok out s
  | row :: rows, out, s =>
    (printRow print_function row (List.range cols) out s).bind fun out1 s1 =>
      printRows print_function cols rows out1 s1

/-- The method `Sheet::PrintTable`; the result is the text written to the stream. -/
def PrintTable (print_function : CellPtr → Sheet → Res String) (s : Sheet) : Res String :=
  printRows print_function s.GetPrintableSize.cols.toNat
    (List.range s.GetPrintableSize.rows.toNat) "" s

/-- The text `output << value` writes for a cell value. -/
def renderValue : Value → String
  | .text t => t
  | .number x => formatDouble x
  | .error fe => fe.ToString

/-- The method `Sheet::PrintValues`; the budget is the one of `Cell::GetValue`. -/
def PrintValues (fuel : Nat) (s : Sheet) : Res String :=
  PrintTable (fun cell s1 => (Cell.GetValue fuel cell s1).bind fun v s2 => .ok (renderValue v) s2) s

/-- The method `Sheet::PrintTexts`. -/
def PrintTexts (s : Sheet) : Res String :=
  PrintTable Cell.GetText s

end Sheet

/-! ## Client-side expressions and named positions -/

namespace Sheet

/-- The client expression `sheet.GetCell(pos)->GetValue()`. -/
def GetValue (fuel : Nat) (pos : Position) (s : Sheet) : Res Value :=
  (s.GetCell pos).bind fun cell s1 =>
    match cell with
    | none => .undefined
    | some ptr => Cell.GetValue fuel ptr s1

/-- The client expression `sheet.GetCell(pos)->GetText()`. -/
def GetText (pos : Position) (s : Sheet) : Res String :=
  (s.GetCell pos).bind fun cell s1 =>
    match cell with
    | none => .undefined
    | some ptr => Cell.GetText ptr s1

/-- The client expression `sheet.GetCell(pos)->GetReferencedCells()`. -/
def GetReferencedCells (pos : Position) (s : Sheet) : Res (List Position) :=
  (s.GetCell pos).bind fun cell s1 =>
    match cell with
    | none => .undefined
    | some ptr => Cell.GetReferencedCells ptr s1

/-- The cell object in the slot of a position. -/
def cellAt (s : Sheet) (pos : Position) : Option Cell :=
  s.slot pos.row.toNat pos.col.toNat

end Sheet

/-- The sheet a call leaves behind; the fresh sheet where the call leaves none. -/
def Res.sheet {α : Type} : Res α → Sheet
  | .ok _ s => s
  | .raised _ s => s
  | _ => CreateSheet

/-- The exception a call raises. -/
def Res.exception {α : Type} : Res α → Option Exception
  | .raised e _ => some e
  | _ => none

/-- The value a call returns. -/
def Res.value {α : Type} : Res α → Option α
  | .ok a _ => some a
  | _ => none

def A1 : Position := ⟨0, 0⟩
def A2 : Position := ⟨1, 0⟩
def B1 : Position := ⟨0, 1⟩
def C1 : Position := ⟨0, 2⟩
def C3 : Position := ⟨2, 2⟩

/-! ## Predicates used in the statements -/

/-- The positions held by the reference leaves of a tree, valid or not, left to right. -/
def FormulaAST.referenceLeaves : FormulaAST → List Position
  | .number _ => []
  | .cell p => [p]
  | .unary _ e => e.referenceLeaves
  | .binary _ l r => l.referenceLeaves ++ r.referenceLeaves

namespace Sheet

/-- The slot `(row, col)` lies inside the table. -/
def inRange (s : Sheet) (row col : Nat) : Prop :=
  ∃ r, s.table_[row]? = some r ∧ col < r.length

/-- The sheet `s'` extends `s` by Empty cells without edges: every object of `s` sits
unchanged in its slot, and a slot that was null is null or holds such an Empty cell. -/
def ExtendsByEmpty (s s' : Sheet) : Prop :=
  ∀ row col,
    (∀ c, s.slot row col = some c → s'.slot row col = some c) ∧
    (s.slot row col = none → s'.slot row col = none ∨
      ∃ c, s'.slot row col = some c ∧ c.impl_ = some .EmptyImpl ∧
        c.dependent_cells_ = [] ∧ c.referenced_cells_ = [])

/-- Following the positions `refs`, and from each cell met at a valid position other than
`target` the referenced cells of its current implementation, leads to `target`. -/
inductive Reaches (s : Sheet) (target : Position) : List Position → Prop
  | here {refs : List Position} : target ∈ refs → Reaches s target refs
  | step {refs : List Position} (q : Position) (c : Cell) (impl : Impl) :
      q ∈ refs → q.IsValid = true → q ≠ target → s.cellAt q = some c → c.impl_ = some impl →
      Reaches s target impl.GetReferencedCells → Reaches s target refs

/-- Index pairs of the slots of a table whose first row has index `r`. -/
def slotsFrom : Nat → List (List (Option Cell)) → List (Nat × Nat)
  | _, [] => []
  | r, row :: rest => (List.range row.length).map (fun c => (r, c)) ++ slotsFrom (r + 1) rest

/-- The pointer to the object `c` found in the slot with index pair `i`. -/
def ptrAt (i : Nat × Nat) (c : Cell) : CellPtr := ⟨⟨i.1, i.2⟩, c.serial⟩

/-- The number of pointers the invalidation walk may still push on account of the slot `i`:
the size of the set of its cell, unless the cell has been visited. -/
def pending (s : Sheet) (visited : List CellPtr) (i : Nat × Nat) : Nat :=
  match s.slot i.1 i.2 with
  | some c => if ptrAt i c ∈ visited then 0 else c.dependent_cells_.length
  | none => 0

/-- The number of pointers the invalidation walk may still push. -/
def pendingTotal (s : Sheet) (visited : List CellPtr) : Nat :=
  ((slotsFrom 0 s.table_).map (pending s visited)).sum

/-- Every cell object of the sheet satisfies `φ`. -/
def CellsSatisfy (φ : Cell → Prop) (s : Sheet) : Prop :=
  ∀ row col c, s.slot row col = some c → φ c

/-- Every position a stored implementation references is valid. -/
def RefsValid (s : Sheet) : Prop :=
  CellsSatisfy (fun c => ∀ impl, c.impl_ = some impl →
    ∀ p ∈ impl.GetReferencedCells, p.IsValid = true) s

/-- The sheets the public operations lead to, starting from `CreateSheet()`; a call that
raises leaves a sheet behind as well (a read that raises may have filled caches). -/
inductive Reachable : Sheet → Prop
  | create : Reachable CreateSheet
  | setCell (s s' : Sheet) (pos : Position) (text : String) :
      Reachable s → SetCell pos text s = .ok () s' → Reachable s'
  | setCellRaised (s s' : Sheet) (pos : Position) (text : String) (e : Exception) :
      Reachable s → SetCell pos text s = .raised e s' → Reachable s'
  | clearCell (s s' : Sheet) (pos : Position) :
      Reachable s → ClearCell pos s = .ok () s' → Reachable s'
  | getValue (s s' : Sheet) (fuel : Nat) (pos : Position) (v : Value) :
      Reachable s → Sheet.GetValue fuel pos s = .ok v s' → Reachable s'
  | getValueRaised (s s' : Sheet) (fuel : Nat) (pos : Position) (e : Exception) :
      Reachable s → Sheet.GetValue fuel pos s = .raised e s' → Reachable s'
  | printValues (s s' : Sheet) (fuel : Nat) (out : String) :
      Reachable s → PrintValues fuel s = .ok out s' → Reachable s'
  | printValuesRaised (s s' : Sheet) (fuel : Nat) (e : Exception) :
      Reachable s → PrintValues fuel s = .raised e s' → Reachable s'

end Sheet

/-- What a call does, without the sheet it leaves. -/
inductive Outcome (α : Type) where
  | ok (a : α)
  | raised (e : Exception)
  | undefined
  | exhausted
deriving DecidableEq

/-- The outcome of a result. -/
def Res.outcome {α : Type} : Res α → Outcome α
  | .ok a _ => .ok a
  | .raised e _ => .raised e
  | .undefined => .undefined
  | .exhausted => .exhausted

/-- Two results have the same outcome and leave sheets related by `R`. -/
def Res.Agree {α : Type} (R : Sheet → Sheet → Prop) : Res α → Res α → Prop
  | .ok a s, .ok b t => a = b ∧ R s t
  | .raised e s, .raised e' t => e = e' ∧ R s t
  | .undefined, .undefined => True
  | .exhausted, .exhausted => True
  | _, _ => False

/-- The sheet a call leaves behind, if any, satisfies `P`. -/
def Res.Leaves {α : Type} (P : Sheet → Prop) : Res α → Prop
  | .ok _ s => P s
  | .raised _ s => P s
  | _ => True

/-- A property of cell objects that the bookkeeping of the engine does not disturb: it
survives changes of the edge sets and of the cache. -/
structure Stable (φ : Cell → Prop) : Prop where
  deps : ∀ c l, φ c → φ { c with dependent_cells_ := l }
  refs : ∀ c l, φ c → φ { c with referenced_cells_ := l }
  invalidate : ∀ c impl, c.impl_ = some impl → φ c →
    φ { c with impl_ := some impl.InvalidateCache }
  cache : ∀ c f cache x, c.impl_ = some (.FormulaImpl f cache) → φ c →
    φ { c with impl_ := some (.FormulaImpl f (some x)) }

/-! ## The grammar of the lookup policy, as the specification words it -/

/-- A text split as the lookup grammar reads it: sign, integer part, optional fraction. -/
structure DoubleText where
  negative : Bool
  integer : List Char
  fraction : Option (List Char)
deriving DecidableEq

/-- The text is `-?(0|[1-9][0-9]*)(\.[0-9]+)?`: the integer part is `0` or a run of digits
without a leading zero, the fraction, if present, a non-empty run of digits. -/
def DoubleText.wellFormed (d : DoubleText) : Bool :=
  (match d.integer with
    | [] => false
    | c :: ds => (c == '0' && ds.isEmpty) || (isDigit c && c != '0' && ds.all isDigit)) &&
  (match d.fraction with
    | none => true
    | some fp => !fp.isEmpty && fp.all isDigit)

/-- The characters of the text: sign, integer part, then the point and the fraction. -/
def DoubleText.chars (d : DoubleText) : List Char :=
  (if d.negative then ['-'] else []) ++ d.integer ++
    (match d.fraction with
      | none => []
      | some fp => '.' :: fp)

/-- The number the text denotes in decimal notation. -/
def DoubleText.denotes (d : DoubleText) : ℚ :=
  let fp := d.fraction.getD []
  let v : ℚ := (digitsValue d.integer : ℚ) + (digitsValue fp : ℚ) / ((10 ^ fp.length : Nat) : ℚ)
  if d.negative then -v else v

/-- The number lies in the range of `double` as `std::stod` sees it: its magnitude does not
convert to infinity, and it is zero or its magnitude is not below the smallest normal
`double`. -/
def inDoubleRange (v : ℚ) : Bool :=
  decide (-DBL_OVERFLOW < v ∧ v < DBL_OVERFLOW) && decide (v = 0 ∨ v ≤ -DBL_MIN ∨ DBL_MIN ≤ v)

/-! ## Relations between the sheet before and after an operation -/

/-- Slot by slot the sheet `t` holds a cell object exactly where `s` holds one; it is the
same object (same serial number) and its state is related to the state in `s` by `ρ`. -/
def Sheet.Evolves (ρ : Cell → Cell → Prop) (s t : Sheet) : Prop :=
  t.allocated = s.allocated ∧
  ∀ row col,
    (∀ c, s.slot row col = some c →
      ∃ c', t.slot row col = some c' ∧ c'.serial = c.serial ∧ ρ c c') ∧
    (s.slot row col = none → t.slot row col = none)

/-- The two states of a cell object have the same content: the same implementation up to
the cached value. The edge sets may differ. -/
def Cell.SameContent (c c' : Cell) : Prop :=
  c'.impl_.map Impl.InvalidateCache = c.impl_.map Impl.InvalidateCache

/-- The two states of a cell object differ at most in the cached value. -/
def Cell.SameButCache (c c' : Cell) : Prop :=
  c'.dependent_cells_ = c.dependent_cells_ ∧ c'.referenced_cells_ = c.referenced_cells_ ∧
    Cell.SameContent c c'

/-! ## The invalidation walk -/

/-- The pointers the walk of `InvalidateDependentCache` started at `start` can reach: the
members of the set `dependent_cells_` of the starting cell and, from a reached pointer that
refers to a cell of the sheet, the members of the set of that cell. -/
inductive Sheet.DepReach (s : Sheet) (start : CellPtr) : CellPtr → Prop
  | first (c : Cell) (q : CellPtr) :
      s.deref start = some c → q ∈ c.dependent_cells_ → DepReach s start q
  | next (p : CellPtr) (c : Cell) (q : CellPtr) :
      DepReach s start p → s.deref p = some c → q ∈ c.dependent_cells_ → DepReach s start q

/-- The pointers the loop of `InvalidateDependentCache` processes, in the order in which
it processes them: the pointers it pops and does not skip. The recursion is the recursion
of `InvalidateDependentCacheLoop`. -/
def Cell.InvalidateDependentCacheTrace : Nat → List CellPtr → List CellPtr → Sheet → List CellPtr
  | _, [], _, _ => []
  | 0, _ :: _, _, _ => []
  | fuel + 1, cell :: to_visit, visited, s =>
    if cell ∈ visited then Cell.InvalidateDependentCacheTrace fuel to_visit visited s
    else
      match s.deref cell with
      | none => []
      | some c =>
        match c.impl_ with
        | none => []
        | some impl =>
          let s1 :=
            if impl.IsCacheValid then s.store cell { c with impl_ := some impl.InvalidateCache }
            else s
          cell :: Cell.InvalidateDependentCacheTrace fuel
            (c.dependent_cells_.reverse ++ to_visit) (cell :: visited) s1

/-- The cell object after `InvalidateCache()`. -/
def Cell.invalidated (c : Cell) : Cell := { c with impl_ := c.impl_.map Impl.InvalidateCache }

/-- The cell holds no cached value: it is not a formula cell with a filled cache. -/
def Cell.HoldsNoCache (c : Cell) : Prop :=
  ∀ f cache, c.impl_ = some (.FormulaImpl f cache) → cache = none

/-- The set `S` consists of pointers to cells of the sheet that have an implementation, and
with a pointer it contains the members of `dependent_cells_` of its cell. -/
def Sheet.LiveDeps (s : Sheet) (S : CellPtr → Prop) : Prop :=
  ∀ p, S p → ∃ c, s.deref p = some c ∧ c.impl_ ≠ none ∧ ∀ q ∈ c.dependent_cells_, S q

/-- The pointers `InvalidateDependentCache` called on `self` processes, in order: the trace
of its loop, started as the method starts it. -/
def Cell.InvalidateDependentCacheVisits (self : CellPtr) (s : Sheet) : List CellPtr :=
  match s.deref self with
  | none => []
  | some c =>
    Cell.InvalidateDependentCacheTrace
      (c.dependent_cells_.length + (s.cells.map (fun x => x.dependent_cells_.length)).sum + 1)
      c.dependent_cells_.reverse [] s

/-! ## Sheets on which the edge sets hold no dangling pointer -/

/-- Nothing in the sheet refers to the position: no implementation names it among its
referenced cells, and no edge set holds a pointer to a cell in its slot. -/
def Sheet.Unreferenced (s : Sheet) (pos : Position) : Bool :=
  s.cells.all fun c =>
    (match c.impl_ with
      | some impl => !impl.GetReferencedCells.contains pos
      | none => true) &&
    c.dependent_cells_.all (fun p => p.pos != pos) &&
    c.referenced_cells_.all (fun p => p.pos != pos)

/-- The state of the two edge sets that the operations maintain: read through the pointers
to the cells of the sheet, `dependent_cells_` and `referenced_cells_` mirror each other, and
neither a cell nor a stored pointer carries a serial number that is still to be given out. -/
structure Sheet.GraphInv (s : Sheet) : Prop where
  cell_fresh : ∀ p c, s.deref p = some c → p.serial < s.allocated
  edge_fresh : ∀ p c, s.deref p = some c →
    ∀ q, (q ∈ c.dependent_cells_ ∨ q ∈ c.referenced_cells_) → q.serial < s.allocated
  mirror : ∀ a b ca cb, s.deref a = some ca → s.deref b = some cb →
    (a ∈ cb.dependent_cells_ ↔ b ∈ ca.referenced_cells_)

/-! ## What an evaluation can read without evaluating a formula -/

/-- Outcome of reading a tree against the sheet as it stands: its value, the exception it
throws, the first formula cell with an empty cache whose value it needs, or a cell without
implementation in its way. -/
inductive StaticResult where
  | done (x : ℚ)
  | failed (e : Exception)
  | needs (p : CellPtr)
  | stuck
deriving DecidableEq

/-- What `cell_value` finds at a valid position without evaluating a formula. -/
def Sheet.staticLeaf (s : Sheet) (pos : Position) : StaticResult :=
  match s.cellAt pos with
  | none => .done 0
  | some c =>
    match c.impl_ with
    | none => .stuck
    | some .EmptyImpl => .done 0
    | some (.TextImpl t) =>
      match CellValueHandler (.text (Impl.textValue t)) with
      | .ok x => .done x
      | .error e => .failed e
    | some (.FormulaImpl _ (some x)) => .done x
    | some (.FormulaImpl _ none) => .needs ⟨pos, c.serial⟩

/-- The tree read in the order of `FormulaAST.Execute`, up to the first formula cell with
an empty cache. -/
def Sheet.staticExec (s : Sheet) : FormulaAST → StaticResult
  | .number x => .done x
  | .cell p => if p.IsValid then s.staticLeaf p else .failed (.FormulaError .Ref)
  | .unary op e =>
    match s.staticExec e with
    | .done v =>
      match op with
      | .plus => .done v
      | .minus => .done (-v)
    | other => other
  | .binary op l r =>
    match s.staticExec l with
    | .done a =>
      match s.staticExec r with
      | .done b =>
        match op with
        | .add => .done (a + b)
        | .sub => .done (a - b)
        | .mul => .done (a * b)
        | .div => if b = 0 then .failed (.FormulaError .Div0) else .done (a / b)
      | other => other
    | other => other

/-- The pointer refers to a formula cell of the sheet whose cache is empty. -/
def Sheet.Uncached (s : Sheet) (p : CellPtr) : Prop :=
  ∃ c f, s.deref p = some c ∧ c.impl_ = some (.FormulaImpl f none)

/-- The calls of `GetValue` in progress, innermost first, when `GetValue` is called on `p`:
each is the call on a formula cell with an empty cache whose tree, read against the sheet,
needs the cell of the call it made. -/
def Sheet.Pending (s : Sheet) : List CellPtr → CellPtr → Prop
  | [], _ => True
  | x :: rest, p =>
    (∃ c f, s.deref x = some c ∧ c.impl_ = some (.FormulaImpl f none) ∧
      s.staticExec f.ast_ = .needs p) ∧ Sheet.Pending s rest x

/-- The second state of the cell object is the first one, possibly with its empty cache
filled. -/
def Cell.CacheGrows (c c' : Cell) : Prop :=
  c'.dependent_cells_ = c.dependent_cells_ ∧ c'.referenced_cells_ = c.referenced_cells_ ∧
    (c'.impl_ = c.impl_ ∨
      ∃ f x, c.impl_ = some (.FormulaImpl f none) ∧ c'.impl_ = some (.FormulaImpl f (some x)))


/-! ## Cells without implementation -/

/-- Every cell object in a slot of the sheet has an implementation: `impl_` is not null. -/
def Sheet.Implemented (s : Sheet) : Prop :=
  Sheet.CellsSatisfy (fun c => c.impl_ ≠ none) s

/-- The call does not run into undefined behaviour, and the sheet it leaves behind, if any,
satisfies `P`. -/
def Res.Defined {α : Type} (P : Sheet → Prop) : Res α → Prop
  | .ok _ s => P s
  | .raised _ s => P s
  | .undefined => False
  | .exhausted => True
/-! ## Basic facts about the table -/

namespace Sheet

theorem slot_setSlot_ne (s : Sheet) (row col row' col' : Nat) (v : Option Cell)
    (h : row ≠ row' ∨ col ≠ col') : (s.setSlot row col v).slot row' col' = s.slot row' col' := by
  unfold setSlot
  cases hr : s.table_[row]? with
  | none => rfl
  | some r =>
    simp only [slot]
    by_cases h1 : row = row'
    · subst h1
      have hlt : row < s.table_.length := by
        rcases List.getElem?_eq_some.mp hr with ⟨h2, _⟩
        exact h2
      have hc : col ≠ col' := by
        rcases h with h | h
        · exact absurd rfl h
        · exact h
      simp [List.getElem?_set, hlt, hr, hc]
    · simp [List.getElem?_set, h1]

theorem slot_setSlot_same (s : Sheet) (row col : Nat) (v : Option Cell)
    (h : s.inRange row col) : (s.setSlot row col v).slot row col = v := by
  rcases h with ⟨r, hr, hc⟩
  have hlt : row < s.table_.length := by
    rcases List.getElem?_eq_some.mp hr with ⟨h2, _⟩
    exact h2
  simp [setSlot, slot, hr, List.getElem?_set, hlt, hc]

theorem inRange_setSlot (s : Sheet) (row col row' col' : Nat) (v : Option Cell) :
    (s.setSlot row col v).inRange row' col' ↔ s.inRange row' col' := by
  unfold setSlot
  cases hr : s.table_[row]? with
  | none => rfl
  | some r =>
    have hlt : row < s.table_.length := by
      rcases List.getElem?_eq_some.mp hr with ⟨h2, _⟩
      exact h2
    simp only [inRange]
    by_cases h1 : row = row'
    · subst h1
      simp [List.getElem?_set, hlt, hr]
    · simp [List.getElem?_set, h1]

theorem slot_eq_none_of_not_inRange (s : Sheet) (row col : Nat) (h : ¬ s.inRange row col) :
    s.slot row col = none := by
  unfold slot
  cases hr : s.table_[row]? with
  | none => rfl
  | some r =>
    have hc : r.length ≤ col := by
      by_contra hlt
      exact h ⟨r, hr, by omega⟩
    simp [List.getElem?_eq_none hc]

theorem inRange_of_slot_eq_some (s : Sheet) (row col : Nat) (c : Cell)
    (h : s.slot row col = some c) : s.inRange row col := by
  by_contra hn
  rw [slot_eq_none_of_not_inRange s row col hn] at h
  cases h

theorem setSlot_allocated (s : Sheet) (row col : Nat) (v : Option Cell) :
    (s.setSlot row col v).allocated = s.allocated := by
  unfold setSlot
  cases s.table_[row]? <;> rfl

/-- The table after the first `resize` of `OptionalTableResize`. -/
theorem slot_grow_rows (t : List (List (Option Cell))) (n row col : Nat) (a : Nat) :
    slot ⟨t ++ List.replicate n [], a⟩ row col = slot ⟨t, a⟩ row col := by
  simp only [slot]
  by_cases h : row < t.length
  · simp [List.getElem?_append_left h]
  · have h' : t.length ≤ row := by omega
    rw [List.getElem?_append_right h', List.getElem?_eq_none h', List.getElem?_replicate]
    by_cases h2 : row - t.length < n
    · simp [h2]
    · simp [h2]

/-- The table after the second `resize` of `OptionalTableResize`. -/
theorem slot_grow_cols (t : List (List (Option Cell))) (r : List (Option Cell))
    (n row0 row col : Nat) (a : Nat) (hr : t[row0]? = some r) :
    slot ⟨t.set row0 (r ++ List.replicate n none), a⟩ row col = slot ⟨t, a⟩ row col := by
  have hlt : row0 < t.length := by
    rcases List.getElem?_eq_some.mp hr with ⟨h2, _⟩
    exact h2
  simp only [slot]
  by_cases h1 : row0 = row
  · subst h1
    simp only [List.getElem?_set, hlt, if_true, hr]
    by_cases h : col < r.length
    · simp [List.getElem?_append_left h]
    · have h' : r.length ≤ col := by omega
      rw [List.getElem?_append_right h', List.getElem?_eq_none h', List.getElem?_replicate]
      by_cases h2 : col - r.length < n
      · simp [h2]
      · simp [h2]
  · simp [List.getElem?_set, h1]

theorem slot_OptionalTableResize (s : Sheet) (pos : Position) (row col : Nat) :
    (s.OptionalTableResize pos).slot row col = s.slot row col := by
  cases s with
  | mk t a =>
    have h1 : ∀ (t1 : List (List (Option Cell))),
        t1 = (if pos.row.toNat ≥ t.length then
          t ++ List.replicate (pos.row.toNat + 1 - t.length) [] else t) →
        slot ⟨t1, a⟩ row col = slot ⟨t, a⟩ row col := by
      intro t1 ht1
      subst ht1
      split
      · exact slot_grow_rows t _ row col a
      · rfl
    simp only [OptionalTableResize]
    generalize ht1 : (if pos.row.toNat ≥ t.length then
          t ++ List.replicate (pos.row.toNat + 1 - t.length) [] else t) = t1
    have h2 := h1 t1 ht1.symm
    cases hr : t1[pos.row.toNat]? with
    | none => exact h2
    | some r =>
      simp only
      split
      · rw [slot_grow_cols _ r _ _ row col a hr]
        exact h2
      · exact h2

theorem inRange_OptionalTableResize (s : Sheet) (pos : Position) :
    (s.OptionalTableResize pos).inRange pos.row.toNat pos.col.toNat := by
  cases s with
  | mk t a =>
    simp only [OptionalTableResize]
    generalize ht1 : (if pos.row.toNat ≥ t.length then
          t ++ List.replicate (pos.row.toNat + 1 - t.length) [] else t) = t1
    have hlen : pos.row.toNat < t1.length := by
      subst ht1
      split
      · simp only [List.length_append, List.length_replicate]
        omega
      · omega
    cases hr : t1[pos.row.toNat]? with
    | none =>
      rw [List.getElem?_eq_none_iff] at hr
      omega
    | some r =>
      simp only
      split
      · refine ⟨r ++ List.replicate (pos.col.toNat + 1 - r.length) none, ?_, ?_⟩
        · simp [List.getElem?_set, hlen]
        · simp only [List.length_append, List.length_replicate]
          omega
      · exact ⟨r, hr, by omega⟩

theorem inRange_OptionalTableResize_mono (s : Sheet) (pos : Position) (row col : Nat)
    (h : s.inRange row col) : (s.OptionalTableResize pos).inRange row col := by
  cases s with
  | mk t a =>
    rcases h with ⟨r0, hr0, hc0⟩
    have hrow : row < t.length := by
      rcases List.getElem?_eq_some.mp hr0 with ⟨h2, _⟩
      exact h2
    simp only [OptionalTableResize]
    generalize ht1 : (if pos.row.toNat ≥ t.length then
          t ++ List.replicate (pos.row.toNat + 1 - t.length) [] else t) = t1
    have h1 : t1[row]? = some r0 := by
      subst ht1
      split
      · rw [List.getElem?_append_left hrow]
        exact hr0
      · exact hr0
    cases hr : t1[pos.row.toNat]? with
    | none => exact ⟨r0, h1, hc0⟩
    | some r =>
      have hlen : pos.row.toNat < t1.length := by
        rcases List.getElem?_eq_some.mp hr with ⟨h2, _⟩
        exact h2
      simp only
      split
      · by_cases hrr : pos.row.toNat = row
        · refine ⟨r ++ List.replicate (pos.col.toNat + 1 - r.length) none, ?_, ?_⟩
          · have hlen2 : row < t1.length := by omega
            simp [List.getElem?_set, hlen2, hrr]
          · rw [hrr, h1] at hr
            cases hr
            simp only [List.length_append, List.length_replicate]
            omega
        · refine ⟨r0, ?_, hc0⟩
          simp only [inRange, List.getElem?_set, hrr, if_false]
          exact h1
      · exact ⟨r0, h1, hc0⟩

theorem OptionalTableResize_allocated (s : Sheet) (pos : Position) :
    (s.OptionalTableResize pos).allocated = s.allocated := by
  simp only [OptionalTableResize]
  split
  · rfl
  · split <;> rfl

end Sheet

/-! ## Pointers, `GetCell` and materialisation -/

namespace Position

theorem eq_of_toNat_eq (p q : Position) (hp : p.IsValid = true) (hq : q.IsValid = true)
    (hr : p.row.toNat = q.row.toNat) (hc : p.col.toNat = q.col.toNat) : p = q := by
  cases p with
  | mk pr pc =>
    cases q with
    | mk qr qc =>
      simp only [IsValid, Bool.and_eq_true, decide_eq_true_eq] at hp hq
      simp only at hr hc
      have h1 : pr = qr := by omega
      have h2 : pc = qc := by omega
      rw [h1, h2]

end Position

namespace Sheet

theorem GetCell_valid (s : Sheet) (pos : Position) (h : pos.IsValid = true) :
    s.GetCell pos = .ok ((s.cellAt pos).map fun c => ⟨pos, c.serial⟩) s := by
  simp only [GetCell, h, Bool.not_true, cellAt, slot]
  cases h1 : s.table_[pos.row.toNat]? with
  | none => simp
  | some r =>
    cases h2 : r[pos.col.toNat]? with
    | none => simp [h2]
    | some c => simp [h2]

theorem GetCell_invalid (s : Sheet) (pos : Position) (h : pos.IsValid = false) :
    s.GetCell pos = .raised .InvalidPosition s := by
  simp [GetCell, h]

theorem deref_eq_some (s : Sheet) (p : CellPtr) (c : Cell) :
    s.deref p = some c ↔
      p.pos.IsValid = true ∧ s.cellAt p.pos = some c ∧ c.serial = p.serial := by
  simp only [deref, cellAt]
  cases hv : p.pos.IsValid with
  | false => simp
  | true =>
    simp only [if_true, true_and]
    cases h : s.slot p.pos.row.toNat p.pos.col.toNat with
    | none => simp
    | some d =>
      by_cases hs : d.serial = p.serial
      · simp only [hs, if_true, Option.some.injEq]
        constructor
        · intro h1
          subst h1
          exact ⟨rfl, hs⟩
        · intro h1
          exact h1.1
      · simp only [hs, if_false, Option.some.injEq]
        constructor
        · intro h1
          cases h1
        · intro h1
          rcases h1 with ⟨h1, h2⟩
          subst h1
          exact absurd h2 hs

theorem deref_ptr_of_cellAt (s : Sheet) (pos : Position) (c : Cell) (hv : pos.IsValid = true)
    (h : s.cellAt pos = some c) : s.deref ⟨pos, c.serial⟩ = some c :=
  (deref_eq_some s ⟨pos, c.serial⟩ c).mpr ⟨hv, h, rfl⟩

theorem slot_store_ne (s : Sheet) (p : CellPtr) (c : Cell) (row col : Nat)
    (h : p.pos.row.toNat ≠ row ∨ p.pos.col.toNat ≠ col) :
    (s.store p c).slot row col = s.slot row col :=
  slot_setSlot_ne s _ _ row col (some c) h

theorem slot_store_same (s : Sheet) (p : CellPtr) (c : Cell)
    (h : s.inRange p.pos.row.toNat p.pos.col.toNat) :
    (s.store p c).slot p.pos.row.toNat p.pos.col.toNat = some c :=
  slot_setSlot_same s _ _ (some c) h

theorem inRange_store (s : Sheet) (p : CellPtr) (c : Cell) (row col : Nat) :
    (s.store p c).inRange row col ↔ s.inRange row col :=
  inRange_setSlot s _ _ row col (some c)

theorem store_allocated (s : Sheet) (p : CellPtr) (c : Cell) :
    (s.store p c).allocated = s.allocated :=
  setSlot_allocated s _ _ (some c)

theorem deref_store_same (s : Sheet) (p : CellPtr) (c : Cell) (hv : p.pos.IsValid = true)
    (h : s.inRange p.pos.row.toNat p.pos.col.toNat) (hs : c.serial = p.serial) :
    (s.store p c).deref p = some c := by
  rw [deref_eq_some]
  exact ⟨hv, slot_store_same s p c h, hs⟩

/-- Writing back the object a pointer refers to changes no slot. -/
theorem slot_store_self (s : Sheet) (p : CellPtr) (c : Cell) (h : s.deref p = some c)
    (row col : Nat) : (s.store p c).slot row col = s.slot row col := by
  rw [deref_eq_some] at h
  by_cases hne : p.pos.row.toNat ≠ row ∨ p.pos.col.toNat ≠ col
  · exact slot_store_ne s p c row col hne
  · have h1 : p.pos.row.toNat = row := by
      by_contra hx
      exact hne (Or.inl hx)
    have h2 : p.pos.col.toNat = col := by
      by_contra hx
      exact hne (Or.inr hx)
    subst h1
    subst h2
    rw [slot_store_same s p c (inRange_of_slot_eq_some s _ _ c h.2.1)]
    exact h.2.1.symm

end Sheet

namespace Cell

theorem makeImpl_empty : makeImpl "" = some Impl.EmptyImpl := by decide

/-- The call `Set("")` on an object without edges: the object becomes Empty, nothing else
changes. -/
theorem Set_empty_of_no_edges (f : Position → String → Sheet → Res Unit) (self : CellPtr)
    (s : Sheet) (c : Cell) (h : s.deref self = some c) (hr : c.referenced_cells_ = [])
    (hd : c.dependent_cells_ = []) :
    ∃ s', Cell.Set f self "" s = .ok () s' ∧ s'.allocated = s.allocated ∧
      s'.deref self = some { c with impl_ := some .EmptyImpl } ∧
      (∀ row col, (self.pos.row.toNat ≠ row ∨ self.pos.col.toNat ≠ col) →
        s'.slot row col = s.slot row col) ∧
      (∀ row col, s'.inRange row col ↔ s.inRange row col) := by
  obtain ⟨ser, im, deps, refs⟩ := c
  simp only at hr hd
  subst hr hd
  have hval : self.pos.IsValid = true := ((Sheet.deref_eq_some s self _).mp h).1
  have hin : s.inRange self.pos.row.toNat self.pos.col.toNat :=
    Sheet.inRange_of_slot_eq_some s _ _ _ ((Sheet.deref_eq_some s self _).mp h).2.1
  have hser : ser = self.serial := ((Sheet.deref_eq_some s self _).mp h).2.2
  have hs1in : ∀ (t : Sheet), (∀ row col, t.inRange row col ↔ s.inRange row col) →
      (t.store self ⟨ser, some .EmptyImpl, [], []⟩).deref self
        = some ⟨ser, some .EmptyImpl, [], []⟩ := by
    intro t ht
    exact Sheet.deref_store_same t self _ hval ((ht _ _).mpr hin) hser
  have e1 := hs1in s (fun _ _ => Iff.rfl)
  have e2 := hs1in _ (fun row col => Sheet.inRange_store s self ⟨ser, some .EmptyImpl, [], []⟩ row col)
  have e3 := hs1in ((s.store self ⟨ser, some .EmptyImpl, [], []⟩).store self
      ⟨ser, some .EmptyImpl, [], []⟩) (fun row col => by
      rw [Sheet.inRange_store, Sheet.inRange_store])
  refine ⟨((s.store self ⟨ser, some .EmptyImpl, [], []⟩).store self
      ⟨ser, some .EmptyImpl, [], []⟩).store self ⟨ser, some .EmptyImpl, [], []⟩, ?_, ?_, e3, ?_, ?_⟩
  · simp only [Cell.Set, makeImpl_empty, Impl.GetReferencedCells, CreateEmptyCells, Res.bind,
      IsCircularDependent, IsCircularDependentLoop, h, Bool.false_eq_true, if_false,
      RemoveInvalidLinks, e1, RemoveInvalidLinksLoop, AddNewLinks,
      Cell.GetReferencedCells, e2, AddNewLinksLoop, Cell.IsCacheValid, Impl.IsCacheValid,
      if_true, Cell.InvalidateCache, Impl.InvalidateCache, InvalidateDependentCache, e3,
      List.reverse_nil, InvalidateDependentCacheLoop]
  · simp only [Sheet.store_allocated]
  · intro row col hne
    rw [Sheet.slot_store_ne _ _ _ _ _ hne, Sheet.slot_store_ne _ _ _ _ _ hne,
      Sheet.slot_store_ne _ _ _ _ _ hne]
  · intro row col
    rw [Sheet.inRange_store, Sheet.inRange_store, Sheet.inRange_store]

end Cell

namespace Sheet

theorem slot_withAllocated (s : Sheet) (a : Nat) (row col : Nat) :
    ({ s with allocated := a } : Sheet).slot row col = s.slot row col := rfl

theorem inRange_withAllocated (s : Sheet) (a : Nat) (row col : Nat) :
    ({ s with allocated := a } : Sheet).inRange row col ↔ s.inRange row col := Iff.rfl

/-- The cell pointer `ensureCell` returns is live. -/
theorem ensureCell_deref (s : Sheet) (pos : Position) (hv : pos.IsValid = true) :
    ∃ c, (s.ensureCell pos).2.deref (s.ensureCell pos).1 = some c ∧
      (∀ c0, s.cellAt pos = some c0 → c = c0) ∧
      (s.cellAt pos = none → c = ⟨s.allocated, none, [], []⟩) := by
  have hin := inRange_OptionalTableResize s pos
  simp only [ensureCell]
  cases h1 : (s.OptionalTableResize pos).slot pos.row.toNat pos.col.toNat with
  | some c =>
    refine ⟨c, ?_, ?_, ?_⟩
    · exact deref_ptr_of_cellAt _ pos c hv h1
    · intro c0 hc0
      rw [slot_OptionalTableResize] at h1
      simp only [cellAt] at hc0
      rw [hc0] at h1
      cases h1
      rfl
    · intro hn
      rw [slot_OptionalTableResize] at h1
      simp only [cellAt] at hn
      rw [hn] at h1
      cases h1
  | none =>
    refine ⟨⟨s.allocated, none, [], []⟩, ?_, ?_, fun _ => rfl⟩
    · rw [deref_eq_some]
      refine ⟨hv, ?_, ?_⟩
      · simp only [cellAt]
        rw [slot_withAllocated, slot_setSlot_same _ _ _ _ hin, OptionalTableResize_allocated]
      · simp [OptionalTableResize_allocated]
    · intro c0 hc0
      rw [slot_OptionalTableResize] at h1
      simp only [cellAt] at hc0
      rw [hc0] at h1
      cases h1

theorem ensureCell_pos (s : Sheet) (pos : Position) : (s.ensureCell pos).1.pos = pos := by
  simp only [ensureCell]
  split <;> rfl

theorem ensureCell_slot_ne (s : Sheet) (pos : Position) (row col : Nat)
    (hne : pos.row.toNat ≠ row ∨ pos.col.toNat ≠ col) :
    (s.ensureCell pos).2.slot row col = s.slot row col := by
  simp only [ensureCell]
  split
  · exact slot_OptionalTableResize s pos row col
  · simp only
    rw [slot_withAllocated, slot_setSlot_ne _ _ _ _ _ _ hne, slot_OptionalTableResize]

/-- A cell that is present stays where it is and as it is. -/
theorem ensureCell_slot_some (s : Sheet) (pos : Position) (row col : Nat) (c : Cell)
    (h : s.slot row col = some c) : (s.ensureCell pos).2.slot row col = some c := by
  by_cases hne : pos.row.toNat ≠ row ∨ pos.col.toNat ≠ col
  · rw [ensureCell_slot_ne s pos row col hne]
    exact h
  · have e1 : pos.row.toNat = row := by
      by_contra hx
      exact hne (Or.inl hx)
    have e2 : pos.col.toNat = col := by
      by_contra hx
      exact hne (Or.inr hx)
    subst e1
    subst e2
    simp only [ensureCell]
    rw [slot_OptionalTableResize, h]
    simp only
    rw [slot_OptionalTableResize]
    exact h

theorem ensureCell_inRange (s : Sheet) (pos : Position) (row col : Nat)
    (h : s.inRange row col) : (s.ensureCell pos).2.inRange row col := by
  simp only [ensureCell]
  split
  · exact inRange_OptionalTableResize_mono s pos row col h
  · simp only
    rw [inRange_withAllocated, inRange_setSlot]
    exact inRange_OptionalTableResize_mono s pos row col h

/-- Where the position already holds a cell, `ensureCell` changes no slot. -/
theorem ensureCell_slot_of_present (s : Sheet) (pos : Position) (c : Cell)
    (h : s.cellAt pos = some c) (row col : Nat) :
    (s.ensureCell pos).2.slot row col = s.slot row col := by
  simp only [ensureCell]
  simp only [cellAt] at h
  rw [slot_OptionalTableResize, h]
  simp only
  exact slot_OptionalTableResize s pos row col

/-- The call `SetCell(q, "")` on a valid position without a cell constructs an Empty cell there and
leaves every other slot alone. -/
theorem SetCellAux_empty_absent (n : Nat) (s : Sheet) (q : Position) (hq : q.IsValid = true)
    (habs : s.cellAt q = none) :
    ∃ s', SetCellAux (n + 1) q "" s = .ok () s' ∧
      s'.cellAt q = some ⟨s.allocated, some .EmptyImpl, [], []⟩ ∧
      (∀ row col, (q.row.toNat ≠ row ∨ q.col.toNat ≠ col) → s'.slot row col = s.slot row col) ∧
      (∀ row col, s.inRange row col → s'.inRange row col) := by
  rcases ensureCell_deref s q hq with ⟨c, hd, _, hc⟩
  have hc' := hc habs
  subst hc'
  rcases Cell.Set_empty_of_no_edges (SetCellAux n) (s.ensureCell q).1 _ _
    hd rfl rfl with ⟨s', hs', ha, hde, hsl, hir⟩
  refine ⟨s', ?_, ?_, ?_, ?_⟩
  · simp only [SetCellAux, hq, Bool.not_true, Bool.false_eq_true, if_false]
    exact hs'
  · rw [deref_eq_some, ensureCell_pos] at hde
    exact hde.2.1
  · intro row col hne
    rw [ensureCell_pos] at hsl
    rw [hsl row col hne, ensureCell_slot_ne s q row col hne]
  · intro row col hrc
    rw [hir]
    exact ensureCell_inRange s q row col hrc

end Sheet

/-! ## Referenced positions of a parsed formula are valid -/

theorem mem_sortInsert (p q : Position) (l : List Position) :
    q ∈ sortInsert p l ↔ q = p ∨ q ∈ l := by
  induction l with
  | nil => simp [sortInsert]
  | cons a l ih =>
    simp only [sortInsert]
    split
    · simp only [List.mem_cons, ih]
      tauto
    · simp only [List.mem_cons]

theorem mem_sortPositions (q : Position) (l : List Position) :
    q ∈ sortPositions l ↔ q ∈ l := by
  induction l with
  | nil => simp [sortPositions]
  | cons a l ih =>
    have h : sortPositions (a :: l) = sortInsert a (sortPositions l) := rfl
    rw [h, mem_sortInsert, ih]
    simp

theorem mem_uniquePositions (q : Position) (l : List Position) :
    q ∈ uniquePositions l ↔ q ∈ l := by
  induction l with
  | nil => simp [uniquePositions]
  | cons a l ih =>
    cases l with
    | nil => simp [uniquePositions]
    | cons b rest =>
      simp only [uniquePositions]
      split
      · rename_i hab
        subst hab
        rw [ih]
        simp
      · simp only [List.mem_cons] at ih ⊢
        rw [ih]

theorem FormulaAST.GetCells_valid (ast : FormulaAST) (q : Position) (h : q ∈ ast.GetCells) :
    q.IsValid = true := by
  induction ast with
  | number x => simp [FormulaAST.GetCells] at h
  | cell p =>
    simp only [FormulaAST.GetCells] at h
    split at h
    · simp only [List.mem_singleton] at h
      subst h
      assumption
    · simp at h
  | unary op e ih => exact ih h
  | binary op l r ihl ihr =>
    simp only [FormulaAST.GetCells, List.mem_append] at h
    rcases h with h | h
    · exact ihl h
    · exact ihr h

theorem Formula.create_refs_valid (ast : FormulaAST) (q : Position)
    (h : q ∈ (Formula.create ast).GetReferencedCells) : q.IsValid = true := by
  simp only [Formula.create, Formula.GetReferencedCells, mem_uniquePositions,
    mem_sortPositions] at h
  exact FormulaAST.GetCells_valid ast q h

theorem Cell.makeImpl_refs_valid (text : String) (impl : Impl) (h : Cell.makeImpl text = some impl)
    (q : Position) (hq : q ∈ impl.GetReferencedCells) : q.IsValid = true := by
  simp only [Cell.makeImpl] at h
  split at h
  · simp only [ParseFormula, Option.map_map, Option.map_eq_some', Function.comp] at h
    rcases h with ⟨ast, _, h2⟩
    subst h2
    exact Formula.create_refs_valid ast q hq
  · split at h
    · cases h
      simp [Impl.GetReferencedCells] at hq
    · cases h
      simp [Impl.GetReferencedCells] at hq

/-! ## `CreateEmptyCells` -/

namespace Sheet

theorem ExtendsByEmpty.refl (s : Sheet) : ExtendsByEmpty s s := by
  intro row col
  exact ⟨fun _ h => h, fun h => Or.inl h⟩

theorem ExtendsByEmpty.trans {s t u : Sheet} (h1 : ExtendsByEmpty s t)
    (h2 : ExtendsByEmpty t u) : ExtendsByEmpty s u := by
  intro row col
  refine ⟨fun c hc => (h2 row col).1 c ((h1 row col).1 c hc), fun hn => ?_⟩
  rcases (h1 row col).2 hn with ht | ⟨c, hc, hc'⟩
  · exact (h2 row col).2 ht
  · exact Or.inr ⟨c, (h2 row col).1 c hc, hc'⟩

theorem ExtendsByEmpty.cellAt_ne_none {s t : Sheet} (h : ExtendsByEmpty s t) (q : Position)
    (hq : s.cellAt q ≠ none) : t.cellAt q ≠ none := by
  cases hc : s.cellAt q with
  | none => exact absurd hc hq
  | some c =>
    have := (h q.row.toNat q.col.toNat).1 c hc
    simp [cellAt, this]

end Sheet

namespace Cell

/-- The method `CreateEmptyCells` over valid positions returns normally; it adds Empty cells without
edges in null slots and afterwards every listed position holds a cell. -/
theorem CreateEmptyCells_spec (n : Nat) (refs : List Position) (s : Sheet)
    (hv : ∀ q ∈ refs, q.IsValid = true) :
    ∃ s', CreateEmptyCells (Sheet.SetCellAux (n + 1)) refs s = .ok () s' ∧
      Sheet.ExtendsByEmpty s s' ∧ (∀ q ∈ refs, s'.cellAt q ≠ none) ∧
      (∀ row col, s.inRange row col → s'.inRange row col) := by
  induction refs generalizing s with
  | nil =>
    exact ⟨s, rfl, Sheet.ExtendsByEmpty.refl s, by simp, fun _ _ h => h⟩
  | cons pos rest ih =>
    have hpos : pos.IsValid = true := hv pos (List.mem_cons_self _ _)
    have hrest : ∀ q ∈ rest, q.IsValid = true := fun q hq => hv q (List.mem_cons_of_mem _ hq)
    cases hc : s.cellAt pos with
    | some c =>
      rcases ih s hrest with ⟨s', h1, h2, h3, h4⟩
      refine ⟨s', ?_, h2, ?_, h4⟩
      · simp only [CreateEmptyCells, Sheet.GetCell_valid s pos hpos, hc, Option.map_some',
          Res.bind]
        exact h1
      · intro q hq
        rcases List.mem_cons.mp hq with hq | hq
        · subst hq
          exact h2.cellAt_ne_none q (by simp [hc])
        · exact h3 q hq
    | none =>
      rcases Sheet.SetCellAux_empty_absent n s pos hpos hc with ⟨s1, e1, c1, o1, r1⟩
      rcases ih s1 hrest with ⟨s', h1, h2, h3, h4⟩
      have hext : Sheet.ExtendsByEmpty s s1 := by
        intro row col
        by_cases hne : pos.row.toNat ≠ row ∨ pos.col.toNat ≠ col
        · rw [o1 row col hne]
          exact ⟨fun _ h => h, fun h => Or.inl h⟩
        · have e1 : pos.row.toNat = row := by
            by_contra hx
            exact hne (Or.inl hx)
          have e2 : pos.col.toNat = col := by
            by_contra hx
            exact hne (Or.inr hx)
          subst e1
          subst e2
          refine ⟨fun c hcc => ?_, fun _ => Or.inr ⟨_, c1, rfl, rfl, rfl⟩⟩
          simp only [Sheet.cellAt] at hc
          rw [hc] at hcc
          cases hcc
      refine ⟨s', ?_, hext.trans h2, ?_, fun row col h => h4 row col (r1 row col h)⟩
      · simp only [CreateEmptyCells, Sheet.GetCell_valid s pos hpos, hc, Option.map_none',
          Res.bind, e1]
        exact h1
      · intro q hq
        rcases List.mem_cons.mp hq with hq | hq
        · subst hq
          exact h2.cellAt_ne_none q (by simp [c1])
        · exact h3 q hq

end Cell

/-! ## The cycle detector -/

namespace Sheet

theorem Reaches.mono {s : Sheet} {target : Position} {refs refs' : List Position}
    (h : Reaches s target refs) (hsub : ∀ q ∈ refs, q ∈ refs') : Reaches s target refs' := by
  cases h with
  | here hm => exact Reaches.here (hsub _ hm)
  | step q c impl hq hv hne hc hi hr =>
    exact Reaches.step q c impl (hsub _ hq) hv hne hc hi hr

theorem Reaches.not_nil {s : Sheet} {target : Position} (h : Reaches s target []) : False := by
  cases h with
  | here hm => simp at hm
  | step q c impl hq hv hne hc hi hr => simp at hq

/-- Reachability only looks at cells whose implementation references something. -/
theorem Reaches.transfer {s t : Sheet} {target : Position} {refs : List Position}
    (h : Reaches t target refs)
    (hst : ∀ q c impl, q.IsValid = true → q ≠ target → t.cellAt q = some c →
      c.impl_ = some impl → impl.GetReferencedCells ≠ [] → s.cellAt q = some c) :
    Reaches s target refs := by
  induction h with
  | here hm => exact Reaches.here hm
  | step q c impl hq hv hne hc hi hr ih =>
    by_cases hnil : impl.GetReferencedCells = []
    · rw [hnil] at hr
      exact absurd hr (fun h => Reaches.not_nil h)
    · exact Reaches.step q c impl hq hv hne (hst q c impl hv hne hc hi hnil) hi ih

end Sheet

namespace Cell

theorem IsCircularDependentLoop_sound (s : Sheet) (source : CellPtr)
    (recurse : Option Impl → List (Option CellPtr) → Res Bool)
    (hrec : ∀ cur vis t, recurse cur vis = .ok true t →
      ∃ impl, cur = some impl ∧ Sheet.Reaches s source.pos impl.GetReferencedCells)
    (hlive : s.deref source ≠ none) (visited : List (Option CellPtr)) (refs : List Position)
    (t : Sheet) (h : IsCircularDependentLoop s source recurse visited refs = .ok true t) :
    Sheet.Reaches s source.pos refs := by
  induction refs with
  | nil => simp [IsCircularDependentLoop] at h
  | cons pos rest ih =>
    simp only [IsCircularDependentLoop] at h
    cases hv : pos.IsValid with
    | false =>
      rw [Sheet.GetCell_invalid s pos hv] at h
      simp [Res.bind] at h
    | true =>
      rw [Sheet.GetCell_valid s pos hv] at h
      simp only [Res.bind] at h
      split at h
      · -- the cell is `source`
        rename_i heq
        cases hc : s.cellAt pos with
        | none => simp [hc] at heq
        | some c =>
          simp only [hc, Option.map_some', Option.some.injEq] at heq
          have hp : pos = source.pos := by
            rw [← heq]
          exact Sheet.Reaches.here (by simp [hp])
      · rename_i hne
        split at h
        · exact (ih h).mono (fun q hq => List.mem_cons_of_mem _ hq)
        · cases hc : s.cellAt pos with
          | none => simp [hc] at h
          | some c =>
            simp only [hc, Option.map_some'] at h hne
            rw [Sheet.deref_ptr_of_cellAt s pos c hv hc] at h
            simp only at h
            rcases hrec _ _ _ h with ⟨impl, hi, hr⟩
            have hpne : pos ≠ source.pos := by
              intro hp
              apply hne
              cases hl : s.deref source with
              | none => exact absurd hl hlive
              | some c' =>
                rw [Sheet.deref_eq_some] at hl
                rw [← hp, hc] at hl
                rcases hl with ⟨_, h1, h2⟩
                cases h1
                cases source
                simp only at hp h2
                simp [hp, h2]
            exact Sheet.Reaches.step pos c impl (List.mem_cons_self _ _) hv hpne hc hi hr

/-- The detector answers `true` only when following the references leads to `source`. -/
theorem IsCircularDependent_sound (n : Nat) (s : Sheet) (source : CellPtr)
    (hlive : s.deref source ≠ none) (current : Option Impl) (visited : List (Option CellPtr))
    (t : Sheet) (h : IsCircularDependent n s source current visited = .ok true t) :
    ∃ impl, current = some impl ∧ Sheet.Reaches s source.pos impl.GetReferencedCells := by
  induction n generalizing current visited t with
  | zero => simp [IsCircularDependent] at h
  | succ n ih =>
    cases current with
    | none => simp [IsCircularDependent] at h
    | some impl =>
      simp only [IsCircularDependent] at h
      exact ⟨impl, rfl, IsCircularDependentLoop_sound s source _
        (fun cur vis t ht => ih cur vis t ht) hlive visited _ t h⟩

/-- The detector leaves the sheet alone and raises nothing but invalid-position. -/
theorem IsCircularDependentLoop_res (s : Sheet) (source : CellPtr)
    (recurse : Option Impl → List (Option CellPtr) → Res Bool)
    (hrec : ∀ cur vis, (∃ b, recurse cur vis = .ok b s) ∨
      recurse cur vis = .raised .InvalidPosition s ∨ recurse cur vis = .undefined ∨
      recurse cur vis = .exhausted)
    (visited : List (Option CellPtr)) (refs : List Position) :
    (∃ b, IsCircularDependentLoop s source recurse visited refs = .ok b s) ∨
      IsCircularDependentLoop s source recurse visited refs = .raised .InvalidPosition s ∨
      IsCircularDependentLoop s source recurse visited refs = .undefined ∨
      IsCircularDependentLoop s source recurse visited refs = .exhausted := by
  induction refs with
  | nil => exact Or.inl ⟨false, rfl⟩
  | cons pos rest ih =>
    simp only [IsCircularDependentLoop]
    cases hv : pos.IsValid with
    | false =>
      rw [Sheet.GetCell_invalid s pos hv]
      exact Or.inr (Or.inl rfl)
    | true =>
      rw [Sheet.GetCell_valid s pos hv]
      simp only [Res.bind]
      split
      · exact Or.inl ⟨true, rfl⟩
      · split
        · exact ih
        · cases hc : s.cellAt pos with
          | none => exact Or.inr (Or.inr (Or.inl rfl))
          | some c =>
            simp only [Option.map_some']
            cases hd : s.deref ⟨pos, c.serial⟩ with
            | none => exact Or.inr (Or.inr (Or.inl rfl))
            | some c' => exact hrec _ _

theorem IsCircularDependent_res (n : Nat) (s : Sheet) (source : CellPtr)
    (current : Option Impl) (visited : List (Option CellPtr)) :
    (∃ b, IsCircularDependent n s source current visited = .ok b s) ∨
      IsCircularDependent n s source current visited = .raised .InvalidPosition s ∨
      IsCircularDependent n s source current visited = .undefined ∨
      IsCircularDependent n s source current visited = .exhausted := by
  induction n generalizing current visited with
  | zero => exact Or.inr (Or.inr (Or.inr rfl))
  | succ n ih =>
    cases current with
    | none => exact Or.inr (Or.inr (Or.inl rfl))
    | some impl =>
      simp only [IsCircularDependent]
      exact IsCircularDependentLoop_res s source _ (fun cur vis => ih cur vis) visited _

end Cell

/-! ## What `Cell::Set` and `Sheet::SetCell` can raise -/

namespace Cell

theorem RemoveInvalidLinksLoop_not_raised (self : CellPtr) (l : List CellPtr) (s : Sheet)
    (e : Exception) (t : Sheet) : RemoveInvalidLinksLoop self l s ≠ .raised e t := by
  induction l generalizing s with
  | nil => simp [RemoveInvalidLinksLoop]
  | cons p rest ih =>
    simp only [RemoveInvalidLinksLoop]
    cases s.deref p with
    | none => simp
    | some c => exact ih _

theorem RemoveInvalidLinks_not_raised (self : CellPtr) (s : Sheet) (e : Exception)
    (t : Sheet) : RemoveInvalidLinks self s ≠ .raised e t := by
  simp only [RemoveInvalidLinks]
  cases s.deref self with
  | none => simp
  | some c =>
    simp only
    cases h : RemoveInvalidLinksLoop self c.referenced_cells_ s with
    | ok a s1 =>
      simp only [Res.bind]
      cases s1.deref self <;> simp
    | raised e1 s1 => exact absurd h (RemoveInvalidLinksLoop_not_raised _ _ _ _ _)
    | undefined => simp [Res.bind]
    | exhausted => simp [Res.bind]

theorem AddNewLinksLoop_raised (self : CellPtr) (l : List Position) (s : Sheet)
    (e : Exception) (t : Sheet) (h : AddNewLinksLoop self l s = .raised e t) :
    e = .InvalidPosition := by
  induction l generalizing s with
  | nil => simp [AddNewLinksLoop] at h
  | cons pos rest ih =>
    simp only [AddNewLinksLoop] at h
    cases hv : pos.IsValid with
    | false =>
      rw [Sheet.GetCell_invalid s pos hv] at h
      simp only [Res.bind, Res.raised.injEq] at h
      exact h.1.symm
    | true =>
      rw [Sheet.GetCell_valid s pos hv] at h
      simp only [Res.bind] at h
      cases hc : s.cellAt pos with
      | none => simp [hc] at h
      | some c =>
        simp only [hc, Option.map_some'] at h
        cases hd : s.deref self with
        | none => simp [hd] at h
        | some me =>
          simp only [hd] at h
          split at h
          · cases h
          · exact ih _ h

theorem AddNewLinks_raised (self : CellPtr) (s : Sheet) (e : Exception) (t : Sheet)
    (h : AddNewLinks self s = .raised e t) : e = .InvalidPosition := by
  simp only [AddNewLinks, GetReferencedCells] at h
  cases hd : s.deref self with
  | none => simp [hd, Res.bind] at h
  | some c =>
    simp only [hd] at h
    cases hi : c.impl_ with
    | none => simp [hi, Res.bind] at h
    | some impl =>
      simp only [hi, Res.bind] at h
      exact AddNewLinksLoop_raised self _ s e t h

theorem InvalidateDependentCacheLoop_not_raised (n : Nat) (to_visit visited : List CellPtr)
    (s : Sheet) (e : Exception) (t : Sheet) :
    InvalidateDependentCacheLoop n to_visit visited s ≠ .raised e t := by
  induction n generalizing to_visit visited s with
  | zero =>
    cases to_visit <;> simp [InvalidateDependentCacheLoop]
  | succ n ih =>
    cases to_visit with
    | nil => simp [InvalidateDependentCacheLoop]
    | cons cell rest =>
      simp only [InvalidateDependentCacheLoop]
      split
      · exact ih _ _ _
      · cases s.deref cell with
        | none => simp
        | some c =>
          simp only
          cases c.impl_ with
          | none => simp
          | some impl => exact ih _ _ _

theorem InvalidateDependentCache_not_raised (self : CellPtr) (s : Sheet) (e : Exception)
    (t : Sheet) : InvalidateDependentCache self s ≠ .raised e t := by
  simp only [InvalidateDependentCache]
  cases s.deref self with
  | none => simp
  | some c => exact InvalidateDependentCacheLoop_not_raised _ _ _ _ _ _

/-- A `Set` that raises something other than invalid-position raises formula-syntax, with the
sheet untouched, or circular-dependency, with the sheet as `CreateEmptyCells` left it. -/
theorem Set_raised_cases (n : Nat) (self : CellPtr) (text : String) (s s' : Sheet)
    (e : Exception) (h : Cell.Set (Sheet.SetCellAux (n + 1)) self text s = .raised e s')
    (he : e ≠ .InvalidPosition) :
    (makeImpl text = none ∧ e = .FormulaException ∧ s' = s) ∨
    (∃ temp, makeImpl text = some temp ∧ e = .CircularDependency ∧
      CreateEmptyCells (Sheet.SetCellAux (n + 1)) temp.GetReferencedCells s = .ok () s' ∧
      IsCircularDependent (s'.slotCount + 2) s' self (some temp) [] = .ok true s') := by
  simp only [Cell.Set] at h
  cases hm : makeImpl text with
  | none =>
    simp only [hm, Res.raised.injEq] at h
    exact Or.inl ⟨rfl, h.1.symm, h.2.symm⟩
  | some temp =>
    right
    simp only [hm] at h
    rcases CreateEmptyCells_spec n temp.GetReferencedCells s
      (fun q hq => makeImpl_refs_valid text temp hm q hq) with ⟨s1, h1, _, _, _⟩
    rw [h1] at h
    simp only [Res.bind] at h
    rcases IsCircularDependent_res (s1.slotCount + 2) s1 self (some temp) []
      with ⟨b, hb⟩ | hb | hb | hb
    · rw [hb] at h
      simp only at h
      cases b with
      | true =>
        simp only [if_true, Res.raised.injEq] at h
        rcases h with ⟨h2, h3⟩
        subst h3
        exact ⟨temp, rfl, h2.symm, h1, hb⟩
      | false =>
        exfalso
        simp only [Bool.false_eq_true, if_false] at h
        cases hd : s1.deref self with
        | none => simp [hd] at h
        | some c =>
          simp only [hd] at h
          cases hr : RemoveInvalidLinks self
              (s1.store self { c with impl_ := some temp }) with
          | raised e1 t1 => exact RemoveInvalidLinks_not_raised _ _ _ _ hr
          | undefined => simp [hr] at h
          | exhausted => simp [hr] at h
          | ok u s2 =>
            simp only [hr] at h
            cases ha : AddNewLinks self s2 with
            | raised e1 t1 =>
              simp only [ha, Res.raised.injEq] at h
              rw [← h.1] at he
              exact he (AddNewLinks_raised self s2 e1 t1 ha)
            | undefined => simp [ha] at h
            | exhausted => simp [ha] at h
            | ok u2 s3 =>
              simp only [ha, IsCacheValid] at h
              cases hd3 : s3.deref self with
              | none => simp [hd3] at h
              | some c3 =>
                simp only [hd3] at h
                cases hi3 : c3.impl_ with
                | none => simp [hi3] at h
                | some impl3 =>
                  simp only [hi3] at h
                  split at h
                  · simp only [InvalidateCache, hd3, hi3, Res.bind] at h
                    exact InvalidateDependentCache_not_raised _ _ _ _ h
                  · cases h
    · rw [hb] at h
      simp only [Res.raised.injEq] at h
      exact absurd h.1.symm he
    · rw [hb] at h
      cases h
    · rw [hb] at h
      cases h

end Cell

/-! ## A `SetCell` that raises -/

namespace Sheet

theorem idx_ne_of_valid (p q : Position) (hp : p.IsValid = true) (hq : q.IsValid = true)
    (h : q ≠ p) : p.row.toNat ≠ q.row.toNat ∨ p.col.toNat ≠ q.col.toNat := by
  by_contra hn
  apply h
  have h1 : p.row.toNat = q.row.toNat := by
    by_contra hx
    exact hn (Or.inl hx)
  have h2 : p.col.toNat = q.col.toNat := by
    by_contra hx
    exact hn (Or.inr hx)
  exact (Position.eq_of_toNat_eq p q hp hq h1 h2).symm

theorem SetCell_invalid (pos : Position) (text : String) (s : Sheet)
    (hv : pos.IsValid = false) : SetCell pos text s = .raised .InvalidPosition s := by
  unfold SetCell
  rw [SetCellAux]
  simp [hv]

theorem SetCell_valid (pos : Position) (text : String) (s : Sheet) (hv : pos.IsValid = true) :
    SetCell pos text s
      = Cell.Set (SetCellAux 1) (s.ensureCell pos).1 text (s.ensureCell pos).2 := by
  unfold SetCell
  rw [SetCellAux]
  simp [hv]

/-- The anatomy of a `SetCell` that raises formula-syntax or circular-dependency: the
position is valid, the sheet left behind extends the sheet after `ensureCell` by Empty
cells, and in the circular case the detector answered `true` on the sheet left behind. -/
theorem SetCell_raised_cases (pos : Position) (text : String) (s s' : Sheet) (e : Exception)
    (h : SetCell pos text s = .raised e s') (he : e ≠ .InvalidPosition) :
    pos.IsValid = true ∧ ExtendsByEmpty (s.ensureCell pos).2 s' ∧
    ((Cell.makeImpl text = none ∧ e = .FormulaException) ∨
     (∃ temp, Cell.makeImpl text = some temp ∧ e = .CircularDependency ∧
        Cell.IsCircularDependent (s'.slotCount + 2) s' (s.ensureCell pos).1 (some temp) []
          = .ok true s')) := by
  cases hv : pos.IsValid with
  | false =>
    rw [SetCell_invalid pos text s hv] at h
    simp only [Res.raised.injEq] at h
    exact absurd h.1.symm he
  | true =>
    rw [SetCell_valid pos text s hv] at h
    refine ⟨rfl, ?_⟩
    rcases Cell.Set_raised_cases 0 _ text _ s' e h he with ⟨h1, h2, h3⟩ | ⟨temp, h1, h2, h3, h4⟩
    · subst h3
      exact ⟨ExtendsByEmpty.refl _, Or.inl ⟨h1, h2⟩⟩
    · rcases Cell.CreateEmptyCells_spec 0 temp.GetReferencedCells (s.ensureCell pos).2
        (fun q hq => Cell.makeImpl_refs_valid text temp h1 q hq) with ⟨s1, e1, e2, _, _⟩
      rw [h3] at e1
      cases e1
      exact ⟨e2, Or.inr ⟨temp, h1, h2, h4⟩⟩

end Sheet

/-! ## Evaluation on a sheet extended by Empty cells -/

theorem Res.Agree.andThen {α β : Type} {R : Sheet → Sheet → Prop} {r r' : Res α}
    {f f' : α → Sheet → Res β} (h : Res.Agree R r r')
    (hf : ∀ a t t', R t t' → Res.Agree R (f a t) (f' a t')) :
    Res.Agree R (r.bind f) (r'.bind f') := by
  cases r <;> cases r' <;> simp only [Res.Agree] at h <;> simp only [Res.bind, Res.Agree]
  · rcases h with ⟨h1, h2⟩
    subst h1
    exact hf _ _ _ h2
  · exact h

theorem Res.Agree.outcome_eq {α : Type} {R : Sheet → Sheet → Prop} {r r' : Res α}
    (h : Res.Agree R r r') : r.outcome = r'.outcome := by
  cases r <;> cases r' <;> simp only [Res.Agree] at h <;> simp only [Res.outcome]
  · rw [h.1]
  · rw [h.1]

namespace Sheet

theorem ExtendsByEmpty.deref_some {s t : Sheet} (h : ExtendsByEmpty s t) (p : CellPtr)
    (c : Cell) (hc : s.deref p = some c) : t.deref p = some c := by
  rw [deref_eq_some] at hc ⊢
  exact ⟨hc.1, (h _ _).1 c hc.2.1, hc.2.2⟩

theorem ExtendsByEmpty.store_both {s t : Sheet} (h : ExtendsByEmpty s t) (p : CellPtr) (c c2 : Cell)
    (hc : s.deref p = some c) : ExtendsByEmpty (s.store p c2) (t.store p c2) := by
  have hs := (deref_eq_some s p c).mp hc
  have ht := (deref_eq_some t p c).mp (h.deref_some p c hc)
  intro row col
  by_cases hne : p.pos.row.toNat ≠ row ∨ p.pos.col.toNat ≠ col
  · rw [slot_store_ne _ _ _ _ _ hne, slot_store_ne _ _ _ _ _ hne]
    exact h row col
  · have e1 : p.pos.row.toNat = row := by
      by_contra hx
      exact hne (Or.inl hx)
    have e2 : p.pos.col.toNat = col := by
      by_contra hx
      exact hne (Or.inr hx)
    subst e1
    subst e2
    rw [slot_store_same s p c2 (inRange_of_slot_eq_some s _ _ c hs.2.1),
      slot_store_same t p c2 (inRange_of_slot_eq_some t _ _ c ht.2.1)]
    exact ⟨fun _ hx => hx, fun hx => by cases hx⟩

theorem ExtendsByEmpty.setCache_both {s t : Sheet} (h : ExtendsByEmpty s t) (p : CellPtr) (x : ℚ) :
    ExtendsByEmpty (s.setCache p x) (t.setCache p x) := by
  cases hs : s.deref p with
  | some c =>
    have ht := h.deref_some p c hs
    simp only [Sheet.setCache, hs, ht]
    cases hi : c.impl_ with
    | none => exact h
    | some impl =>
      cases impl with
      | EmptyImpl => exact h
      | TextImpl t => exact h
      | FormulaImpl f cache => exact h.store_both p c _ hs
  | none =>
    have e1 : s.setCache p x = s := by
      simp [Sheet.setCache, hs]
    have e2 : t.setCache p x = t := by
      simp only [Sheet.setCache]
      cases ht : t.deref p with
      | none => rfl
      | some c' =>
        simp only
        rw [deref_eq_some] at ht
        cases hsl : s.slot p.pos.row.toNat p.pos.col.toNat with
        | some c0 =>
          have h1 := (h _ _).1 c0 hsl
          simp only [cellAt] at ht
          rw [h1] at ht
          rcases ht with ⟨h0, h2, h3⟩
          rw [Option.some.injEq] at h2
          subst h2
          have : s.deref p = some c0 := (deref_eq_some s p c0).mpr ⟨h0, hsl, h3⟩
          rw [hs] at this
          cases this
        | none =>
          rcases (h _ _).2 hsl with h1 | ⟨c1, h1, h2, _, _⟩
          · simp only [cellAt] at ht
            rw [h1] at ht
            cases ht.2.1
          · simp only [cellAt] at ht
            rw [h1] at ht
            rcases ht with ⟨_, h3, _⟩
            cases h3
            rw [h2]
    rw [e1, e2]
    exact h

end Sheet

theorem FormulaAST.Execute_agree (cv cv' : Position → Sheet → Res ℚ)
    (hcv : ∀ p t t', p.IsValid = true → Sheet.ExtendsByEmpty t t' →
      Res.Agree Sheet.ExtendsByEmpty (cv p t) (cv' p t'))
    (e : FormulaAST) (s s' : Sheet) (h : Sheet.ExtendsByEmpty s s') :
    Res.Agree Sheet.ExtendsByEmpty (e.Execute cv s) (e.Execute cv' s') := by
  induction e generalizing s s' with
  | number x => exact ⟨rfl, h⟩
  | cell p =>
    simp only [FormulaAST.Execute]
    cases hv : p.IsValid with
    | true => exact hcv p s s' hv h
    | false => exact ⟨rfl, h⟩
  | unary op e ih =>
    simp only [FormulaAST.Execute]
    refine (ih s s' h).andThen (fun a t t' ht => ?_)
    cases op
    · exact ⟨rfl, ht⟩
    · exact ⟨rfl, ht⟩
  | binary op l r ihl ihr =>
    simp only [FormulaAST.Execute]
    refine (ihl s s' h).andThen (fun a t t' ht => ?_)
    refine (ihr t t' ht).andThen (fun b u u' hu => ?_)
    cases op
    · exact ⟨rfl, hu⟩
    · exact ⟨rfl, hu⟩
    · exact ⟨rfl, hu⟩
    · simp only
      split
      · exact ⟨rfl, hu⟩
      · exact ⟨rfl, hu⟩

theorem Formula.cell_value_agree (g g' : CellPtr → Sheet → Res Value)
    (hg : ∀ ptr t t', Sheet.ExtendsByEmpty t t' → t.deref ptr ≠ none →
      Res.Agree Sheet.ExtendsByEmpty (g ptr t) (g' ptr t'))
    (hempty : ∀ ptr t' c, t'.deref ptr = some c → c.impl_ = some .EmptyImpl →
      g' ptr t' = .ok (.number 0) t')
    (p : Position) (t t' : Sheet) (hp : p.IsValid = true) (h : Sheet.ExtendsByEmpty t t') :
    Res.Agree Sheet.ExtendsByEmpty (Formula.cell_value g p t) (Formula.cell_value g' p t') := by
  simp only [Formula.cell_value, Sheet.GetCell_valid _ p hp, Res.bind]
  cases hc : t.cellAt p with
  | some c =>
    have hc' : t'.cellAt p = some c := (h _ _).1 c hc
    simp only [hc', Option.map_some']
    have hlive : t.deref ⟨p, c.serial⟩ ≠ none := by
      rw [Sheet.deref_ptr_of_cellAt t p c hp hc]
      simp
    have := hg ⟨p, c.serial⟩ t t' h hlive
    revert this
    cases g ⟨p, c.serial⟩ t <;> cases g' ⟨p, c.serial⟩ t' <;> intro hh <;>
      simp only [Res.Agree] at hh <;> simp only [Res.Agree]
    · rcases hh with ⟨h1, h2⟩
      subst h1
      rename_i v _ _
      cases CellValueHandler v with
      | ok x => exact ⟨rfl, h2⟩
      | error fe => exact ⟨rfl, h2⟩
    · exact hh
  | none =>
    simp only [Option.map_none']
    rcases (h _ _).2 hc with h1 | ⟨c1, h1, h2, _, _⟩
    · have h1' : t'.cellAt p = none := h1
      simp only [h1', Option.map_none']
      exact ⟨rfl, h⟩
    · have h1' : t'.cellAt p = some c1 := h1
      simp only [h1', Option.map_some']
      rw [hempty ⟨p, c1.serial⟩ t' c1 (Sheet.deref_ptr_of_cellAt t' p c1 hp h1') h2]
      exact ⟨rfl, h⟩

theorem Formula.Evaluate_agree (g g' : CellPtr → Sheet → Res Value)
    (hg : ∀ ptr t t', Sheet.ExtendsByEmpty t t' → t.deref ptr ≠ none →
      Res.Agree Sheet.ExtendsByEmpty (g ptr t) (g' ptr t'))
    (hempty : ∀ ptr t' c, t'.deref ptr = some c → c.impl_ = some .EmptyImpl →
      g' ptr t' = .ok (.number 0) t')
    (f : Formula) (s s' : Sheet) (h : Sheet.ExtendsByEmpty s s') :
    Res.Agree Sheet.ExtendsByEmpty (f.Evaluate g s) (f.Evaluate g' s') := by
  have := FormulaAST.Execute_agree (Formula.cell_value g) (Formula.cell_value g')
    (fun p t t' hp ht => Formula.cell_value_agree g g' hg hempty p t t' hp ht) f.ast_ s s' h
  simp only [Formula.Evaluate]
  revert this
  cases FormulaAST.Execute (Formula.cell_value g) f.ast_ s <;>
    cases FormulaAST.Execute (Formula.cell_value g') f.ast_ s' <;> intro hh <;>
    simp only [Res.Agree] at hh <;> simp only [Res.Agree]
  · exact ⟨by rw [hh.1], hh.2⟩
  · rcases hh with ⟨h1, h2⟩
    subst h1
    rename_i e _ _
    cases e <;> exact ⟨rfl, h2⟩

theorem Cell.GetValue_Empty (fuel : Nat) (ptr : CellPtr) (s : Sheet) (c : Cell)
    (h : s.deref ptr = some c) (hi : c.impl_ = some .EmptyImpl) :
    Cell.GetValue fuel ptr s = .ok (.number 0) s := by
  cases fuel <;> simp [Cell.GetValue, h, hi]

/-- The value of a cell does not change when Empty cells are added to the sheet. -/
theorem Cell.GetValue_agree (fuel : Nat) (ptr : CellPtr) (s s' : Sheet)
    (h : Sheet.ExtendsByEmpty s s') (hlive : s.deref ptr ≠ none) :
    Res.Agree Sheet.ExtendsByEmpty (Cell.GetValue fuel ptr s) (Cell.GetValue fuel ptr s') := by
  induction fuel generalizing ptr s s' with
  | zero =>
    cases hd : s.deref ptr with
    | none => exact absurd hd hlive
    | some c =>
      have hd' := h.deref_some ptr c hd
      simp only [Cell.GetValue, hd, hd']
      cases hi : c.impl_ with
      | none => trivial
      | some impl =>
        cases impl with
        | EmptyImpl => exact ⟨rfl, h⟩
        | TextImpl t => exact ⟨rfl, h⟩
        | FormulaImpl f cache =>
          cases cache with
          | some x => exact ⟨rfl, h⟩
          | none => trivial
  | succ n ih =>
    cases hd : s.deref ptr with
    | none => exact absurd hd hlive
    | some c =>
      have hd' := h.deref_some ptr c hd
      simp only [Cell.GetValue, hd, hd']
      cases hi : c.impl_ with
      | none => trivial
      | some impl =>
        cases impl with
        | EmptyImpl => exact ⟨rfl, h⟩
        | TextImpl t => exact ⟨rfl, h⟩
        | FormulaImpl f cache =>
          cases cache with
          | some x => exact ⟨rfl, h⟩
          | none =>
            simp only
            refine (Formula.Evaluate_agree (Cell.GetValue n) (Cell.GetValue n)
              (fun p t t' ht hl => ih p t t' ht hl)
              (fun p t' c hc hci => Cell.GetValue_Empty n p t' c hc hci) f s s' h).andThen
              (fun a t t' ht => ?_)
            cases a with
            | number x => exact ⟨rfl, ht.setCache_both ptr x⟩
            | error fe => exact ⟨rfl, ht⟩

/-! ## The client-side reads in terms of the slot -/

namespace Sheet

theorem GetText_outcome (s : Sheet) (q : Position) :
    (Sheet.GetText q s).outcome =
      if q.IsValid then
        match s.cellAt q with
        | none => .undefined
        | some c =>
          match c.impl_ with
          | none => .undefined
          | some impl => .ok impl.GetText
      else .raised .InvalidPosition := by
  cases hv : q.IsValid with
  | false => simp [Sheet.GetText, GetCell_invalid s q hv, Res.bind, Res.outcome]
  | true =>
    simp only [Sheet.GetText, GetCell_valid s q hv, Res.bind, if_true]
    cases hc : s.cellAt q with
    | none => rfl
    | some c =>
      simp only [Option.map_some', Cell.GetText, deref_ptr_of_cellAt s q c hv hc]
      cases c.impl_ <;> rfl

theorem GetReferencedCells_outcome (s : Sheet) (q : Position) :
    (Sheet.GetReferencedCells q s).outcome =
      if q.IsValid then
        match s.cellAt q with
        | none => .undefined
        | some c =>
          match c.impl_ with
          | none => .undefined
          | some impl => .ok impl.GetReferencedCells
      else .raised .InvalidPosition := by
  cases hv : q.IsValid with
  | false => simp [Sheet.GetReferencedCells, GetCell_invalid s q hv, Res.bind, Res.outcome]
  | true =>
    simp only [Sheet.GetReferencedCells, GetCell_valid s q hv, Res.bind, if_true]
    cases hc : s.cellAt q with
    | none => rfl
    | some c =>
      simp only [Option.map_some', Cell.GetReferencedCells, deref_ptr_of_cellAt s q c hv hc]
      cases c.impl_ <;> rfl

/-- Reading the value of a present cell gives the same on a sheet extended by Empty cells. -/
theorem GetValue_outcome_of_extends (s s' : Sheet) (h : ExtendsByEmpty s s') (fuel : Nat)
    (q : Position) (hq : s.cellAt q ≠ none) :
    (Sheet.GetValue fuel q s').outcome = (Sheet.GetValue fuel q s).outcome := by
  cases hv : q.IsValid with
  | false => simp [Sheet.GetValue, GetCell_invalid _ q hv, Res.bind, Res.outcome]
  | true =>
    cases hc : s.cellAt q with
    | none => exact absurd hc hq
    | some c =>
      have hc' : s'.cellAt q = some c := (h _ _).1 c hc
      simp only [Sheet.GetValue, GetCell_valid _ q hv, Res.bind, hc, hc', Option.map_some']
      exact (Cell.GetValue_agree fuel ⟨q, c.serial⟩ s s' h (by
        rw [deref_ptr_of_cellAt s q c hv hc]
        simp)).outcome_eq.symm

/-- After a raising `SetCell` on a position that held a cell, the sheet is the old one
extended by Empty cells. -/
theorem SetCell_raised_extends (pos : Position) (text : String) (s s' : Sheet) (e : Exception)
    (h : SetCell pos text s = .raised e s') (he : e ≠ .InvalidPosition)
    (hpos : s.cellAt pos ≠ none) : ExtendsByEmpty s s' := by
  rcases SetCell_raised_cases pos text s s' e h he with ⟨_, hext, _⟩
  cases hc : s.cellAt pos with
  | none => exact absurd hc hpos
  | some c =>
    intro row col
    have := hext row col
    rw [ensureCell_slot_of_present s pos c hc row col] at this
    exact this

end Sheet

/-! ## Properties of the cell objects that every operation preserves -/

theorem Res.Leaves.seq {α β : Type} {P : Sheet → Prop} {r : Res α} {f : α → Sheet → Res β}
    (h : Res.Leaves P r) (hf : ∀ a t, P t → Res.Leaves P (f a t)) : Res.Leaves P (r.bind f) := by
  cases r with
  | ok a s => exact hf a s h
  | raised e s => exact h
  | undefined => trivial
  | exhausted => trivial

namespace Sheet

theorem slot_setSlot_cases (s : Sheet) (row col row' col' : Nat) (v : Option Cell) :
    (s.setSlot row col v).slot row' col' = v ∨
      (s.setSlot row col v).slot row' col' = s.slot row' col' := by
  by_cases hne : row ≠ row' ∨ col ≠ col'
  · exact Or.inr (slot_setSlot_ne s row col row' col' v hne)
  · have e1 : row = row' := by
      by_contra hx
      exact hne (Or.inl hx)
    have e2 : col = col' := by
      by_contra hx
      exact hne (Or.inr hx)
    subst e1
    subst e2
    by_cases hin : s.inRange row col
    · exact Or.inl (slot_setSlot_same s row col v hin)
    · right
      rw [slot_eq_none_of_not_inRange s row col hin]
      apply slot_eq_none_of_not_inRange
      rw [inRange_setSlot]
      exact hin

theorem CellsSatisfy.store_of {φ : Cell → Prop} {s : Sheet} (h : CellsSatisfy φ s) (p : CellPtr)
    (c : Cell) (hc : φ c) : CellsSatisfy φ (s.store p c) := by
  intro row col c' hc'
  rcases slot_setSlot_cases s p.pos.row.toNat p.pos.col.toNat row col (some c) with h1 | h1
  · simp only [Sheet.store] at hc'
    rw [h1] at hc'
    cases hc'
    exact hc
  · simp only [Sheet.store] at hc'
    rw [h1] at hc'
    exact h row col c' hc'

theorem CellsSatisfy.of_deref {φ : Cell → Prop} {s : Sheet} (h : CellsSatisfy φ s)
    (p : CellPtr) (c : Cell) (hc : s.deref p = some c) : φ c :=
  h _ _ c ((deref_eq_some s p c).mp hc).2.1

theorem CellsSatisfy.ensureCell {φ : Cell → Prop} {s : Sheet} (h : CellsSatisfy φ s)
    (pos : Position) (hfresh : ∀ n, φ ⟨n, none, [], []⟩) :
    CellsSatisfy φ (s.ensureCell pos).2 := by
  intro row col c hc
  simp only [Sheet.ensureCell] at hc
  split at hc
  · rw [slot_OptionalTableResize] at hc
    exact h row col c hc
  · simp only at hc
    rw [slot_withAllocated] at hc
    rcases slot_setSlot_cases (s.OptionalTableResize pos) pos.row.toNat pos.col.toNat row col
      (some ⟨(s.OptionalTableResize pos).allocated, none, [], []⟩) with h1 | h1
    · rw [h1] at hc
      cases hc
      exact hfresh _
    · rw [h1, slot_OptionalTableResize] at hc
      exact h row col c hc

theorem CellsSatisfy.extends {φ : Cell → Prop} {s t : Sheet} (h : CellsSatisfy φ s)
    (hext : ExtendsByEmpty s t) (hempty : ∀ n, φ ⟨n, some .EmptyImpl, [], []⟩) :
    CellsSatisfy φ t := by
  intro row col c hc
  cases hs : s.slot row col with
  | some c0 =>
    rw [(hext row col).1 c0 hs] at hc
    cases hc
    exact h row col _ hs
  | none =>
    rcases (hext row col).2 hs with h1 | ⟨c1, h1, h2, h3, h4⟩
    · rw [h1] at hc
      cases hc
    · rw [h1] at hc
      cases hc
      obtain ⟨n, i, d, r⟩ := c
      simp only at h2 h3 h4
      subst h2 h3 h4
      exact hempty n

theorem CellsSatisfy.setCache_of {φ : Cell → Prop} {s : Sheet} (h : CellsSatisfy φ s)
    (hφ : Stable φ) (p : CellPtr) (x : ℚ) : CellsSatisfy φ (s.setCache p x) := by
  simp only [Sheet.setCache]
  cases hd : s.deref p with
  | none => exact h
  | some c =>
    simp only
    cases hi : c.impl_ with
    | none => exact h
    | some impl =>
      cases impl with
      | EmptyImpl => exact h
      | TextImpl t => exact h
      | FormulaImpl f cache => exact h.store_of p _ (hφ.cache c f cache x hi (h.of_deref p c hd))

end Sheet

namespace Cell

open Sheet

theorem RemoveInvalidLinksLoop_leaves {φ : Cell → Prop} (hφ : Stable φ) (self : CellPtr)
    (l : List CellPtr) (s : Sheet) (h : CellsSatisfy φ s) :
    Res.Leaves (CellsSatisfy φ) (RemoveInvalidLinksLoop self l s) := by
  induction l generalizing s with
  | nil => exact h
  | cons p rest ih =>
    simp only [RemoveInvalidLinksLoop]
    cases hd : s.deref p with
    | none => trivial
    | some c => exact ih _ (h.store_of p _ (hφ.deps c _ (h.of_deref p c hd)))

theorem RemoveInvalidLinks_leaves {φ : Cell → Prop} (hφ : Stable φ) (self : CellPtr)
    (s : Sheet) (h : CellsSatisfy φ s) :
    Res.Leaves (CellsSatisfy φ) (RemoveInvalidLinks self s) := by
  simp only [RemoveInvalidLinks]
  cases hd : s.deref self with
  | none => trivial
  | some c =>
    refine (RemoveInvalidLinksLoop_leaves hφ self _ s h).seq (fun _ t ht => ?_)
    cases hd1 : t.deref self with
    | none => trivial
    | some c1 => exact ht.store_of self _ (hφ.refs c1 _ (ht.of_deref self c1 hd1))

theorem AddNewLinksLoop_leaves {φ : Cell → Prop} (hφ : Stable φ) (self : CellPtr)
    (l : List Position) (s : Sheet) (h : CellsSatisfy φ s) :
    Res.Leaves (CellsSatisfy φ) (AddNewLinksLoop self l s) := by
  induction l generalizing s with
  | nil => exact h
  | cons pos rest ih =>
    simp only [AddNewLinksLoop]
    cases hv : pos.IsValid with
    | false =>
      rw [GetCell_invalid s pos hv]
      exact h
    | true =>
      rw [GetCell_valid s pos hv]
      simp only [Res.bind]
      cases hc : s.cellAt pos with
      | none => trivial
      | some c =>
        simp only [Option.map_some']
        cases hd : s.deref self with
        | none => trivial
        | some me =>
          simp only
          have h2 := h.store_of self _ (hφ.deps me (setInsert ⟨pos, c.serial⟩ me.dependent_cells_)
            (h.of_deref self me hd))
          split
          · trivial
          · rename_i c2 hd2
            exact ih _ (h2.store_of _ _ (hφ.refs c2 _ (h2.of_deref _ c2 hd2)))

theorem AddNewLinks_leaves {φ : Cell → Prop} (hφ : Stable φ) (self : CellPtr)
    (s : Sheet) (h : CellsSatisfy φ s) :
    Res.Leaves (CellsSatisfy φ) (AddNewLinks self s) := by
  simp only [AddNewLinks, GetReferencedCells]
  cases hd : s.deref self with
  | none => trivial
  | some c =>
    simp only
    cases hi : c.impl_ with
    | none => trivial
    | some impl => exact AddNewLinksLoop_leaves hφ self _ s h

theorem InvalidateDependentCacheLoop_leaves {φ : Cell → Prop} (hφ : Stable φ) (n : Nat)
    (to_visit visited : List CellPtr) (s : Sheet) (h : CellsSatisfy φ s) :
    Res.Leaves (CellsSatisfy φ) (InvalidateDependentCacheLoop n to_visit visited s) := by
  induction n generalizing to_visit visited s with
  | zero =>
    cases to_visit with
    | nil => exact h
    | cons a l => trivial
  | succ n ih =>
    cases to_visit with
    | nil => exact h
    | cons cell rest =>
      simp only [InvalidateDependentCacheLoop]
      split
      · exact ih _ _ _ h
      · cases hd : s.deref cell with
        | none => trivial
        | some c =>
          simp only
          cases hi : c.impl_ with
          | none => trivial
          | some impl =>
            simp only
            apply ih
            split
            · exact h.store_of cell _ (hφ.invalidate c impl hi (h.of_deref cell c hd))
            · exact h

theorem InvalidateDependentCache_leaves {φ : Cell → Prop} (hφ : Stable φ) (self : CellPtr)
    (s : Sheet) (h : CellsSatisfy φ s) :
    Res.Leaves (CellsSatisfy φ) (InvalidateDependentCache self s) := by
  simp only [InvalidateDependentCache]
  cases hd : s.deref self with
  | none => trivial
  | some c => exact InvalidateDependentCacheLoop_leaves hφ _ _ _ s h

/-- The method `Cell::Set` preserves a stable property of the cell objects that Empty cells and the
cell with the new implementation have. -/
theorem Set_leaves {φ : Cell → Prop} (hφ : Stable φ)
    (hempty : ∀ n, φ ⟨n, some .EmptyImpl, [], []⟩) (text : String)
    (hset : ∀ c temp, makeImpl text = some temp → φ c → φ { c with impl_ := some temp })
    (n : Nat) (self : CellPtr) (s : Sheet) (h : CellsSatisfy φ s) :
    Res.Leaves (CellsSatisfy φ) (Cell.Set (SetCellAux (n + 1)) self text s) := by
  simp only [Cell.Set]
  cases hm : makeImpl text with
  | none => exact h
  | some temp =>
    simp only
    rcases CreateEmptyCells_spec n temp.GetReferencedCells s
      (fun q hq => makeImpl_refs_valid text temp hm q hq) with ⟨s1, h1, hext, _, _⟩
    rw [h1]
    simp only [Res.bind]
    have hs1 : CellsSatisfy φ s1 := h.extends hext hempty
    rcases IsCircularDependent_res (s1.slotCount + 2) s1 self (some temp) []
      with ⟨b, hb⟩ | hb | hb | hb
    · rw [hb]
      simp only
      cases b with
      | true => exact hs1
      | false =>
        simp only [Bool.false_eq_true, if_false]
        cases hd : s1.deref self with
        | none => trivial
        | some c =>
          simp only
          refine Res.Leaves.seq (RemoveInvalidLinks_leaves hφ self _
            (hs1.store_of self _ (hset c temp hm (hs1.of_deref self c hd)))) (fun _ s2 hs2 => ?_)
          refine Res.Leaves.seq (AddNewLinks_leaves hφ self s2 hs2) (fun _ s3 hs3 => ?_)
          simp only [IsCacheValid]
          cases hd3 : s3.deref self with
          | none => trivial
          | some c3 =>
            simp only
            cases hi3 : c3.impl_ with
            | none => trivial
            | some impl3 =>
              simp only [Res.bind]
              split
              · simp only [InvalidateCache, hd3, hi3]
                exact InvalidateDependentCache_leaves hφ self _
                  (hs3.store_of self _ (hφ.invalidate c3 impl3 hi3 (hs3.of_deref self c3 hd3)))
              · exact hs3
    · rw [hb]
      exact hs1
    · rw [hb]
      trivial
    · rw [hb]
      trivial

end Cell

namespace Sheet

/-- The method `Sheet::SetCell` preserves a stable property of the cell objects that fresh cells, Empty
cells and the cell with the new implementation have. -/
theorem SetCell_leaves {φ : Cell → Prop} (hφ : Stable φ) (hfresh : ∀ n, φ ⟨n, none, [], []⟩)
    (hempty : ∀ n, φ ⟨n, some .EmptyImpl, [], []⟩) (pos : Position) (text : String)
    (hset : ∀ c temp, Cell.makeImpl text = some temp → φ c → φ { c with impl_ := some temp })
    (s : Sheet) (h : CellsSatisfy φ s) :
    Res.Leaves (CellsSatisfy φ) (SetCell pos text s) := by
  cases hv : pos.IsValid with
  | false =>
    rw [SetCell_invalid pos text s hv]
    exact h
  | true =>
    rw [SetCell_valid pos text s hv]
    exact Cell.Set_leaves hφ hempty text hset 0 _ _ (h.ensureCell pos hfresh)

theorem ClearCell_leaves {φ : Cell → Prop} (pos : Position) (s : Sheet)
    (h : CellsSatisfy φ s) : Res.Leaves (CellsSatisfy φ) (ClearCell pos s) := by
  simp only [ClearCell]
  cases hv : pos.IsValid with
  | false =>
    rw [GetCell_invalid s pos hv]
    exact h
  | true =>
    rw [GetCell_valid s pos hv]
    simp only [Res.bind]
    cases hc : s.cellAt pos with
    | none => exact h
    | some c =>
      simp only [Option.map_some']
      intro row col c' hc'
      rcases slot_setSlot_cases s pos.row.toNat pos.col.toNat row col none with h1 | h1
      · rw [h1] at hc'
        cases hc'
      · rw [h1] at hc'
        exact h row col c' hc'

end Sheet

/-! ## Reading values preserves the same properties -/

theorem FormulaAST.Execute_leaves {P : Sheet → Prop} (cv : Position → Sheet → Res ℚ)
    (hcv : ∀ p t, P t → Res.Leaves P (cv p t)) (e : FormulaAST) (s : Sheet) (h : P s) :
    Res.Leaves P (e.Execute cv s) := by
  induction e generalizing s with
  | number x => exact h
  | cell p =>
    simp only [FormulaAST.Execute]
    split
    · exact hcv p s h
    · exact h
  | unary op e ih =>
    simp only [FormulaAST.Execute]
    refine (ih s h).seq (fun a t ht => ?_)
    cases op <;> exact ht
  | binary op l r ihl ihr =>
    simp only [FormulaAST.Execute]
    refine (ihl s h).seq (fun a t ht => ?_)
    refine (ihr t ht).seq (fun b u hu => ?_)
    cases op
    · exact hu
    · exact hu
    · exact hu
    · simp only
      split <;> exact hu

theorem Formula.cell_value_leaves {P : Sheet → Prop} (g : CellPtr → Sheet → Res Value)
    (hg : ∀ ptr t, P t → Res.Leaves P (g ptr t)) (p : Position) (s : Sheet) (h : P s) :
    Res.Leaves P (Formula.cell_value g p s) := by
  simp only [Formula.cell_value]
  cases hv : p.IsValid with
  | false =>
    rw [Sheet.GetCell_invalid s p hv]
    exact h
  | true =>
    rw [Sheet.GetCell_valid s p hv]
    simp only [Res.bind]
    cases s.cellAt p with
    | none => exact h
    | some c =>
      simp only [Option.map_some']
      have := hg ⟨p, c.serial⟩ s h
      revert this
      cases g ⟨p, c.serial⟩ s <;> intro hh
      · simp only
        split <;> exact hh
      · exact hh
      · trivial
      · trivial

theorem Formula.Evaluate_leaves {P : Sheet → Prop} (g : CellPtr → Sheet → Res Value)
    (hg : ∀ ptr t, P t → Res.Leaves P (g ptr t)) (f : Formula) (s : Sheet) (h : P s) :
    Res.Leaves P (f.Evaluate g s) := by
  have := FormulaAST.Execute_leaves (Formula.cell_value g)
    (fun p t ht => Formula.cell_value_leaves g hg p t ht) f.ast_ s h
  simp only [Formula.Evaluate]
  revert this
  cases FormulaAST.Execute (Formula.cell_value g) f.ast_ s <;> intro hh
  · exact hh
  · rename_i e _
    cases e <;> exact hh
  · trivial
  · trivial

theorem Cell.GetValue_leaves {φ : Cell → Prop} (hφ : Stable φ) (fuel : Nat) (ptr : CellPtr)
    (s : Sheet) (h : Sheet.CellsSatisfy φ s) :
    Res.Leaves (Sheet.CellsSatisfy φ) (Cell.GetValue fuel ptr s) := by
  induction fuel generalizing ptr s with
  | zero =>
    simp only [Cell.GetValue]
    cases s.deref ptr with
    | none => trivial
    | some c =>
      simp only
      cases c.impl_ with
      | none => trivial
      | some impl =>
        cases impl with
        | EmptyImpl => exact h
        | TextImpl t => exact h
        | FormulaImpl f cache =>
          cases cache with
          | some x => exact h
          | none => trivial
  | succ n ih =>
    simp only [Cell.GetValue]
    cases s.deref ptr with
    | none => trivial
    | some c =>
      simp only
      cases c.impl_ with
      | none => trivial
      | some impl =>
        cases impl with
        | EmptyImpl => exact h
        | TextImpl t => exact h
        | FormulaImpl f cache =>
          cases cache with
          | some x => exact h
          | none =>
            simp only
            refine (Formula.Evaluate_leaves (Cell.GetValue n) (fun p t ht => ih p t ht) f s
              h).seq (fun a t ht => ?_)
            cases a with
            | number x => exact ht.setCache_of hφ ptr x
            | error fe => exact ht

namespace Sheet

theorem GetValue_at_leaves {φ : Cell → Prop} (hφ : Stable φ) (fuel : Nat) (pos : Position)
    (s : Sheet) (h : CellsSatisfy φ s) :
    Res.Leaves (CellsSatisfy φ) (Sheet.GetValue fuel pos s) := by
  simp only [Sheet.GetValue]
  cases hv : pos.IsValid with
  | false =>
    rw [GetCell_invalid s pos hv]
    exact h
  | true =>
    rw [GetCell_valid s pos hv]
    simp only [Res.bind]
    cases s.cellAt pos with
    | none => trivial
    | some c => exact Cell.GetValue_leaves hφ fuel _ s h

theorem printRow_leaves {P : Sheet → Prop} (pf : CellPtr → Sheet → Res String)
    (hpf : ∀ ptr t, P t → Res.Leaves P (pf ptr t)) (row : Nat) (cols : List Nat)
    (out : String) (s : Sheet) (h : P s) : Res.Leaves P (printRow pf row cols out s) := by
  induction cols generalizing out s with
  | nil => exact h
  | cons col rest ih =>
    simp only [printRow]
    cases s.slot row col with
    | none => exact ih _ s h
    | some c => exact (hpf _ s h).seq (fun t s1 hs1 => ih _ s1 hs1)

theorem printRows_leaves {P : Sheet → Prop} (pf : CellPtr → Sheet → Res String)
    (hpf : ∀ ptr t, P t → Res.Leaves P (pf ptr t)) (cols : Nat) (rows : List Nat)
    (out : String) (s : Sheet) (h : P s) : Res.Leaves P (printRows pf cols rows out s) := by
  induction rows generalizing out s with
  | nil => exact h
  | cons row rest ih =>
    simp only [printRows]
    exact (printRow_leaves pf hpf row _ out s h).seq (fun o s1 hs1 => ih o s1 hs1)

theorem PrintValues_leaves {φ : Cell → Prop} (hφ : Stable φ) (fuel : Nat) (s : Sheet)
    (h : CellsSatisfy φ s) : Res.Leaves (CellsSatisfy φ) (PrintValues fuel s) := by
  simp only [PrintValues, PrintTable]
  refine printRows_leaves _ (fun ptr t ht => ?_) _ _ _ s h
  exact (Cell.GetValue_leaves hφ fuel ptr t ht).seq (fun v s2 hs2 => hs2)

/-- A stable property of the cell objects that fresh cells, Empty cells and cells with a
newly built implementation have holds in every reachable sheet. -/
theorem Reachable.cellsSatisfy {φ : Cell → Prop} (hφ : Stable φ)
    (hfresh : ∀ n, φ ⟨n, none, [], []⟩) (hempty : ∀ n, φ ⟨n, some .EmptyImpl, [], []⟩)
    (hset : ∀ text c temp, Cell.makeImpl text = some temp → φ c →
      φ { c with impl_ := some temp })
    {s : Sheet} (h : Reachable s) : CellsSatisfy φ s := by
  induction h with
  | create =>
    intro row col c hc
    simp [CreateSheet, slot] at hc
  | setCell s s' pos text _ hs ih =>
    have := SetCell_leaves hφ hfresh hempty pos text (hset text) s ih
    rw [hs] at this
    exact this
  | setCellRaised s s' pos text e _ hs ih =>
    have := SetCell_leaves hφ hfresh hempty pos text (hset text) s ih
    rw [hs] at this
    exact this
  | clearCell s s' pos _ hs ih =>
    have := ClearCell_leaves pos s ih
    rw [hs] at this
    exact this
  | getValue s s' fuel pos v _ hs ih =>
    have := GetValue_at_leaves hφ fuel pos s ih
    rw [hs] at this
    exact this
  | getValueRaised s s' fuel pos e _ hs ih =>
    have := GetValue_at_leaves hφ fuel pos s ih
    rw [hs] at this
    exact this
  | printValues s s' fuel out _ hs ih =>
    have := PrintValues_leaves hφ fuel s ih
    rw [hs] at this
    exact this
  | printValuesRaised s s' fuel e _ hs ih =>
    have := PrintValues_leaves hφ fuel s ih
    rw [hs] at this
    exact this

theorem stable_refsValid :
    Stable (fun c => ∀ impl, c.impl_ = some impl →
      ∀ p ∈ impl.GetReferencedCells, p.IsValid = true) := by
  refine ⟨fun c l h => h, fun c l h => h, ?_, ?_⟩
  · intro c impl hi h impl' hi' p hp
    simp only [Option.some.injEq] at hi'
    subst hi'
    apply h impl hi p
    cases impl <;> exact hp
  · intro c f cache x hi h impl' hi' p hp
    simp only [Option.some.injEq] at hi'
    subst hi'
    exact h _ hi p hp

/-- In a reachable sheet every stored implementation references valid positions only. -/
theorem Reachable.refsValid {s : Sheet} (h : Reachable s) : RefsValid s := by
  refine Reachable.cellsSatisfy stable_refsValid ?_ ?_ ?_ h
  · intro n impl hi
    cases hi
  · intro n impl hi p hp
    simp only [Option.some.injEq] at hi
    subst hi
    simp [Impl.GetReferencedCells] at hp
  · intro text c temp hm _ impl hi p hp
    simp only [Option.some.injEq] at hi
    subst hi
    exact Cell.makeImpl_refs_valid text _ hm p hp

end Sheet

/-! ## Invalid positions -/

namespace Cell

open Sheet

theorem IsCircularDependentLoop_not_raised (s : Sheet) (source : CellPtr)
    (recurse : Option Impl → List (Option CellPtr) → Res Bool)
    (hrec : ∀ ptr c vis e t, s.deref ptr = some c → recurse c.impl_ vis ≠ .raised e t)
    (visited : List (Option CellPtr)) (refs : List Position)
    (hv : ∀ p ∈ refs, p.IsValid = true) (e : Exception) (t : Sheet) :
    IsCircularDependentLoop s source recurse visited refs ≠ .raised e t := by
  induction refs with
  | nil => simp [IsCircularDependentLoop]
  | cons pos rest ih =>
    simp only [IsCircularDependentLoop]
    rw [GetCell_valid s pos (hv pos (List.mem_cons_self _ _))]
    simp only [Res.bind]
    split
    · simp
    · split
      · exact ih (fun p hp => hv p (List.mem_cons_of_mem _ hp))
      · cases hc : s.cellAt pos with
        | none => simp
        | some c =>
          simp only [Option.map_some']
          cases hd : s.deref ⟨pos, c.serial⟩ with
          | none => simp
          | some c' => exact hrec _ c' _ e t hd

theorem IsCircularDependent_not_raised (n : Nat) (s : Sheet) (hs : RefsValid s)
    (source : CellPtr) (current : Option Impl)
    (hcur : ∀ impl, current = some impl → ∀ p ∈ impl.GetReferencedCells, p.IsValid = true)
    (visited : List (Option CellPtr)) (e : Exception) (t : Sheet) :
    IsCircularDependent n s source current visited ≠ .raised e t := by
  induction n generalizing current visited e t with
  | zero => simp [IsCircularDependent]
  | succ n ih =>
    cases current with
    | none => simp [IsCircularDependent]
    | some impl =>
      simp only [IsCircularDependent]
      exact IsCircularDependentLoop_not_raised s source _
        (fun ptr c vis e t hd =>
          ih c.impl_ (fun impl' hi' => hs.of_deref ptr c hd impl' hi') vis e t)
        visited _ (hcur impl rfl) e t

theorem AddNewLinksLoop_not_raised (self : CellPtr) (l : List Position)
    (hv : ∀ p ∈ l, p.IsValid = true) (s : Sheet) (e : Exception) (t : Sheet) :
    AddNewLinksLoop self l s ≠ .raised e t := by
  induction l generalizing s with
  | nil => simp [AddNewLinksLoop]
  | cons pos rest ih =>
    simp only [AddNewLinksLoop]
    rw [GetCell_valid s pos (hv pos (List.mem_cons_self _ _))]
    simp only [Res.bind]
    cases hc : s.cellAt pos with
    | none => simp
    | some c =>
      simp only [Option.map_some']
      cases hd : s.deref self with
      | none => simp
      | some me =>
        simp only
        split
        · simp
        · exact ih (fun p hp => hv p (List.mem_cons_of_mem _ hp)) _

/-- On a sheet whose stored references are valid, `Cell::Set` raises formula-syntax or
circular-dependency only. -/
theorem Set_not_invalidPosition (n : Nat) (self : CellPtr) (text : String) (s : Sheet)
    (hs : RefsValid s) (t : Sheet) :
    Cell.Set (SetCellAux (n + 1)) self text s ≠ .raised .InvalidPosition t := by
  intro h
  simp only [Cell.Set] at h
  cases hm : makeImpl text with
  | none =>
    simp only [hm, Res.raised.injEq] at h
    cases h.1
  | some temp =>
    simp only [hm] at h
    have hvalid : ∀ q ∈ temp.GetReferencedCells, q.IsValid = true :=
      fun q hq => makeImpl_refs_valid text temp hm q hq
    rcases CreateEmptyCells_spec n temp.GetReferencedCells s hvalid with ⟨s1, h1, hext, _, _⟩
    rw [h1] at h
    simp only [Res.bind] at h
    have hs1 : RefsValid s1 := by
      refine CellsSatisfy.extends hs hext ?_
      intro k impl hi p hp
      simp only [Option.some.injEq] at hi
      subst hi
      simp [Impl.GetReferencedCells] at hp
    rcases IsCircularDependent_res (s1.slotCount + 2) s1 self (some temp) []
      with ⟨b, hb⟩ | hb | hb | hb
    · rw [hb] at h
      simp only at h
      cases b with
      | true =>
        simp only [if_true, Res.raised.injEq] at h
        cases h.1
      | false =>
        simp only [Bool.false_eq_true, if_false] at h
        cases hd : s1.deref self with
        | none => simp [hd] at h
        | some c =>
          simp only [hd] at h
          have hstore : RefsValid (s1.store self { c with impl_ := some temp }) := by
            refine CellsSatisfy.store_of hs1 self _ ?_
            intro impl hi p hp
            simp only [Option.some.injEq] at hi
            subst hi
            exact hvalid p hp
          have hl := RemoveInvalidLinks_leaves stable_refsValid self _ hstore
          cases hr : RemoveInvalidLinks self
              (s1.store self { c with impl_ := some temp }) with
          | raised e1 t1 => exact RemoveInvalidLinks_not_raised _ _ _ _ hr
          | undefined => simp [hr] at h
          | exhausted => simp [hr] at h
          | ok u s2 =>
            rw [hr] at hl
            have hs2 : RefsValid s2 := hl
            simp only [hr] at h
            cases ha : AddNewLinks self s2 with
            | raised e1 t1 =>
              simp only [AddNewLinks, GetReferencedCells] at ha
              cases hd2 : s2.deref self with
              | none => simp [hd2, Res.bind] at ha
              | some c2 =>
                simp only [hd2] at ha
                cases hi2 : c2.impl_ with
                | none => simp [hi2, Res.bind] at ha
                | some impl2 =>
                  simp only [hi2, Res.bind] at ha
                  exact AddNewLinksLoop_not_raised self _
                    (fun p hp => hs2.of_deref self c2 hd2 impl2 hi2 p hp) s2 e1 t1 ha
            | undefined => simp [ha] at h
            | exhausted => simp [ha] at h
            | ok u2 s3 =>
              simp only [ha, IsCacheValid] at h
              cases hd3 : s3.deref self with
              | none => simp [hd3] at h
              | some c3 =>
                simp only [hd3] at h
                cases hi3 : c3.impl_ with
                | none => simp [hi3] at h
                | some impl3 =>
                  simp only [hi3] at h
                  split at h
                  · simp only [InvalidateCache, hd3, hi3, Res.bind] at h
                    exact InvalidateDependentCache_not_raised _ _ _ _ h
                  · cases h
    · exact IsCircularDependent_not_raised _ s1 hs1 self (some temp)
        (fun impl hi p hp => by
          simp only [Option.some.injEq] at hi
          subst hi
          exact hvalid p hp) [] _ _ hb
    · rw [hb] at h
      cases h
    · rw [hb] at h
      cases h

end Cell

/-! ## The budget of the cycle detector is never used up -/

namespace Sheet

theorem mem_slotsFrom (r : Nat) (t : List (List (Option Cell))) (a b : Nat) (row : List (Option Cell))
    (h : t[a]? = some row) (hb : b < row.length) : (r + a, b) ∈ slotsFrom r t := by
  induction t generalizing r a with
  | nil => simp at h
  | cons row0 rest ih =>
    simp only [slotsFrom, List.mem_append, List.mem_map, List.mem_range]
    cases a with
    | zero =>
      simp only [List.getElem?_cons_zero, Option.some.injEq] at h
      subst h
      exact Or.inl ⟨b, hb, rfl⟩
    | succ a =>
      simp only [List.getElem?_cons_succ] at h
      right
      have := ih (r + 1) a h
      have e : r + 1 + a = r + (a + 1) := by omega
      rw [e] at this
      exact this

theorem slotIndex_mem (s : Sheet) (row col : Nat) (h : s.inRange row col) :
    (row, col) ∈ slotsFrom 0 s.table_ := by
  rcases h with ⟨r, hr, hc⟩
  have := mem_slotsFrom 0 s.table_ row col r hr hc
  simpa using this

end Sheet

namespace Cell

open Sheet

end Cell

/-! ## The budget of the invalidation walk is never used up -/

namespace Sheet

theorem slotsFrom_congr (r : Nat) (t t' : List (List (Option Cell)))
    (h : t.map List.length = t'.map List.length) : slotsFrom r t = slotsFrom r t' := by
  induction t generalizing r t' with
  | nil =>
    cases t' with
    | nil => rfl
    | cons a l => simp at h
  | cons row rest ih =>
    cases t' with
    | nil => simp at h
    | cons row' rest' =>
      simp only [List.map_cons, List.cons.injEq] at h
      simp only [slotsFrom, h.1, ih (r + 1) rest' h.2]

theorem slotsFrom_setSlot (s : Sheet) (row col : Nat) (v : Option Cell) :
    slotsFrom 0 (s.setSlot row col v).table_ = slotsFrom 0 s.table_ := by
  unfold setSlot
  cases hr : s.table_[row]? with
  | none => rfl
  | some r =>
    apply slotsFrom_congr
    apply List.ext_getElem?
    intro i
    simp only [List.getElem?_map, List.getElem?_set]
    by_cases h : row = i
    · subst h
      have hlt : row < s.table_.length := by
        rcases List.getElem?_eq_some.mp hr with ⟨h2, _⟩
        exact h2
      simp [hlt, hr]
    · simp [h]

theorem sum_map_add_le {α : Type} (l : List α) (f g : α → Nat) (a : α) (k : Nat)
    (ha : a ∈ l) (hle : ∀ x ∈ l, g x ≤ f x) (hk : g a + k ≤ f a) :
    (l.map g).sum + k ≤ (l.map f).sum := by
  induction l with
  | nil => simp at ha
  | cons b rest ih =>
    simp only [List.map_cons, List.sum_cons]
    have hrest : (rest.map g).sum ≤ (rest.map f).sum := by
      apply List.sum_le_sum
      intro x hx
      exact hle x (List.mem_cons_of_mem _ hx)
    rcases List.mem_cons.mp ha with h | h
    · subst h
      omega
    · have := ih h (fun x hx => hle x (List.mem_cons_of_mem _ hx))
      have := hle b (List.mem_cons_self _ _)
      omega

theorem ptrAt_of_valid (p : Position) (c : Cell) (hp : p.IsValid = true) :
    ptrAt (p.row.toNat, p.col.toNat) c = ⟨p, c.serial⟩ := by
  cases p with
  | mk r k =>
    simp only [Position.IsValid, Bool.and_eq_true, decide_eq_true_eq] at hp
    simp only [ptrAt, CellPtr.mk.injEq, Position.mk.injEq, and_true]
    constructor
    · exact Int.toNat_of_nonneg hp.1.1.1
    · exact Int.toNat_of_nonneg hp.1.2

/-- Visiting a live cell, with or without resetting its cache, lowers the number of
pointers still to push by the size of its set. -/
theorem pendingTotal_visit (s : Sheet) (visited : List CellPtr) (cell : CellPtr) (c : Cell)
    (hd : s.deref cell = some c) (hnv : cell ∉ visited) (s1 : Sheet)
    (hs1 : s1 = s ∨ ∃ impl, s1 = s.store cell { c with impl_ := impl }) :
    pendingTotal s1 (cell :: visited) + c.dependent_cells_.length ≤ pendingTotal s visited := by
  rcases (deref_eq_some s cell c).mp hd with ⟨hval, hcell, hser⟩
  have hin : s.inRange cell.pos.row.toNat cell.pos.col.toNat :=
    inRange_of_slot_eq_some s _ _ c hcell
  have hptr : ∀ c' : Cell, c'.serial = c.serial →
      ptrAt (cell.pos.row.toNat, cell.pos.col.toNat) c' = cell := by
    intro c' hc'
    rw [ptrAt_of_valid cell.pos c' hval, hc', hser]
  have htab : slotsFrom 0 s1.table_ = slotsFrom 0 s.table_ := by
    rcases hs1 with h | ⟨impl, h⟩
    · rw [h]
    · rw [h]
      exact slotsFrom_setSlot s _ _ _
  -- the slot of the visited cell in `s1`
  have hslot1 : ∃ c', s1.slot cell.pos.row.toNat cell.pos.col.toNat = some c' ∧
      c'.serial = c.serial := by
    rcases hs1 with h | ⟨impl, h⟩
    · rw [h]
      exact ⟨c, hcell, rfl⟩
    · rw [h]
      exact ⟨_, slot_store_same s cell _ hin, rfl⟩
  have hother : ∀ i : Nat × Nat, i ≠ (cell.pos.row.toNat, cell.pos.col.toNat) →
      s1.slot i.1 i.2 = s.slot i.1 i.2 := by
    intro i hi
    rcases hs1 with h | ⟨impl, h⟩
    · rw [h]
    · rw [h]
      apply slot_store_ne
      by_contra hn
      apply hi
      have e1 : cell.pos.row.toNat = i.1 := by
        by_contra hx
        exact hn (Or.inl hx)
      have e2 : cell.pos.col.toNat = i.2 := by
        by_contra hx
        exact hn (Or.inr hx)
      rw [e1, e2]
  unfold pendingTotal
  rw [htab]
  refine sum_map_add_le _ _ _ (cell.pos.row.toNat, cell.pos.col.toNat) _
    (slotIndex_mem s _ _ hin) ?_ ?_
  · intro i _
    by_cases hi : i = (cell.pos.row.toNat, cell.pos.col.toNat)
    · subst hi
      rcases hslot1 with ⟨c', h1, h2⟩
      simp only [pending, h1, hptr c' h2, List.mem_cons, true_or, if_true]
      exact Nat.zero_le _
    · simp only [pending, hother i hi]
      cases s.slot i.1 i.2 with
      | none => exact le_refl _
      | some x =>
        simp only [List.mem_cons]
        by_cases hx : ptrAt i x ∈ visited
        · simp [hx]
        · by_cases hx2 : ptrAt i x = cell
          · simp [hx2]
          · simp [hx, hx2]
  · rcases hslot1 with ⟨c', h1, h2⟩
    have hc : s.slot cell.pos.row.toNat cell.pos.col.toNat = some c := hcell
    simp only [pending, h1, hptr c' h2, List.mem_cons, true_or, if_true, hc, hptr c rfl, hnv,
      if_false, zero_add]
    exact le_refl _

end Sheet

namespace Cell

open Sheet

/-- The walk ends within a budget of the stack size plus the pointers still to push. -/
theorem InvalidateDependentCacheLoop_not_exhausted (n : Nat) (to_visit visited : List CellPtr)
    (s : Sheet) (h : to_visit.length + pendingTotal s visited ≤ n) :
    InvalidateDependentCacheLoop n to_visit visited s ≠ .exhausted := by
  induction n generalizing to_visit visited s with
  | zero =>
    cases to_visit with
    | nil => simp [InvalidateDependentCacheLoop]
    | cons a l =>
      simp only [List.length_cons] at h
      omega
  | succ n ih =>
    cases to_visit with
    | nil => simp [InvalidateDependentCacheLoop]
    | cons cell rest =>
      simp only [List.length_cons] at h
      simp only [InvalidateDependentCacheLoop]
      split
      · exact ih rest visited s (by omega)
      · rename_i hnv
        cases hd : s.deref cell with
        | none => simp
        | some c =>
          simp only
          cases hi : c.impl_ with
          | none => simp
          | some impl =>
            simp only
            apply ih
            have hstep := pendingTotal_visit s visited cell c hd hnv
              (if impl.IsCacheValid = true then
                s.store cell { c with impl_ := some impl.InvalidateCache } else s)
              (by
                split
                · exact Or.inr ⟨_, rfl⟩
                · exact Or.inl rfl)
            simp only [List.length_append, List.length_reverse]
            omega

end Cell

namespace Sheet

theorem le_of_mem_slotsFrom (r : Nat) (t : List (List (Option Cell))) (i : Nat × Nat)
    (h : i ∈ slotsFrom r t) : r ≤ i.1 := by
  induction t generalizing r with
  | nil => simp [slotsFrom] at h
  | cons row rest ih =>
    simp only [slotsFrom, List.mem_append, List.mem_map, List.mem_range] at h
    rcases h with ⟨c, _, hc⟩ | h
    · rw [← hc]
    · have := ih (r + 1) h
      omega

/-- Size of the set of the cell in a slot. -/
theorem sum_range_getElem? (row : List (Option Cell)) (g : Option (Option Cell) → Nat) :
    ((List.range row.length).map (fun c => g row[c]?)).sum
      = (row.map (fun x => g (some x))).sum := by
  induction row with
  | nil => rfl
  | cons x xs ih =>
    simp only [List.length_cons, List.range_succ_eq_map, List.map_cons, List.map_map,
      List.sum_cons, List.getElem?_cons_zero]
    rw [← ih]
    congr 2
    apply List.map_congr_left
    intro c _
    simp only [Function.comp, Nat.succ_eq_add_one, List.getElem?_cons_succ]

theorem sum_filterMap_id (row : List (Option Cell)) :
    (row.map (fun x =>
        match (some x : Option (Option Cell)) with
        | some (some c) => c.dependent_cells_.length
        | _ => 0)).sum
      = ((row.filterMap id).map (fun x => x.dependent_cells_.length)).sum := by
  induction row with
  | nil => rfl
  | cons x xs ihx =>
    cases x with
    | none =>
      simp only [List.map_cons, List.sum_cons, List.filterMap_cons, id, zero_add]
      exact ihx
    | some c =>
      simp only [List.map_cons, List.sum_cons, List.filterMap_cons, id]
      rw [ihx]

theorem sum_slotsFrom (r : Nat) (t : List (List (Option Cell))) :
    ((slotsFrom r t).map (fun i =>
        match t[i.1 - r]? with
        | none => 0
        | some row =>
          match row[i.2]? with
          | some (some c) => c.dependent_cells_.length
          | _ => 0)).sum
      = ((t.flatten.filterMap id).map (fun x => x.dependent_cells_.length)).sum := by
  induction t generalizing r with
  | nil => rfl
  | cons row rest ih =>
    simp only [slotsFrom, List.map_append, List.sum_append, List.map_map, List.flatten_cons,
      List.filterMap_append]
    congr 1
    · rw [← sum_filterMap_id row, ← sum_range_getElem? row (fun o =>
        match o with
        | some (some c) => c.dependent_cells_.length
        | _ => 0)]
      congr 1
      apply List.map_congr_left
      intro c _
      simp only [Function.comp, Nat.sub_self, List.getElem?_cons_zero]
    · rw [← ih (r + 1)]
      congr 1
      apply List.map_congr_left
      intro i hi
      have hle := le_of_mem_slotsFrom (r + 1) rest i hi
      have e : i.1 - r = (i.1 - (r + 1)) + 1 := by omega
      rw [e, List.getElem?_cons_succ]

theorem pendingTotal_nil (s : Sheet) :
    pendingTotal s [] = (s.cells.map (fun x => x.dependent_cells_.length)).sum := by
  unfold pendingTotal cells
  rw [← sum_slotsFrom 0 s.table_]
  congr 1
  apply List.map_congr_left
  intro i _
  simp only [pending, slot, List.not_mem_nil, if_false, Nat.sub_zero]
  cases s.table_[i.1]? with
  | none => rfl
  | some row =>
    simp only
    cases row[i.2]? with
    | none => rfl
    | some o =>
      cases o <;> rfl

end Sheet

namespace Cell

open Sheet

theorem InvalidateDependentCache_not_exhausted (self : CellPtr) (s : Sheet) :
    InvalidateDependentCache self s ≠ .exhausted := by
  simp only [InvalidateDependentCache]
  cases hd : s.deref self with
  | none => simp
  | some c =>
    simp only
    apply InvalidateDependentCacheLoop_not_exhausted
    rw [List.length_reverse, pendingTotal_nil]
    omega

end Cell

namespace Sheet

end Sheet

/-! ## The reference list of a formula is sorted and free of duplicates -/

namespace Position

theorem lt_iff (a b : Position) :
    a.lt b = true ↔ a.row < b.row ∨ (a.row = b.row ∧ a.col < b.col) := by
  simp [Position.lt]

theorem lt_irrefl (a : Position) : a.lt a = false := by
  cases h : a.lt a with
  | false => rfl
  | true =>
    rw [lt_iff] at h
    omega

theorem lt_trans {a b c : Position} (h1 : a.lt b = true) (h2 : b.lt c = true) :
    a.lt c = true := by
  rw [lt_iff] at h1 h2 ⊢
  omega

theorem eq_of_not_lt {a b : Position} (h1 : a.lt b = false) (h2 : b.lt a = false) : a = b := by
  have n1 : ¬ (a.row < b.row ∨ (a.row = b.row ∧ a.col < b.col)) := by
    intro h
    rw [← lt_iff, h1] at h
    cases h
  have n2 : ¬ (b.row < a.row ∨ (b.row = a.row ∧ b.col < a.col)) := by
    intro h
    rw [← lt_iff, h2] at h
    cases h
  cases a with
  | mk ar ac =>
    cases b with
    | mk br bc =>
      simp only at n1 n2
      have e1 : ar = br := by omega
      have e2 : ac = bc := by omega
      rw [e1, e2]

theorem lt_of_lt_of_not_lt {a b c : Position} (h1 : a.lt b = true) (h2 : c.lt b = false) :
    a.lt c = true := by
  have n2 : ¬ (c.row < b.row ∨ (c.row = b.row ∧ c.col < b.col)) := by
    intro h
    rw [← lt_iff, h2] at h
    cases h
  rw [lt_iff] at h1 ⊢
  omega

theorem not_lt_of_not_lt {a b c : Position} (h1 : b.lt a = false) (h2 : c.lt b = false) :
    c.lt a = false := by
  cases h : c.lt a with
  | false => rfl
  | true =>
    have n1 : ¬ (b.row < a.row ∨ (b.row = a.row ∧ b.col < a.col)) := by
      intro h'
      rw [← lt_iff, h1] at h'
      cases h'
    have n2 : ¬ (c.row < b.row ∨ (c.row = b.row ∧ c.col < b.col)) := by
      intro h'
      rw [← lt_iff, h2] at h'
      cases h'
    rw [lt_iff] at h
    omega

end Position

/-- Insertion keeps an ascending list ascending. -/
theorem sortInsert_sorted (p : Position) (l : List Position)
    (h : l.Pairwise (fun a b => b.lt a = false)) :
    (sortInsert p l).Pairwise (fun a b => b.lt a = false) := by
  induction l with
  | nil => simp [sortInsert]
  | cons q qs ih =>
    rw [List.pairwise_cons] at h
    simp only [sortInsert]
    cases hq : q.lt p with
    | true =>
      simp only [if_true]
      rw [List.pairwise_cons]
      refine ⟨?_, ih h.2⟩
      intro x hx
      rcases (mem_sortInsert p x qs).mp hx with hx | hx
      · subst hx
        cases hx2 : x.lt q with
        | false => rfl
        | true =>
          have := Position.lt_trans hq hx2
          rw [Position.lt_irrefl] at this
          cases this
      · exact h.1 x hx
    | false =>
      simp only [Bool.false_eq_true, if_false]
      rw [List.pairwise_cons, List.pairwise_cons]
      refine ⟨?_, h.1, h.2⟩
      intro x hx
      rcases List.mem_cons.mp hx with hx | hx
      · subst hx
        exact hq
      · exact Position.not_lt_of_not_lt hq (h.1 x hx)

theorem sortPositions_sorted (l : List Position) :
    (sortPositions l).Pairwise (fun a b => b.lt a = false) := by
  induction l with
  | nil => simp [sortPositions]
  | cons a l ih =>
    have h : sortPositions (a :: l) = sortInsert a (sortPositions l) := rfl
    rw [h]
    exact sortInsert_sorted a _ ih

/-- Removing consecutive duplicates of an ascending list leaves a strictly ascending list. -/
theorem uniquePositions_strict (l : List Position)
    (h : l.Pairwise (fun a b => b.lt a = false)) :
    (uniquePositions l).Pairwise (fun a b => a.lt b = true) := by
  induction l with
  | nil => simp [uniquePositions]
  | cons a l ih =>
    cases l with
    | nil => simp [uniquePositions]
    | cons b rest =>
      rw [List.pairwise_cons] at h
      have hrest := ih h.2
      simp only [uniquePositions]
      by_cases hab : a = b
      · simp only [hab, if_true]
        exact hrest
      · simp only [hab, if_false]
        rw [List.pairwise_cons]
        refine ⟨?_, hrest⟩
        intro x hx
        have hx' : x ∈ b :: rest := (mem_uniquePositions x (b :: rest)).mp hx
        have hba : b.lt a = false := h.1 b (List.mem_cons_self _ _)
        have hlt : a.lt b = true := by
          cases hl : a.lt b with
          | true => rfl
          | false => exact absurd (Position.eq_of_not_lt hl hba) hab
        rcases List.mem_cons.mp hx' with hxb | hxr
        · rw [hxb]
          exact hlt
        · rw [List.pairwise_cons] at h
          exact Position.lt_of_lt_of_not_lt hlt (h.2.1 x hxr)

theorem pairwise_lt_nodup (l : List Position) (h : l.Pairwise (fun a b => a.lt b = true)) :
    l.Nodup := by
  refine List.Pairwise.imp ?_ h
  intro a b hab heq
  subst heq
  rw [Position.lt_irrefl] at hab
  cases hab

theorem FormulaAST.mem_GetCells (ast : FormulaAST) (q : Position) :
    q ∈ ast.GetCells ↔ q ∈ ast.referenceLeaves ∧ q.IsValid = true := by
  induction ast with
  | number x => simp [FormulaAST.GetCells, FormulaAST.referenceLeaves]
  | cell p =>
    simp only [FormulaAST.GetCells, FormulaAST.referenceLeaves, List.mem_singleton]
    split
    · rename_i hv
      simp only [List.mem_singleton]
      constructor
      · intro h
        subst h
        exact ⟨rfl, hv⟩
      · intro h
        exact h.1
    · rename_i hv
      simp only [List.not_mem_nil, false_iff, not_and]
      intro h
      subst h
      exact hv
  | unary op e ih => exact ih
  | binary op l r ihl ihr =>
    simp only [FormulaAST.GetCells, FormulaAST.referenceLeaves, List.mem_append, ihl, ihr]
    tauto

/-! ## The pattern of `CellValueHandler` and the grammar of the lookup policy -/

theorem takeWhile_digits_append (ip rest : List Char) (h : ip.all isDigit = true)
    (hr : rest.head?.all (fun c => !isDigit c) = true) :
    (ip ++ rest).takeWhile isDigit = ip ∧ (ip ++ rest).dropWhile isDigit = rest := by
  induction ip with
  | nil =>
    cases rest with
    | nil => simp
    | cons c cs =>
      simp only [List.head?_cons, Option.all_some, Bool.not_eq_eq_eq_not, Bool.not_true] at hr
      simp [List.takeWhile, List.dropWhile, hr]
  | cons c cs ih =>
    simp only [List.all_cons, Bool.and_eq_true] at h
    have := ih h.2
    simp [List.takeWhile, List.dropWhile, h.1, this.1, this.2]

theorem isDigit_ne_minus (c : Char) (h : isDigit c = true) : c ≠ '-' := by
  rintro rfl
  revert h
  decide


theorem matchesDoublePattern_minus (cs : List Char) :
    matchesDoublePattern ('-' :: cs) =
      ((match cs.takeWhile isDigit with
        | [] => false
        | ['0'] => true
        | c :: _ => c != '0') &&
       (match cs.dropWhile isDigit with
        | [] => true
        | '.' :: fp => allDigits fp
        | _ => false)) := rfl

theorem matchesDoublePattern_plain (t : List Char) (h : t.head? ≠ some '-') :
    matchesDoublePattern t =
      ((match t.takeWhile isDigit with
        | [] => false
        | ['0'] => true
        | c :: _ => c != '0') &&
       (match t.dropWhile isDigit with
        | [] => true
        | '.' :: fp => allDigits fp
        | _ => false)) := by
  unfold matchesDoublePattern
  split
  · simp at h
  · rfl


theorem all_isDigit_takeWhile (l : List Char) : (l.takeWhile isDigit).all isDigit = true := by
  rw [List.all_eq_true]
  intro c hc
  exact List.mem_takeWhile_imp hc

theorem head_dropWhile_isDigit (l : List Char) :
    (l.dropWhile isDigit).head?.all (fun c => !isDigit c) = true := by
  induction l with
  | nil => rfl
  | cons c cs ih =>
    by_cases h : isDigit c = true
    · simp only [List.dropWhile, h]
      exact ih
    · simp only [Bool.not_eq_true] at h
      simp [List.dropWhile, h]

theorem allDigits_iff (fp : List Char) :
    allDigits fp = true ↔ (!fp.isEmpty && fp.all isDigit) = true := by
  simp [allDigits]

theorem matchesBody_iff (body : List Char) :
    ((match body.takeWhile isDigit with
        | [] => false
        | ['0'] => true
        | c :: _ => c != '0') &&
       (match body.dropWhile isDigit with
        | [] => true
        | '.' :: fp => allDigits fp
        | _ => false)) = true ↔
    ∃ d : DoubleText, d.negative = false ∧ d.wellFormed = true ∧ d.chars = body := by
  constructor
  · intro h
    rw [Bool.and_eq_true] at h
    obtain ⟨h1, h2⟩ := h
    have hall := all_isDigit_takeWhile body
    have hsplit := List.takeWhile_append_dropWhile isDigit body
    have hip : (match body.takeWhile isDigit with
        | [] => false
        | c :: ds => (c == '0' && ds.isEmpty) || (isDigit c && c != '0' && ds.all isDigit))
        = true := by
      revert h1 hall
      cases body.takeWhile isDigit with
      | nil => intro h; cases h
      | cons c ds =>
        intro h1 hall
        simp only [List.all_cons, Bool.and_eq_true] at hall
        split at h1
        · cases h1
        · rename_i heq
          simp only [List.cons.injEq] at heq
          simp [heq.1, heq.2]
        · rename_i c1 t1 hne heq
          simp only [List.cons.injEq] at heq
          obtain ⟨rfl, rfl⟩ := heq
          simp [hall.1, hall.2, h1]
    have hshape : body.dropWhile isDigit = [] ∨
        ∃ fp, body.dropWhile isDigit = '.' :: fp ∧ allDigits fp = true := by
      revert h2
      split
      · rename_i heq
        intro _
        exact Or.inl heq
      · rename_i fp heq
        intro h2
        exact Or.inr ⟨fp, heq, h2⟩
      · intro h2; cases h2
    rcases hshape with hnil | ⟨fp, hfp, hd⟩
    · refine ⟨⟨false, body.takeWhile isDigit, none⟩, rfl, ?_, ?_⟩
      · simp only [DoubleText.wellFormed, Bool.and_eq_true]
        exact ⟨hip, trivial⟩
      · simp only [DoubleText.chars, Bool.false_eq_true, if_false, List.nil_append]
        rw [hnil] at hsplit
        exact hsplit
    · refine ⟨⟨false, body.takeWhile isDigit, some fp⟩, rfl, ?_, ?_⟩
      · simp only [DoubleText.wellFormed, Bool.and_eq_true]
        exact ⟨hip, Bool.and_eq_true _ _ ▸ (allDigits_iff fp).1 hd⟩
      · simp only [DoubleText.chars, Bool.false_eq_true, if_false, List.nil_append]
        rw [hfp] at hsplit
        exact hsplit
  · rintro ⟨⟨neg, ip, frac⟩, hneg, hwf, rfl⟩
    simp only at hneg
    subst hneg
    simp only [DoubleText.wellFormed, Bool.and_eq_true] at hwf
    obtain ⟨hip, hfr⟩ := hwf
    have hipall : ip.all isDigit = true := by
      cases ip with
      | nil => rfl
      | cons c ds =>
        simp only [Bool.or_eq_true, Bool.and_eq_true, beq_iff_eq] at hip
        rcases hip with ⟨rfl, hds⟩ | ⟨⟨hc, _⟩, hds⟩
        · cases ds with
          | nil => decide
          | cons _ _ => cases hds
        · simp [hc, hds]
    have hrest : (match frac with
        | none => ([] : List Char)
        | some fp => '.' :: fp).head?.all (fun c => !isDigit c) = true := by
      cases frac with
      | none => rfl
      | some fp => show (!isDigit '.') = true; decide
    have hsp := takeWhile_digits_append ip _ hipall hrest
    simp only [DoubleText.chars, Bool.false_eq_true, if_false, List.nil_append]
    rw [hsp.1, hsp.2, Bool.and_eq_true]
    constructor
    · cases ip with
      | nil => cases hip
      | cons c ds =>
        simp only [Bool.or_eq_true, Bool.and_eq_true, beq_iff_eq] at hip
        rcases hip with ⟨rfl, hds⟩ | ⟨⟨_, hc⟩, _⟩
        · cases ds with
          | nil => rfl
          | cons _ _ => cases hds
        · split
          · rename_i heq; cases heq
          · rename_i heq
            simp only [List.cons.injEq] at heq
            rw [heq.1] at hc
          · rename_i c1 t1 _ heq
            simp only [List.cons.injEq] at heq
            rw [← heq.1]
            exact hc
    · cases frac with
      | none => rfl
      | some fp => exact (allDigits_iff fp).2 hfr


theorem DoubleText.chars_head (d : DoubleText) (hwf : d.wellFormed = true)
    (hneg : d.negative = false) : d.chars.head? ≠ some '-' := by
  obtain ⟨neg, ip, frac⟩ := d
  simp only at hneg
  subst hneg
  simp only [DoubleText.wellFormed, Bool.and_eq_true] at hwf
  cases ip with
  | nil => cases hwf.1
  | cons c ds =>
    simp only [DoubleText.chars, Bool.false_eq_true, if_false, List.nil_append, List.cons_append,
      List.head?_cons, ne_eq, Option.some.injEq]
    have h1 := hwf.1
    simp only [Bool.or_eq_true, Bool.and_eq_true, beq_iff_eq] at h1
    rcases h1 with ⟨rfl, _⟩ | ⟨⟨hc, _⟩, _⟩
    · decide
    · exact isDigit_ne_minus c hc

/-- The pattern of `CellValueHandler` accepts exactly the texts of the grammar. -/
theorem matchesDoublePattern_iff (t : List Char) :
    matchesDoublePattern t = true ↔ ∃ d : DoubleText, d.wellFormed = true ∧ d.chars = t := by
  constructor
  · intro h
    by_cases hm : t.head? = some '-'
    · cases t with
      | nil => cases hm
      | cons c cs =>
        simp only [List.head?_cons, Option.some.injEq] at hm
        subst hm
        rw [matchesDoublePattern_minus] at h
        obtain ⟨d, hneg, hwf, hch⟩ := (matchesBody_iff cs).1 h
        refine ⟨⟨true, d.integer, d.fraction⟩, ?_, ?_⟩
        · simpa [DoubleText.wellFormed] using hwf
        · rw [← hch]
          simp [DoubleText.chars, hneg]
    · rw [matchesDoublePattern_plain t hm] at h
      obtain ⟨d, _, hwf, hch⟩ := (matchesBody_iff t).1 h
      exact ⟨d, hwf, hch⟩
  · rintro ⟨d, hwf, rfl⟩
    cases hneg : d.negative with
    | false =>
      rw [matchesDoublePattern_plain _ (d.chars_head hwf hneg)]
      exact (matchesBody_iff _).2 ⟨d, hneg, hwf, rfl⟩
    | true =>
      have : d.chars = '-' :: (DoubleText.mk false d.integer d.fraction).chars := by
        simp [DoubleText.chars, hneg]
      rw [this, matchesDoublePattern_minus]
      exact (matchesBody_iff _).2 ⟨_, rfl, by simpa [DoubleText.wellFormed] using hwf, rfl⟩

theorem DoubleText.split_body (d : DoubleText) (hwf : d.wellFormed = true) :
    ((DoubleText.mk false d.integer d.fraction).chars.takeWhile isDigit = d.integer) ∧
    (((DoubleText.mk false d.integer d.fraction).chars.dropWhile isDigit).drop 1 =
      d.fraction.getD []) := by
  obtain ⟨neg, ip, frac⟩ := d
  simp only [DoubleText.wellFormed, Bool.and_eq_true] at hwf
  obtain ⟨hip, hfr⟩ := hwf
  have hipall : ip.all isDigit = true := by
    cases ip with
    | nil => rfl
    | cons c ds =>
      simp only [Bool.or_eq_true, Bool.and_eq_true, beq_iff_eq] at hip
      rcases hip with ⟨rfl, hds⟩ | ⟨⟨hc, _⟩, hds⟩
      · cases ds with
        | nil => decide
        | cons _ _ => cases hds
      · simp [hc, hds]
  have hrest : (match frac with
      | none => ([] : List Char)
      | some fp => '.' :: fp).head?.all (fun c => !isDigit c) = true := by
    cases frac with
    | none => rfl
    | some fp => show (!isDigit '.') = true; decide
  have hsp := takeWhile_digits_append ip _ hipall hrest
  simp only [DoubleText.chars, Bool.false_eq_true, if_false, List.nil_append]
  rw [hsp.1, hsp.2]
  refine ⟨rfl, ?_⟩
  cases frac with
  | none => rfl
  | some fp => rfl

/-- On a text of the grammar the decimal value is the number the text denotes. -/
theorem decimalValue_chars (d : DoubleText) (hwf : d.wellFormed = true) :
    decimalValue d.chars = d.denotes := by
  have hsp := d.split_body hwf
  cases hneg : d.negative with
  | false =>
    have hd : d = DoubleText.mk false d.integer d.fraction := by
      cases d
      simp only at hneg
      simp [hneg]
    have hh := d.chars_head hwf hneg
    rw [← hd] at hsp
    simp only [decimalValue, hh, if_false, hsp.1, hsp.2, DoubleText.denotes, hneg,
      Bool.false_eq_true]
  | true =>
    have : d.chars = '-' :: (DoubleText.mk false d.integer d.fraction).chars := by
      simp [DoubleText.chars, hneg]
    simp only [decimalValue, this, List.head?_cons, if_true, List.drop_succ_cons, List.drop_zero,
      hsp.1, hsp.2, DoubleText.denotes, hneg]

/-- The call `std::stod` returns the decimal value of the text if that lies in the range of
`double`, and throws otherwise. -/
theorem stod_eq (text : List Char) :
    stod text = if inDoubleRange (decimalValue text) = true then some (decimalValue text)
      else none := by
  simp only [stod, inDoubleRange, Bool.and_eq_true, decide_eq_true_eq]
  by_cases h1 : DBL_OVERFLOW ≤ decimalValue text ∨ decimalValue text ≤ -DBL_OVERFLOW
  · rw [if_pos h1, if_neg]
    rintro ⟨⟨h2, h3⟩, _⟩
    rcases h1 with h1 | h1
    · exact absurd h3 (not_lt.mpr h1)
    · exact absurd h2 (not_lt.mpr h1)
  · rw [if_neg h1]
    have h1' : -DBL_OVERFLOW < decimalValue text ∧ decimalValue text < DBL_OVERFLOW := by
      constructor
      · by_contra hx
        exact h1 (Or.inr (not_lt.mp hx))
      · by_contra hx
        exact h1 (Or.inl (not_lt.mp hx))
    by_cases h2 : decimalValue text ≠ 0 ∧ -DBL_MIN < decimalValue text ∧ decimalValue text < DBL_MIN
    · rw [if_pos h2, if_neg]
      rintro ⟨_, h3 | h3 | h3⟩
      · exact h2.1 h3
      · exact absurd h2.2.1 (not_lt.mpr h3)
      · exact absurd h2.2.2 (not_lt.mpr h3)
    · rw [if_neg h2, if_pos]
      refine ⟨h1', ?_⟩
      by_contra hx
      apply h2
      refine ⟨fun h0 => hx (Or.inl h0), ?_, ?_⟩
      · by_contra hy
        exact hx (Or.inr (Or.inl (not_lt.mp hy)))
      · by_contra hy
        exact hx (Or.inr (Or.inr (not_lt.mp hy)))

/-- On a text of the grammar `std::stod` reads the number the text denotes if that lies in
the range of `double`, and throws otherwise. -/
theorem stod_chars (d : DoubleText) (hwf : d.wellFormed = true) :
    stod d.chars = if inDoubleRange d.denotes = true then some d.denotes else none := by
  rw [stod_eq, decimalValue_chars d hwf]

theorem CellValueHandler_text (t : String) :
    (∀ d : DoubleText, d.wellFormed = true → d.chars = t.data →
      (inDoubleRange d.denotes = true → CellValueHandler (.text t) = .ok d.denotes) ∧
      (inDoubleRange d.denotes = false → CellValueHandler (.text t) = .error .OutOfRange)) ∧
    ((¬ ∃ d : DoubleText, d.wellFormed = true ∧ d.chars = t.data) →
      CellValueHandler (.text t) = .error (.FormulaError .Value)) := by
  constructor
  · intro d hwf hch
    have hm : matchesDoublePattern t.data = true := (matchesDoublePattern_iff _).2 ⟨d, hwf, hch⟩
    simp only [CellValueHandler, hm, if_true]
    rw [← hch, stod_chars d hwf]
    constructor
    · intro hr
      simp [hr]
    · intro hr
      simp [hr]
  · intro h
    have hm : matchesDoublePattern t.data = false := by
      cases hm : matchesDoublePattern t.data with
      | false => rfl
      | true => exact absurd ((matchesDoublePattern_iff _).1 hm) h
    simp [CellValueHandler, hm]

theorem Formula.cell_value_of_cell (fuel : Nat) (pos : Position) (s : Sheet) (c : Cell)
    (hv : pos.IsValid = true) (hc : s.cellAt pos = some c) :
    Formula.cell_value (Cell.GetValue fuel) pos s =
      (Cell.GetValue fuel ⟨pos, c.serial⟩ s).bind fun v s2 =>
        match CellValueHandler v with
        | .ok x => .ok x s2
        | .error e => .raised e s2 := by
  simp only [Formula.cell_value, Sheet.GetCell_valid s pos hv, hc, Option.map_some', Res.bind]

theorem Sheet.GetValue_of_cell (fuel : Nat) (pos : Position) (s : Sheet) (c : Cell)
    (hv : pos.IsValid = true) (hc : s.cellAt pos = some c) :
    Sheet.GetValue fuel pos s = Cell.GetValue fuel ⟨pos, c.serial⟩ s := by
  simp only [Sheet.GetValue, Sheet.GetCell_valid s pos hv, hc, Option.map_some', Res.bind]
/-! ## Properties of the sheet that the primitive updates preserve -/

theorem Res.Leaves.imp {α : Type} {P Q : Sheet → Prop} {r : Res α} (h : Res.Leaves P r)
    (hpq : ∀ t, P t → Q t) : Res.Leaves Q r := by
  cases r with
  | ok a s => exact hpq s h
  | raised e s => exact hpq s h
  | undefined => trivial
  | exhausted => trivial

theorem Res.Leaves.of_ok {α : Type} {P : Sheet → Prop} {r : Res α} {a : α} {s : Sheet}
    (h : Res.Leaves P r) (hr : r = .ok a s) : P s := by
  subst hr
  exact h

namespace Cell

open Sheet

theorem RemoveInvalidLinksLoop_keeps {P : Sheet → Prop} (self : CellPtr)
    (hdeps : ∀ t p c, P t → t.deref p = some c →
      P (t.store p { c with dependent_cells_ := setErase self c.dependent_cells_ }))
    (l : List CellPtr) (s : Sheet) (h : P s) :
    Res.Leaves P (RemoveInvalidLinksLoop self l s) := by
  induction l generalizing s with
  | nil => exact h
  | cons p rest ih =>
    simp only [RemoveInvalidLinksLoop]
    cases hd : s.deref p with
    | none => trivial
    | some c => exact ih _ (hdeps s p c h hd)

theorem RemoveInvalidLinks_keeps {P : Sheet → Prop} (self : CellPtr)
    (hdeps : ∀ t p c, P t → t.deref p = some c →
      P (t.store p { c with dependent_cells_ := setErase self c.dependent_cells_ }))
    (hrefs : ∀ t c, P t → t.deref self = some c →
      P (t.store self { c with referenced_cells_ := [] }))
    (s : Sheet) (h : P s) :
    Res.Leaves P (RemoveInvalidLinks self s) := by
  simp only [RemoveInvalidLinks]
  cases hd : s.deref self with
  | none => trivial
  | some c =>
    refine (RemoveInvalidLinksLoop_keeps self hdeps _ s h).seq (fun _ t ht => ?_)
    cases hd1 : t.deref self with
    | none => trivial
    | some c1 => exact hrefs t c1 ht hd1

theorem AddNewLinksLoop_keeps {P : Sheet → Prop}
    (hdeps : ∀ t p c l, P t → t.deref p = some c → P (t.store p { c with dependent_cells_ := l }))
    (hrefs : ∀ t p c l, P t → t.deref p = some c → P (t.store p { c with referenced_cells_ := l }))
    (self : CellPtr) (l : List Position) (s : Sheet) (h : P s) :
    Res.Leaves P (AddNewLinksLoop self l s) := by
  induction l generalizing s with
  | nil => exact h
  | cons pos rest ih =>
    simp only [AddNewLinksLoop]
    cases hv : pos.IsValid with
    | false =>
      rw [GetCell_invalid s pos hv]
      exact h
    | true =>
      rw [GetCell_valid s pos hv]
      simp only [Res.bind]
      cases hc : s.cellAt pos with
      | none => trivial
      | some c =>
        simp only [Option.map_some']
        cases hd : s.deref self with
        | none => trivial
        | some me =>
          simp only
          have h2 := hdeps s self me (setInsert ⟨pos, c.serial⟩ me.dependent_cells_) h hd
          split
          · trivial
          · rename_i c2 hd2
            exact ih _ (hrefs _ _ c2 _ h2 hd2)

theorem AddNewLinks_keeps {P : Sheet → Prop}
    (hdeps : ∀ t p c l, P t → t.deref p = some c → P (t.store p { c with dependent_cells_ := l }))
    (hrefs : ∀ t p c l, P t → t.deref p = some c → P (t.store p { c with referenced_cells_ := l }))
    (self : CellPtr) (s : Sheet) (h : P s) :
    Res.Leaves P (AddNewLinks self s) := by
  simp only [AddNewLinks, GetReferencedCells]
  cases hd : s.deref self with
  | none => trivial
  | some c =>
    simp only
    cases hi : c.impl_ with
    | none => trivial
    | some impl => exact AddNewLinksLoop_keeps hdeps hrefs self _ s h

theorem InvalidateCache_keeps {P : Sheet → Prop}
    (hinv : ∀ t p c impl, P t → t.deref p = some c → c.impl_ = some impl →
      P (t.store p { c with impl_ := some impl.InvalidateCache }))
    (self : CellPtr) (s : Sheet) (h : P s) :
    Res.Leaves P (InvalidateCache self s) := by
  simp only [InvalidateCache]
  cases hd : s.deref self with
  | none => trivial
  | some c =>
    simp only
    cases hi : c.impl_ with
    | none => trivial
    | some impl => exact hinv s self c impl h hd hi

theorem InvalidateDependentCacheLoop_keeps {P : Sheet → Prop}
    (hinv : ∀ t p c impl, P t → t.deref p = some c → c.impl_ = some impl →
      P (t.store p { c with impl_ := some impl.InvalidateCache }))
    (n : Nat) (to_visit visited : List CellPtr) (s : Sheet) (h : P s) :
    Res.Leaves P (InvalidateDependentCacheLoop n to_visit visited s) := by
  induction n generalizing to_visit visited s with
  | zero =>
    cases to_visit with
    | nil => exact h
    | cons a l => trivial
  | succ n ih =>
    cases to_visit with
    | nil => exact h
    | cons cell rest =>
      simp only [InvalidateDependentCacheLoop]
      split
      · exact ih _ _ _ h
      · cases hd : s.deref cell with
        | none => trivial
        | some c =>
          simp only
          cases hi : c.impl_ with
          | none => trivial
          | some impl =>
            simp only
            apply ih
            split
            · exact hinv s cell c impl h hd hi
            · exact h

theorem InvalidateDependentCache_keeps {P : Sheet → Prop}
    (hinv : ∀ t p c impl, P t → t.deref p = some c → c.impl_ = some impl →
      P (t.store p { c with impl_ := some impl.InvalidateCache }))
    (self : CellPtr) (s : Sheet) (h : P s) :
    Res.Leaves P (InvalidateDependentCache self s) := by
  simp only [InvalidateDependentCache]
  cases hd : s.deref self with
  | none => trivial
  | some c => exact InvalidateDependentCacheLoop_keeps hinv _ _ _ s h

theorem GetValue_keeps {P : Sheet → Prop}
    (hcache : ∀ t p c f cache x, P t → t.deref p = some c →
      c.impl_ = some (.FormulaImpl f cache) →
      P (t.store p { c with impl_ := some (.FormulaImpl f (some x)) }))
    (fuel : Nat) (ptr : CellPtr) (s : Sheet) (h : P s) :
    Res.Leaves P (Cell.GetValue fuel ptr s) := by
  induction fuel generalizing ptr s with
  | zero =>
    simp only [Cell.GetValue]
    cases s.deref ptr with
    | none => trivial
    | some c =>
      simp only
      cases c.impl_ with
      | none => trivial
      | some impl =>
        cases impl with
        | EmptyImpl => exact h
        | TextImpl t => exact h
        | FormulaImpl f cache =>
          cases cache with
          | some x => exact h
          | none => trivial
  | succ n ih =>
    simp only [Cell.GetValue]
    cases s.deref ptr with
    | none => trivial
    | some c =>
      simp only
      cases c.impl_ with
      | none => trivial
      | some impl =>
        cases impl with
        | EmptyImpl => exact h
        | TextImpl t => exact h
        | FormulaImpl f cache =>
          cases cache with
          | some x => exact h
          | none =>
            simp only
            refine (Formula.Evaluate_leaves (Cell.GetValue n) (fun p t ht => ih p t ht) f s
              h).seq (fun a t ht => ?_)
            cases a with
            | number x =>
              simp only [Res.Leaves, Sheet.setCache]
              cases hd : t.deref ptr with
              | none => exact ht
              | some c1 =>
                simp only
                cases hi : c1.impl_ with
                | none => exact ht
                | some impl1 =>
                  cases impl1 with
                  | EmptyImpl => exact ht
                  | TextImpl _ => exact ht
                  | FormulaImpl f1 cache1 => exact hcache t ptr c1 f1 cache1 x ht hd hi
            | error fe => exact ht

end Cell

/-! ## The sheet before and after an operation, slot by slot -/

namespace Sheet

theorem Evolves.of_refl {ρ : Cell → Cell → Prop} (hr : ∀ c, ρ c c) (s : Sheet) : Evolves ρ s s :=
  ⟨rfl, fun _ _ => ⟨fun c hc => ⟨c, hc, rfl, hr c⟩, fun h => h⟩⟩

theorem Evolves.of_trans {ρ : Cell → Cell → Prop} (ht : ∀ a b c, ρ a b → ρ b c → ρ a c)
    {s t u : Sheet} (h1 : Evolves ρ s t) (h2 : Evolves ρ t u) : Evolves ρ s u := by
  refine ⟨h2.1.trans h1.1, fun row col => ⟨fun c hc => ?_, fun hn => ?_⟩⟩
  · obtain ⟨c1, hc1, hs1, hρ1⟩ := (h1.2 row col).1 c hc
    obtain ⟨c2, hc2, hs2, hρ2⟩ := (h2.2 row col).1 c1 hc1
    exact ⟨c2, hc2, hs2.trans hs1, ht _ _ _ hρ1 hρ2⟩
  · exact (h2.2 row col).2 ((h1.2 row col).2 hn)

/-- Replacing the state of a live object by a related state. -/
theorem Evolves.store_rel {ρ : Cell → Cell → Prop} (hr : ∀ c, ρ c c) (s : Sheet) (p : CellPtr)
    (c c' : Cell) (hd : s.deref p = some c) (hs : c'.serial = c.serial) (hρ : ρ c c') :
    Evolves ρ s (s.store p c') := by
  rw [deref_eq_some] at hd
  refine ⟨store_allocated s p c', fun row col => ?_⟩
  by_cases hne : p.pos.row.toNat ≠ row ∨ p.pos.col.toNat ≠ col
  · rw [slot_store_ne s p c' row col hne]
    exact ⟨fun c0 hc0 => ⟨c0, hc0, rfl, hr c0⟩, fun h => h⟩
  · have h1 : p.pos.row.toNat = row := by
      by_contra hx
      exact hne (Or.inl hx)
    have h2 : p.pos.col.toNat = col := by
      by_contra hx
      exact hne (Or.inr hx)
    subst h1
    subst h2
    have hslot : s.slot p.pos.row.toNat p.pos.col.toNat = some c := hd.2.1
    rw [slot_store_same s p c' (inRange_of_slot_eq_some s _ _ c hslot), hslot]
    refine ⟨fun c0 hc0 => ?_, fun h => by cases h⟩
    cases hc0
    exact ⟨c', rfl, hs, hρ⟩

theorem Evolves.deref_live {ρ : Cell → Cell → Prop} {s t : Sheet} (h : Evolves ρ s t)
    (p : CellPtr) (c : Cell) (hd : s.deref p = some c) :
    ∃ c', t.deref p = some c' ∧ ρ c c' := by
  rw [deref_eq_some] at hd
  obtain ⟨c', hc', hs', hρ⟩ := (h.2 _ _).1 c hd.2.1
  refine ⟨c', ?_, hρ⟩
  rw [deref_eq_some]
  exact ⟨hd.1, hc', hs'.trans hd.2.2⟩

theorem Evolves.deref_none {ρ : Cell → Cell → Prop} {s t : Sheet} (h : Evolves ρ s t)
    (p : CellPtr) (hd : s.deref p = none) : t.deref p = none := by
  cases ht : t.deref p with
  | none => rfl
  | some c' =>
    exfalso
    rw [deref_eq_some] at ht
    cases hs : s.slot p.pos.row.toNat p.pos.col.toNat with
    | none =>
      have := (h.2 _ _).2 hs
      rw [cellAt] at ht
      rw [this] at ht
      cases ht.2.1
    | some c =>
      obtain ⟨c1, hc1, hs1, _⟩ := (h.2 _ _).1 c hs
      have e : c1 = c' := by
        have := ht.2.1
        rw [cellAt, hc1] at this
        cases this
        rfl
      subst e
      have : s.deref p = some c := by
        rw [deref_eq_some]
        exact ⟨ht.1, hs, hs1.symm.trans ht.2.2⟩
      rw [this] at hd
      cases hd

theorem Evolves.cellAt_some {ρ : Cell → Cell → Prop} {s t : Sheet} (h : Evolves ρ s t)
    (pos : Position) (c : Cell) (hc : s.cellAt pos = some c) :
    ∃ c', t.cellAt pos = some c' ∧ c'.serial = c.serial ∧ ρ c c' :=
  (h.2 _ _).1 c hc

theorem Evolves.cellAt_none {ρ : Cell → Cell → Prop} {s t : Sheet} (h : Evolves ρ s t)
    (pos : Position) (hc : s.cellAt pos = none) : t.cellAt pos = none :=
  (h.2 _ _).2 hc

end Sheet

namespace Cell

theorem SameContent.same (c : Cell) : SameContent c c := rfl

theorem SameContent.step (a b c : Cell) (h1 : SameContent a b) (h2 : SameContent b c) :
    SameContent a c := by
  unfold SameContent at *
  rw [h2, h1]

theorem SameButCache.same_edges (c : Cell) : SameButCache c c := ⟨rfl, rfl, rfl⟩

theorem SameButCache.step_edges (a b c : Cell) (h1 : SameButCache a b) (h2 : SameButCache b c) :
    SameButCache a c :=
  ⟨h2.1.trans h1.1, h2.2.1.trans h1.2.1, SameContent.step a b c h1.2.2 h2.2.2⟩

theorem Impl.InvalidateCache_idem (impl : Impl) :
    impl.InvalidateCache.InvalidateCache = impl.InvalidateCache := by
  cases impl <;> rfl

theorem SameContent.invalidate (c : Cell) (impl : Impl) (hi : c.impl_ = some impl) :
    SameContent c { c with impl_ := some impl.InvalidateCache } := by
  simp only [SameContent, hi, Option.map_some', Impl.InvalidateCache_idem]

theorem SameContent.cache (c : Cell) (f : Formula) (cache : Option ℚ) (x : ℚ)
    (hi : c.impl_ = some (.FormulaImpl f cache)) :
    SameContent c { c with impl_ := some (.FormulaImpl f (some x)) } := by
  simp only [SameContent, hi, Option.map_some', Impl.InvalidateCache]

/-- What `SameContent` says about the implementation. -/
theorem SameContent.impl_cases {c c' : Cell} (h : SameContent c c') :
    (c.impl_ = none ∧ c'.impl_ = none) ∨
    (c.impl_ = some .EmptyImpl ∧ c'.impl_ = some .EmptyImpl) ∨
    (∃ t, c.impl_ = some (.TextImpl t) ∧ c'.impl_ = some (.TextImpl t)) ∨
    (∃ f x y, c.impl_ = some (.FormulaImpl f x) ∧ c'.impl_ = some (.FormulaImpl f y)) := by
  unfold SameContent at h
  cases h1 : c.impl_ with
  | none =>
    cases h2 : c'.impl_ with
    | none => exact Or.inl ⟨rfl, rfl⟩
    | some i2 => rw [h1, h2] at h; cases h
  | some i1 =>
    cases h2 : c'.impl_ with
    | none => rw [h1, h2] at h; cases h
    | some i2 =>
      rw [h1, h2] at h
      simp only [Option.map_some', Option.some.injEq] at h
      cases i1 with
      | EmptyImpl =>
        cases i2 with
        | EmptyImpl => exact Or.inr (Or.inl ⟨rfl, rfl⟩)
        | TextImpl t2 => simp [Impl.InvalidateCache] at h
        | FormulaImpl f2 x2 => simp [Impl.InvalidateCache] at h
      | TextImpl t1 =>
        cases i2 with
        | EmptyImpl => simp [Impl.InvalidateCache] at h
        | TextImpl t2 =>
          simp only [Impl.InvalidateCache, Impl.TextImpl.injEq] at h
          subst h
          exact Or.inr (Or.inr (Or.inl ⟨_, rfl, rfl⟩))
        | FormulaImpl f2 x2 => simp [Impl.InvalidateCache] at h
      | FormulaImpl f1 x1 =>
        cases i2 with
        | EmptyImpl => simp [Impl.InvalidateCache] at h
        | TextImpl t2 => simp [Impl.InvalidateCache] at h
        | FormulaImpl f2 x2 =>
          simp only [Impl.InvalidateCache, Impl.FormulaImpl.injEq, and_true] at h
          subst h
          exact Or.inr (Or.inr (Or.inr ⟨_, _, _, rfl, rfl⟩))

end Cell

/-! ## What a call changes: cached values, edge sets, one implementation -/

namespace Cell

open Sheet

/-- A call of `GetValue` changes cached values only. -/
theorem GetValue_sameButCache (fuel : Nat) (ptr : CellPtr) (s : Sheet) :
    Res.Leaves (Evolves SameButCache s) (Cell.GetValue fuel ptr s) := by
  apply GetValue_keeps (P := Evolves SameButCache s) _ fuel ptr s
    (Evolves.of_refl SameButCache.same_edges s)
  intro t p c f cache x ht hd hi
  exact Evolves.of_trans SameButCache.step_edges ht
    (Evolves.store_rel SameButCache.same_edges t p c _ hd rfl ⟨rfl, rfl, SameContent.cache c f cache x hi⟩)

/-- The edge rewriting and the invalidation at the end of `Cell::Set` change edge sets and
cached values only. -/
theorem Set_tail_sameContent (self : CellPtr) (s : Sheet) :
    Res.Leaves (Evolves SameContent s)
      ((RemoveInvalidLinks self s).bind fun _ s2 =>
        (AddNewLinks self s2).bind fun _ s3 =>
          (IsCacheValid self s3).bind fun valid s4 =>
            if valid then
              (InvalidateCache self s4).bind fun _ s5 => InvalidateDependentCache self s5
            else .ok () s4) := by
  have hdeps : ∀ t p c l, Evolves SameContent s t → t.deref p = some c →
      Evolves SameContent s (t.store p { c with dependent_cells_ := l }) :=
    fun t p c l ht hd => Evolves.of_trans SameContent.step ht
      (Evolves.store_rel SameContent.same t p c _ hd rfl rfl)
  have hrefs : ∀ t p c l, Evolves SameContent s t → t.deref p = some c →
      Evolves SameContent s (t.store p { c with referenced_cells_ := l }) :=
    fun t p c l ht hd => Evolves.of_trans SameContent.step ht
      (Evolves.store_rel SameContent.same t p c _ hd rfl rfl)
  have hinv : ∀ t p c impl, Evolves SameContent s t → t.deref p = some c →
      c.impl_ = some impl →
      Evolves SameContent s (t.store p { c with impl_ := some impl.InvalidateCache }) :=
    fun t p c impl ht hd hi => Evolves.of_trans SameContent.step ht
      (Evolves.store_rel SameContent.same t p c _ hd rfl (SameContent.invalidate c impl hi))
  refine (RemoveInvalidLinks_keeps self (fun t p c => hdeps t p c _)
    (fun t c => hrefs t self c _) s (Evolves.of_refl SameContent.same s)).seq (fun _ s2 h2 => ?_)
  refine (AddNewLinks_keeps hdeps hrefs self s2 h2).seq (fun _ s3 h3 => ?_)
  simp only [IsCacheValid]
  cases hd3 : s3.deref self with
  | none => trivial
  | some c3 =>
    simp only
    cases hi3 : c3.impl_ with
    | none => trivial
    | some impl3 =>
      simp only [Res.bind]
      split
      · refine (InvalidateCache_keeps hinv self s3 h3).seq (fun _ s5 h5 => ?_)
        exact InvalidateDependentCache_keeps hinv self s5 h5
      · exact h3

/-- A call of `Cell::Set` that returns normally: the references were materialised as Empty cells,
the implementation of the cell was replaced, and nothing else changed but edge sets and
cached values. -/
theorem Set_ok_content (n : Nat) (self : CellPtr) (text : String) (s s' : Sheet) (c : Cell)
    (hd : s.deref self = some c)
    (h : Cell.Set (SetCellAux (n + 1)) self text s = .ok () s') :
    ∃ temp s1, makeImpl text = some temp ∧ ExtendsByEmpty s s1 ∧
      (∀ q ∈ temp.GetReferencedCells, s1.cellAt q ≠ none) ∧
      s1.deref self = some c ∧
      Evolves SameContent (s1.store self { c with impl_ := some temp }) s' := by
  simp only [Cell.Set] at h
  cases hm : makeImpl text with
  | none => simp [hm] at h
  | some temp =>
    simp only [hm] at h
    rcases CreateEmptyCells_spec n temp.GetReferencedCells s
      (fun q hq => makeImpl_refs_valid text temp hm q hq) with ⟨s1, h1, hext, hpres, _⟩
    rw [h1] at h
    simp only [Res.bind] at h
    have hd1 : s1.deref self = some c := hext.deref_some self c hd
    refine ⟨temp, s1, rfl, hext, hpres, hd1, ?_⟩
    rcases IsCircularDependent_res (s1.slotCount + 2) s1 self (some temp) []
      with ⟨b, hb⟩ | hb | hb | hb
    · rw [hb] at h
      simp only at h
      cases b with
      | true => simp at h
      | false =>
        simp only [Bool.false_eq_true, if_false, hd1] at h
        exact (Set_tail_sameContent self _).of_ok h
    · rw [hb] at h
      cases h
    · rw [hb] at h
      cases h
    · rw [hb] at h
      cases h

end Cell

/-! ## The invalidation walk visits what it can reach, once -/

namespace Sheet

/-- Reading through a pointer after the state of a live object was replaced. -/
theorem deref_store (s : Sheet) (p : CellPtr) (c c' : Cell) (q : CellPtr)
    (hd : s.deref p = some c) (hs : c'.serial = c.serial) :
    (s.store p c').deref q = if q = p then some c' else s.deref q := by
  have hd' := (deref_eq_some s p c).1 hd
  have hin := inRange_of_slot_eq_some s _ _ c hd'.2.1
  by_cases hqp : q = p
  · subst hqp
    rw [if_pos rfl]
    exact deref_store_same s q c' hd'.1 hin (hs.trans hd'.2.2)
  · rw [if_neg hqp]
    cases hqv : q.pos.IsValid with
    | false => simp [deref, hqv]
    | true =>
      by_cases hpos : q.pos = p.pos
      · have hser : q.serial ≠ p.serial := by
          intro h
          apply hqp
          cases q
          cases p
          simp only at hpos h
          simp [hpos, h]
        have h1 : (s.store p c').deref q = none := by
          cases hx : (s.store p c').deref q with
          | none => rfl
          | some x =>
            exfalso
            have hx' := (deref_eq_some _ q x).1 hx
            have hsl := slot_store_same s p c' hin
            rw [cellAt, hpos, hsl] at hx'
            have e := hx'.2.1
            cases e
            exact hser (hx'.2.2.symm.trans (hs.trans hd'.2.2))
        have h2 : s.deref q = none := by
          cases hx : s.deref q with
          | none => rfl
          | some x =>
            exfalso
            have hx' := (deref_eq_some _ q x).1 hx
            rw [hpos, hd'.2.1] at hx'
            have e := hx'.2.1
            cases e
            exact hser (hx'.2.2.symm.trans hd'.2.2)
        rw [h1, h2]
      · have hne := idx_ne_of_valid p.pos q.pos hd'.1 hqv hpos
        simp only [deref, hqv, if_true]
        rw [slot_store_ne s p c' _ _ hne]

end Sheet

theorem Impl.InvalidateCache_of_not_valid (impl : Impl) (h : impl.IsCacheValid = false) :
    impl.InvalidateCache = impl := by
  cases impl with
  | EmptyImpl => rfl
  | TextImpl t => rfl
  | FormulaImpl f cache =>
    cases cache with
    | none => rfl
    | some x => cases h

theorem Impl.InvalidateCache_holds_none (impl : Impl) (f : Formula) (cache : Option ℚ)
    (h : impl.InvalidateCache = .FormulaImpl f cache) : cache = none := by
  cases impl with
  | EmptyImpl => cases h
  | TextImpl t => cases h
  | FormulaImpl f1 cache1 =>
    simp only [Impl.InvalidateCache, Impl.FormulaImpl.injEq] at h
    exact h.2.symm

namespace Cell

open Sheet

/-- One round of the walk, seen through the pointers: the popped cell is invalidated and
nothing else changes. -/
theorem walk_round_deref (s : Sheet) (cell : CellPtr) (c : Cell) (impl : Impl)
    (hd : s.deref cell = some c) (hi : c.impl_ = some impl) (p : CellPtr) :
    (if impl.IsCacheValid = true then
        s.store cell { c with impl_ := some impl.InvalidateCache } else s).deref p
      = if p = cell then some c.invalidated else s.deref p := by
  have e : c.invalidated = { c with impl_ := some impl.InvalidateCache } := by
    simp only [Cell.invalidated, hi, Option.map_some']
  by_cases hv : impl.IsCacheValid = true
  · rw [if_pos hv, e]
    exact deref_store s cell c _ p hd rfl
  · rw [if_neg hv]
    simp only [Bool.not_eq_true] at hv
    by_cases hp : p = cell
    · subst hp
      rw [if_pos rfl, hd, e, Impl.InvalidateCache_of_not_valid impl hv, ← hi]
    · rw [if_neg hp]

theorem invalidated_dependent_cells (c : Cell) :
    c.invalidated.dependent_cells_ = c.dependent_cells_ := rfl

/-- The loop of the walk that returns: the trace has no repetition and avoids the visited
set; what was on the stack is visited or in the trace; the trace is closed under
`dependent_cells_` up to the visited set; the sheet left behind is the given one with the
cells of the trace invalidated; and the trace holds only what the stack reaches. -/
theorem InvalidateDependentCacheLoop_spec (n : Nat) (to_visit visited : List CellPtr)
    (s s' : Sheet) (h : InvalidateDependentCacheLoop n to_visit visited s = .ok () s') :
    (InvalidateDependentCacheTrace n to_visit visited s).Nodup ∧
    (∀ p ∈ InvalidateDependentCacheTrace n to_visit visited s, p ∉ visited) ∧
    (∀ p ∈ to_visit, p ∈ visited ∨ p ∈ InvalidateDependentCacheTrace n to_visit visited s) ∧
    (∀ p ∈ InvalidateDependentCacheTrace n to_visit visited s,
      ∃ c, s.deref p = some c ∧ c.impl_ ≠ none ∧
        ∀ q ∈ c.dependent_cells_,
          q ∈ visited ∨ q ∈ InvalidateDependentCacheTrace n to_visit visited s) ∧
    (∀ p, s'.deref p =
      if p ∈ InvalidateDependentCacheTrace n to_visit visited s then
        (s.deref p).map Cell.invalidated
      else s.deref p) ∧
    (∀ R : CellPtr → Prop, (∀ p ∈ to_visit, R p) →
      (∀ p c q, R p → s.deref p = some c → q ∈ c.dependent_cells_ → R q) →
      ∀ p ∈ InvalidateDependentCacheTrace n to_visit visited s, R p) := by
  induction n generalizing to_visit visited s with
  | zero =>
    cases to_visit with
    | nil =>
      simp only [InvalidateDependentCacheLoop, Res.ok.injEq, true_and] at h
      subst h
      simp [InvalidateDependentCacheTrace]
    | cons a l => simp [InvalidateDependentCacheLoop] at h
  | succ n ih =>
    cases to_visit with
    | nil =>
      simp only [InvalidateDependentCacheLoop, Res.ok.injEq, true_and] at h
      subst h
      simp [InvalidateDependentCacheTrace]
    | cons cell rest =>
      simp only [InvalidateDependentCacheLoop] at h
      by_cases hvis : cell ∈ visited
      · simp only [hvis, if_true] at h
        have e : InvalidateDependentCacheTrace (n + 1) (cell :: rest) visited s
            = InvalidateDependentCacheTrace n rest visited s := by
          simp only [InvalidateDependentCacheTrace, hvis, if_true]
        rw [e]
        obtain ⟨i1, i2, i3, i4, i5, i6⟩ := ih rest visited s h
        refine ⟨i1, i2, ?_, i4, i5, ?_⟩
        · intro p hp
          rcases List.mem_cons.mp hp with rfl | hp
          · exact Or.inl hvis
          · exact i3 p hp
        · intro R hR hcl
          exact i6 R (fun p hp => hR p (List.mem_cons_of_mem _ hp)) hcl
      · simp only [hvis, if_false] at h
        cases hd : s.deref cell with
        | none => simp [hd] at h
        | some c =>
          simp only [hd] at h
          cases hi : c.impl_ with
          | none => simp [hi] at h
          | some impl =>
            simp only [hi] at h
            have e : InvalidateDependentCacheTrace (n + 1) (cell :: rest) visited s
                = cell :: InvalidateDependentCacheTrace n (c.dependent_cells_.reverse ++ rest)
                    (cell :: visited)
                    (if impl.IsCacheValid = true then
                      s.store cell { c with impl_ := some impl.InvalidateCache } else s) := by
              simp only [InvalidateDependentCacheTrace, hvis, if_false, hd, hi]
            rw [e]
            have hs1 := walk_round_deref s cell c impl hd hi
            obtain ⟨i1, i2, i3, i4, i5, i6⟩ := ih _ _ _ h
            have hnot : ∀ p ∈ InvalidateDependentCacheTrace n
                (c.dependent_cells_.reverse ++ rest) (cell :: visited)
                (if impl.IsCacheValid = true then
                  s.store cell { c with impl_ := some impl.InvalidateCache } else s),
                p ≠ cell ∧ p ∉ visited := by
              intro p hp
              have := i2 p hp
              simp only [List.mem_cons, not_or] at this
              exact this
            refine ⟨?_, ?_, ?_, ?_, ?_, ?_⟩
            · rw [List.nodup_cons]
              exact ⟨fun hc => (hnot cell hc).1 rfl, i1⟩
            · intro p hp
              rcases List.mem_cons.mp hp with rfl | hp
              · exact hvis
              · exact (hnot p hp).2
            · intro p hp
              rcases List.mem_cons.mp hp with rfl | hp
              · exact Or.inr (List.mem_cons_self _ _)
              · rcases i3 p (List.mem_append_right _ hp) with h1 | h1
                · rcases List.mem_cons.mp h1 with rfl | h1
                  · exact Or.inr (List.mem_cons_self _ _)
                  · exact Or.inl h1
                · exact Or.inr (List.mem_cons_of_mem _ h1)
            · intro p hp
              have hq : ∀ q, (q ∈ cell :: visited ∨ q ∈ InvalidateDependentCacheTrace n
                  (c.dependent_cells_.reverse ++ rest) (cell :: visited)
                  (if impl.IsCacheValid = true then
                    s.store cell { c with impl_ := some impl.InvalidateCache } else s)) →
                  (q ∈ visited ∨ q ∈ cell :: InvalidateDependentCacheTrace n
                  (c.dependent_cells_.reverse ++ rest) (cell :: visited)
                  (if impl.IsCacheValid = true then
                    s.store cell { c with impl_ := some impl.InvalidateCache } else s)) := by
                intro q hq
                rcases hq with h1 | h1
                · rcases List.mem_cons.mp h1 with rfl | h1
                  · exact Or.inr (List.mem_cons_self _ _)
                  · exact Or.inl h1
                · exact Or.inr (List.mem_cons_of_mem _ h1)
              rcases List.mem_cons.mp hp with rfl | hp
              · refine ⟨c, hd, by simp [hi], fun q hq1 => hq q ?_⟩
                exact i3 q (List.mem_append_left _ (List.mem_reverse.mpr hq1))
              · obtain ⟨c1, hc1, hc2, hc3⟩ := i4 p hp
                rw [hs1 p, if_neg (hnot p hp).1] at hc1
                exact ⟨c1, hc1, hc2, fun q hq1 => hq q (hc3 q hq1)⟩
            · intro p
              rw [i5 p, hs1 p]
              by_cases hpc : p = cell
              · subst hpc
                rw [if_neg (fun hc => (hnot p hc).1 rfl), if_pos rfl,
                  if_pos (List.mem_cons_self _ _), hd]
                rfl
              · simp only [List.mem_cons, hpc, false_or, if_false]
            · intro R hR hcl p hp
              rcases List.mem_cons.mp hp with rfl | hp
              · exact hR p (List.mem_cons_self _ _)
              · refine i6 R ?_ ?_ p hp
                · intro q hq
                  rcases List.mem_append.mp hq with h1 | h1
                  · exact hcl cell c q (hR cell (List.mem_cons_self _ _)) hd
                      (List.mem_reverse.mp h1)
                  · exact hR q (List.mem_cons_of_mem _ h1)
                · intro p1 c1 q hp1 hc1 hq
                  rw [hs1 p1] at hc1
                  by_cases hpc : p1 = cell
                  · subst hpc
                    rw [if_pos rfl] at hc1
                    cases hc1
                    exact hcl p1 c q hp1 hd hq
                  · rw [if_neg hpc] at hc1
                    exact hcl p1 c1 q hp1 hc1 hq

theorem InvalidateDependentCacheLoop_not_undefined (S : CellPtr → Prop) (n : Nat)
    (to_visit visited : List CellPtr) (s : Sheet) (hS : LiveDeps s S)
    (htv : ∀ p ∈ to_visit, S p) :
    InvalidateDependentCacheLoop n to_visit visited s ≠ .undefined := by
  induction n generalizing to_visit visited s with
  | zero => cases to_visit <;> simp [InvalidateDependentCacheLoop]
  | succ n ih =>
    cases to_visit with
    | nil => simp [InvalidateDependentCacheLoop]
    | cons cell rest =>
      simp only [InvalidateDependentCacheLoop]
      split
      · exact ih rest visited s hS (fun p hp => htv p (List.mem_cons_of_mem _ hp))
      · obtain ⟨c, hd, hi, hdeps⟩ := hS cell (htv cell (List.mem_cons_self _ _))
        rw [hd]
        simp only
        cases hi1 : c.impl_ with
        | none => exact absurd hi1 hi
        | some impl =>
          simp only
          apply ih
          · intro p hp
            obtain ⟨c1, hd1, hi2, hdeps1⟩ := hS p hp
            rw [walk_round_deref s cell c impl hd hi1 p]
            by_cases hpc : p = cell
            · subst hpc
              rw [hd] at hd1
              cases hd1
              rw [if_pos rfl]
              refine ⟨c.invalidated, rfl, ?_, hdeps1⟩
              simp [Cell.invalidated, hi1]
            · rw [if_neg hpc]
              exact ⟨c1, hd1, hi2, hdeps1⟩
          · intro p hp
            rcases List.mem_append.mp hp with h1 | h1
            · exact hdeps p (List.mem_reverse.mp h1)
            · exact htv p (List.mem_cons_of_mem _ h1)

/-- The walk returns when everything it can reach is a cell of the sheet with an
implementation. -/
theorem InvalidateDependentCache_total (self : CellPtr) (s : Sheet) (c : Cell)
    (hd : s.deref self = some c)
    (hlive : ∀ q, s.DepReach self q → ∃ c1, s.deref q = some c1 ∧ c1.impl_ ≠ none) :
    ∃ s', InvalidateDependentCache self s = .ok () s' := by
  have hS : LiveDeps s (s.DepReach self) := by
    intro p hp
    obtain ⟨c1, hd1, hi1⟩ := hlive p hp
    exact ⟨c1, hd1, hi1, fun q hq => Sheet.DepReach.next p c1 q hp hd1 hq⟩
  have hne := InvalidateDependentCache_not_exhausted self s
  simp only [InvalidateDependentCache, hd] at hne ⊢
  have hu := InvalidateDependentCacheLoop_not_undefined (s.DepReach self)
    (c.dependent_cells_.length + (s.cells.map (fun x => x.dependent_cells_.length)).sum + 1)
    c.dependent_cells_.reverse [] s hS
    (fun p hp => Sheet.DepReach.first c p hd (List.mem_reverse.mp hp))
  have hr := InvalidateDependentCacheLoop_not_raised
    (c.dependent_cells_.length + (s.cells.map (fun x => x.dependent_cells_.length)).sum + 1)
    c.dependent_cells_.reverse [] s
  revert hne hu hr
  cases InvalidateDependentCacheLoop
    (c.dependent_cells_.length + (s.cells.map (fun x => x.dependent_cells_.length)).sum + 1)
    c.dependent_cells_.reverse [] s with
  | ok a t => intro _ _ _; exact ⟨t, rfl⟩
  | raised e t => intro _ _ hr; exact absurd rfl (hr e t)
  | undefined => intro _ hu _; exact absurd rfl hu
  | exhausted => intro hne _ _; exact absurd rfl hne

/-- The walk that returns has processed exactly the pointers it can reach, each once, and
has invalidated exactly their cells. -/
theorem InvalidateDependentCache_spec (self : CellPtr) (s s' : Sheet)
    (h : InvalidateDependentCache self s = .ok () s') :
    (InvalidateDependentCacheVisits self s).Nodup ∧
    (∀ p, p ∈ InvalidateDependentCacheVisits self s ↔ s.DepReach self p) ∧
    (∀ p, s'.deref p =
      if p ∈ InvalidateDependentCacheVisits self s then (s.deref p).map Cell.invalidated
      else s.deref p) ∧
    (∀ p, s.DepReach self p → ∃ c, s.deref p = some c ∧ c.impl_ ≠ none) := by
  simp only [InvalidateDependentCache] at h
  cases hd : s.deref self with
  | none => simp [hd] at h
  | some c =>
    simp only [hd] at h
    obtain ⟨i1, _, i3, i4, i5, i6⟩ := InvalidateDependentCacheLoop_spec _ _ _ s s' h
    have e : InvalidateDependentCacheVisits self s = InvalidateDependentCacheTrace
        (c.dependent_cells_.length + (s.cells.map (fun x => x.dependent_cells_.length)).sum + 1)
        c.dependent_cells_.reverse [] s := by
      simp only [InvalidateDependentCacheVisits, hd]
    rw [e]
    have hreach : ∀ p, s.DepReach self p → p ∈ InvalidateDependentCacheTrace
        (c.dependent_cells_.length + (s.cells.map (fun x => x.dependent_cells_.length)).sum + 1)
        c.dependent_cells_.reverse [] s := by
      intro p hp
      induction hp with
      | first c0 q hd0 hq =>
        rw [hd] at hd0
        cases hd0
        rcases i3 q (List.mem_reverse.mpr hq) with h1 | h1
        · cases h1
        · exact h1
      | next p0 c0 q _ hd0 hq ih =>
        obtain ⟨c1, hc1, _, hc3⟩ := i4 p0 ih
        rw [hd0] at hc1
        cases hc1
        rcases hc3 q hq with h1 | h1
        · cases h1
        · exact h1
    refine ⟨i1, fun p => ⟨fun hp => ?_, hreach p⟩, i5, fun p hp => ?_⟩
    · exact i6 (s.DepReach self)
        (fun q hq => Sheet.DepReach.first c q hd (List.mem_reverse.mp hq))
        (fun p0 c0 q hp0 hd0 hq => Sheet.DepReach.next p0 c0 q hp0 hd0 hq) p hp
    · obtain ⟨c1, hc1, hc2, _⟩ := i4 p (hreach p hp)
      exact ⟨c1, hc1, hc2⟩

theorem invalidated_holdsNoCache (c : Cell) : c.invalidated.HoldsNoCache := by
  intro f cache hc
  simp only [Cell.invalidated] at hc
  cases hi : c.impl_ with
  | none => simp [hi] at hc
  | some impl =>
    simp only [hi, Option.map_some', Option.some.injEq] at hc
    exact Impl.InvalidateCache_holds_none impl f cache hc

end Cell

/-! ## Assigning a text or the empty text -/

namespace Sheet

theorem mem_cells (s : Sheet) (c : Cell) :
    c ∈ s.cells ↔ ∃ row col, s.slot row col = some c := by
  simp only [cells, List.mem_filterMap, id, List.mem_flatten, slot]
  constructor
  · rintro ⟨a, ⟨r, hr, ha⟩, rfl⟩
    obtain ⟨i, hi, rfl⟩ := List.mem_iff_getElem.mp hr
    obtain ⟨j, hj, hj2⟩ := List.mem_iff_getElem.mp ha
    refine ⟨i, j, ?_⟩
    rw [List.getElem?_eq_getElem hi]
    simp only
    rw [List.getElem?_eq_getElem hj, hj2]
  · rintro ⟨row, col, h⟩
    cases h1 : s.table_[row]? with
    | none => simp [h1] at h
    | some r =>
      simp only [h1] at h
      cases h2 : r[col]? with
      | none => simp [h2] at h
      | some x =>
        simp only [h2] at h
        subst h
        exact ⟨some c, ⟨r, List.getElem?_mem h1, List.getElem?_mem h2⟩, rfl⟩

end Sheet

namespace Cell

open Sheet

end Cell

namespace Sheet

theorem Evolves.slot_some_back {ρ : Cell → Cell → Prop} {s t : Sheet} (h : Evolves ρ s t)
    (row col : Nat) (c' : Cell) (hc : t.slot row col = some c') :
    ∃ c, s.slot row col = some c ∧ c'.serial = c.serial ∧ ρ c c' := by
  cases hs : s.slot row col with
  | none =>
    rw [(h.2 row col).2 hs] at hc
    cases hc
  | some c =>
    obtain ⟨c1, hc1, hs1, hρ⟩ := (h.2 row col).1 c hs
    rw [hc1] at hc
    cases hc
    exact ⟨c, rfl, hs1, hρ⟩

end Sheet

namespace Cell

open Sheet

end Cell

namespace Cell

open Sheet

end Cell

namespace Sheet

end Sheet

/-! ## The two stored edge sets mirror each other -/

namespace Sheet

theorem deref_congr (s t : Sheet) (h : ∀ row col, t.slot row col = s.slot row col)
    (p : CellPtr) : t.deref p = s.deref p := by
  simp only [deref, h]

theorem Evolves.deref_back {ρ : Cell → Cell → Prop} {s t : Sheet} (h : Evolves ρ s t)
    (p : CellPtr) (c' : Cell) (hd : t.deref p = some c') :
    ∃ c, s.deref p = some c ∧ ρ c c' := by
  cases hs : s.deref p with
  | none =>
    rw [h.deref_none p hs] at hd
    cases hd
  | some c =>
    obtain ⟨c1, hc1, hρ⟩ := h.deref_live p c hs
    rw [hc1] at hd
    cases hd
    exact ⟨c, rfl, hρ⟩

/-- Read through the pointers, a sheet that differs from `s` at most in implementations
and cached values. -/
theorem GraphInv.of_same_edges {s t : Sheet} (h : GraphInv s) (ha : t.allocated = s.allocated)
    (hd : ∀ p c', t.deref p = some c' → ∃ c, s.deref p = some c ∧
      c'.dependent_cells_ = c.dependent_cells_ ∧ c'.referenced_cells_ = c.referenced_cells_) :
    GraphInv t := by
  refine ⟨?_, ?_, ?_⟩
  · intro p c' hc'
    obtain ⟨c, hc, _, _⟩ := hd p c' hc'
    rw [ha]
    exact h.cell_fresh p c hc
  · intro p c' hc' q hq
    obtain ⟨c, hc, h1, h2⟩ := hd p c' hc'
    rw [ha]
    rw [h1, h2] at hq
    exact h.edge_fresh p c hc q hq
  · intro a b ca' cb' hca hcb
    obtain ⟨ca, hca0, _, h2⟩ := hd a ca' hca
    obtain ⟨cb, hcb0, h3, _⟩ := hd b cb' hcb
    rw [h3, h2]
    exact h.mirror a b ca cb hca0 hcb0

theorem GraphInv.of_evolves {ρ : Cell → Cell → Prop} {s t : Sheet} (h : GraphInv s)
    (he : Evolves ρ s t)
    (hρ : ∀ c c', ρ c c' → c'.dependent_cells_ = c.dependent_cells_ ∧
      c'.referenced_cells_ = c.referenced_cells_) : GraphInv t := by
  refine h.of_same_edges he.1 (fun p c' hc' => ?_)
  obtain ⟨c, hc, hr⟩ := he.deref_back p c' hc'
  exact ⟨c, hc, (hρ c c' hr).1, (hρ c c' hr).2⟩

/-- Adding a cell object without edges under the next serial number. -/
theorem GraphInv.add_fresh {s t : Sheet} (h : GraphInv s) (q : Position) (impl : Option Impl)
    (ha : t.allocated = s.allocated + 1)
    (hq : t.cellAt q = some ⟨s.allocated, impl, [], []⟩)
    (hne : ∀ row col, (q.row.toNat ≠ row ∨ q.col.toNat ≠ col) → t.slot row col = s.slot row col) :
    GraphInv t := by
  have key : ∀ p c, t.deref p = some c →
      (p.serial = s.allocated ∧ c = ⟨s.allocated, impl, [], []⟩) ∨ s.deref p = some c := by
    intro p c hc
    have hc' := (deref_eq_some t p c).1 hc
    by_cases hpos : q.row.toNat ≠ p.pos.row.toNat ∨ q.col.toNat ≠ p.pos.col.toNat
    · right
      rw [deref_eq_some]
      refine ⟨hc'.1, ?_, hc'.2.2⟩
      rw [cellAt, ← hne _ _ hpos]
      exact hc'.2.1
    · left
      have e1 : q.row.toNat = p.pos.row.toNat := by
        by_contra hx
        exact hpos (Or.inl hx)
      have e2 : q.col.toNat = p.pos.col.toNat := by
        by_contra hx
        exact hpos (Or.inr hx)
      have hcq : t.cellAt p.pos = t.cellAt q := by
        simp only [cellAt, e1, e2]
      rw [hcq, hq] at hc'
      have e := hc'.2.1
      cases e
      exact ⟨hc'.2.2.symm, rfl⟩
  refine ⟨?_, ?_, ?_⟩
  · intro p c hc
    rw [ha]
    rcases key p c hc with ⟨h1, _⟩ | h1
    · omega
    · have := h.cell_fresh p c h1
      omega
  · intro p c hc x hx
    rw [ha]
    rcases key p c hc with ⟨_, h1⟩ | h1
    · subst h1
      simp at hx
    · have := h.edge_fresh p c h1 x hx
      omega
  · intro a b ca cb hca hcb
    rcases key a ca hca with ⟨ha1, ha2⟩ | ha1
    · subst ha2
      simp only [List.not_mem_nil, iff_false]
      rcases key b cb hcb with ⟨_, hb2⟩ | hb1
      · subst hb2
        simp
      · intro hmem
        have := h.edge_fresh b cb hb1 a (Or.inl hmem)
        omega
    · rcases key b cb hcb with ⟨hb1, hb2⟩ | hb1
      · subst hb2
        simp only [List.not_mem_nil, false_iff]
        intro hmem
        have := h.edge_fresh a ca ha1 b (Or.inr hmem)
        omega
      · exact h.mirror a b ca cb ha1 hb1

theorem GraphInv.after_ensureCell {s : Sheet} (h : GraphInv s) (pos : Position) :
    GraphInv (s.ensureCell pos).2 := by
  cases hc : s.cellAt pos with
  | some c =>
    refine h.of_same_edges ?_ (fun p c' hc' => ?_)
    · simp only [Sheet.ensureCell]
      simp only [cellAt] at hc
      rw [slot_OptionalTableResize, hc]
      exact OptionalTableResize_allocated s pos
    · rw [deref_congr s _ (ensureCell_slot_of_present s pos c hc)] at hc'
      exact ⟨c', hc', rfl, rfl⟩
  | none =>
    have hs : (s.OptionalTableResize pos).slot pos.row.toNat pos.col.toNat = none := by
      rw [slot_OptionalTableResize]
      exact hc
    refine h.add_fresh pos none ?_ ?_ (fun row col hne => ensureCell_slot_ne s pos row col hne)
    · simp only [Sheet.ensureCell, hs, OptionalTableResize_allocated]
    · simp only [Sheet.ensureCell, hs, cellAt, OptionalTableResize_allocated]
      rw [slot_withAllocated, slot_setSlot_same _ _ _ _ (inRange_OptionalTableResize s pos)]

end Sheet

namespace Sheet

/-- The count of constructed cells after `SetCell(q, "")` on a position without a cell. -/
theorem SetCellAux_empty_absent_allocated (n : Nat) (s s' : Sheet) (q : Position)
    (hq : q.IsValid = true) (habs : s.cellAt q = none)
    (h : SetCellAux (n + 1) q "" s = .ok () s') : s'.allocated = s.allocated + 1 := by
  rcases ensureCell_deref s q hq with ⟨c, hd, _, hc⟩
  have hc' := hc habs
  subst hc'
  rcases Cell.Set_empty_of_no_edges (SetCellAux n) (s.ensureCell q).1 _ _
    hd rfl rfl with ⟨s1, hs1, ha, _, _, _⟩
  simp only [SetCellAux, hq, Bool.not_true, Bool.false_eq_true, if_false] at h
  rw [hs1] at h
  cases h
  rw [ha]
  have hs : (s.OptionalTableResize q).slot q.row.toNat q.col.toNat = none := by
    rw [slot_OptionalTableResize]
    exact habs
  simp only [Sheet.ensureCell, hs, OptionalTableResize_allocated]

end Sheet

namespace Cell

open Sheet

theorem CreateEmptyCells_graphInv (n : Nat) (refs : List Position) (s s' : Sheet)
    (hv : ∀ q ∈ refs, q.IsValid = true) (hg : GraphInv s)
    (h : CreateEmptyCells (SetCellAux (n + 1)) refs s = .ok () s') : GraphInv s' := by
  induction refs generalizing s with
  | nil =>
    simp only [CreateEmptyCells, Res.ok.injEq, true_and] at h
    subst h
    exact hg
  | cons pos rest ih =>
    have hpos : pos.IsValid = true := hv pos (List.mem_cons_self _ _)
    have hrest : ∀ q ∈ rest, q.IsValid = true := fun q hq => hv q (List.mem_cons_of_mem _ hq)
    simp only [CreateEmptyCells, GetCell_valid s pos hpos, Res.bind] at h
    cases hc : s.cellAt pos with
    | some c =>
      simp only [hc, Option.map_some'] at h
      exact ih s hrest hg h
    | none =>
      simp only [hc, Option.map_none'] at h
      obtain ⟨s1, h1, hq, hne, _⟩ := SetCellAux_empty_absent n s pos hpos hc
      rw [h1] at h
      simp only at h
      have ha := SetCellAux_empty_absent_allocated n s s1 pos hpos hc h1
      exact ih s1 hrest (hg.add_fresh pos (some .EmptyImpl) ha hq hne) h

end Cell

namespace Sheet

theorem GraphInv.clearCell {s s' : Sheet} (h : GraphInv s) (pos : Position)
    (hc : ClearCell pos s = .ok () s') : GraphInv s' := by
  simp only [ClearCell] at hc
  cases hv : pos.IsValid with
  | false =>
    rw [GetCell_invalid s pos hv] at hc
    cases hc
  | true =>
    rw [GetCell_valid s pos hv] at hc
    simp only [Res.bind] at hc
    cases hcell : s.cellAt pos with
    | none =>
      simp only [hcell, Option.map_none', Res.ok.injEq, true_and] at hc
      subst hc
      exact h
    | some c =>
      simp only [hcell, Option.map_some', Res.ok.injEq, true_and] at hc
      subst hc
      have key : ∀ p c1, (s.setSlot pos.row.toNat pos.col.toNat none).deref p = some c1 →
          s.deref p = some c1 := by
        intro p c1 h1
        rw [deref_eq_some] at h1 ⊢
        refine ⟨h1.1, ?_, h1.2.2⟩
        have := h1.2.1
        simp only [cellAt] at this ⊢
        rcases slot_setSlot_cases s pos.row.toNat pos.col.toNat p.pos.row.toNat p.pos.col.toNat
          none with h2 | h2
        · rw [h2] at this
          cases this
        · rw [h2] at this
          exact this
      refine ⟨?_, ?_, ?_⟩
      · intro p c1 h1
        rw [setSlot_allocated]
        exact h.cell_fresh p c1 (key p c1 h1)
      · intro p c1 h1 q hq
        rw [setSlot_allocated]
        exact h.edge_fresh p c1 (key p c1 h1) q hq
      · intro a b ca cb hca hcb
        exact h.mirror a b ca cb (key a ca hca) (key b cb hcb)

end Sheet

namespace Cell

open Sheet

theorem mem_setErase (p q : CellPtr) (l : List CellPtr) :
    q ∈ setErase p l ↔ q ∈ l ∧ q ≠ p := by
  simp [setErase, List.mem_filter]

theorem mem_setInsert (p q : CellPtr) (l : List CellPtr) :
    q ∈ setInsert p l ↔ q = p ∨ q ∈ l := by
  simp only [setInsert]
  split
  · rename_i h
    constructor
    · exact Or.inr
    · rintro (rfl | h1)
      · exact h
      · exact h1
  · simp only [List.mem_append, List.mem_singleton]
    tauto

/-- The loop of `RemoveInvalidLinks`, read through the pointers: the sets `referenced_cells_`
stay, the sets `dependent_cells_` lose at most `self`, and they have lost it in the cells the
loop went through. -/
theorem RemoveInvalidLinksLoop_deref (self : CellPtr) (l : List CellPtr) (t t' : Sheet)
    (h : RemoveInvalidLinksLoop self l t = .ok () t') :
    t'.allocated = t.allocated ∧
    ∀ p ct', t'.deref p = some ct' → ∃ ct, t.deref p = some ct ∧
      ct'.referenced_cells_ = ct.referenced_cells_ ∧
      (∀ q, q ∈ ct'.dependent_cells_ → q ∈ ct.dependent_cells_) ∧
      (∀ q, q ≠ self → q ∈ ct.dependent_cells_ → q ∈ ct'.dependent_cells_) ∧
      (self ∈ ct'.dependent_cells_ → p ∉ l) := by
  induction l generalizing t with
  | nil =>
    simp only [RemoveInvalidLinksLoop, Res.ok.injEq, true_and] at h
    subst h
    exact ⟨rfl, fun p ct' hp => ⟨ct', hp, rfl, fun _ hq => hq, fun _ _ hq => hq,
      fun _ => List.not_mem_nil _⟩⟩
  | cons r rest ih =>
    simp only [RemoveInvalidLinksLoop] at h
    cases hd : t.deref r with
    | none => simp [hd] at h
    | some c =>
      simp only [hd] at h
      obtain ⟨ha, hrel⟩ := ih _ h
      refine ⟨ha.trans (store_allocated _ _ _), fun p ct' hp => ?_⟩
      obtain ⟨ct1, hct1, h1, h2, h3, h4⟩ := hrel p ct' hp
      rw [deref_store t r c { c with dependent_cells_ := setErase self c.dependent_cells_ } p hd
        rfl] at hct1
      by_cases hpr : p = r
      · subst hpr
        rw [if_pos rfl] at hct1
        cases hct1
        refine ⟨c, hd, h1, ?_, ?_, ?_⟩
        · intro q hq
          exact ((mem_setErase self q _).1 (h2 q hq)).1
        · intro q hq hqc
          exact h3 q hq ((mem_setErase self q _).2 ⟨hqc, hq⟩)
        · intro hs
          exact absurd rfl ((mem_setErase self self _).1 (h2 self hs)).2
      · rw [if_neg hpr] at hct1
        refine ⟨ct1, hct1, h1, h2, h3, fun hs => ?_⟩
        intro hmem
        rcases List.mem_cons.mp hmem with h5 | h5
        · exact hpr h5
        · exact h4 hs h5

theorem RemoveInvalidLinks_graphInv (self : CellPtr) (s s' : Sheet) (hg : GraphInv s)
    (h : RemoveInvalidLinks self s = .ok () s') : GraphInv s' := by
  simp only [RemoveInvalidLinks] at h
  cases hd : s.deref self with
  | none => simp [hd] at h
  | some c =>
    simp only [hd] at h
    cases hl : RemoveInvalidLinksLoop self c.referenced_cells_ s with
    | raised e t => simp [hl, Res.bind] at h
    | undefined => simp [hl, Res.bind] at h
    | exhausted => simp [hl, Res.bind] at h
    | ok u t =>
      simp only [hl, Res.bind] at h
      obtain ⟨ha, hrel⟩ := RemoveInvalidLinksLoop_deref self _ s t hl
      cases hd1 : t.deref self with
      | none => simp [hd1] at h
      | some c1 =>
        simp only [hd1, Res.ok.injEq, true_and] at h
        subst h
        have hs' := fun p => deref_store t self c1 { c1 with referenced_cells_ := [] } p hd1 rfl
        -- every cell of the result, in terms of the cell of the given sheet
        have key : ∀ p cp', (t.store self { c1 with referenced_cells_ := [] }).deref p = some cp' →
            ∃ cp, s.deref p = some cp ∧
              (∀ q, q ∈ cp'.dependent_cells_ → q ∈ cp.dependent_cells_) ∧
              (∀ q, q ≠ self → q ∈ cp.dependent_cells_ → q ∈ cp'.dependent_cells_) ∧
              (self ∈ cp'.dependent_cells_ → p ∉ c.referenced_cells_) ∧
              cp'.referenced_cells_ = if p = self then [] else cp.referenced_cells_ := by
          intro p cp' hp
          rw [hs' p] at hp
          by_cases hps : p = self
          · subst hps
            rw [if_pos rfl] at hp
            cases hp
            obtain ⟨ct, hct, _, h2, h3, h4⟩ := hrel p c1 hd1
            exact ⟨ct, hct, h2, h3, h4, by simp⟩
          · rw [if_neg hps] at hp
            obtain ⟨ct, hct, h1, h2, h3, h4⟩ := hrel p cp' hp
            exact ⟨ct, hct, h2, h3, h4, by rw [if_neg hps]; exact h1⟩
        refine ⟨?_, ?_, ?_⟩
        · intro p cp' hp
          obtain ⟨cp, hcp, _⟩ := key p cp' hp
          rw [store_allocated, ha]
          exact hg.cell_fresh p cp hcp
        · intro p cp' hp q hq
          obtain ⟨cp, hcp, h2, _, _, h5⟩ := key p cp' hp
          rw [store_allocated, ha]
          rcases hq with hq | hq
          · exact hg.edge_fresh p cp hcp q (Or.inl (h2 q hq))
          · rw [h5] at hq
            split at hq
            · cases hq
            · exact hg.edge_fresh p cp hcp q (Or.inr hq)
        · intro a b ca' cb' hca hcb
          obtain ⟨ca, hca0, _, _, _, ha5⟩ := key a ca' hca
          obtain ⟨cb, hcb0, hb2, hb3, hb4, _⟩ := key b cb' hcb
          rw [ha5]
          by_cases has : a = self
          · subst has
            rw [if_pos rfl]
            simp only [List.not_mem_nil, iff_false]
            intro hmem
            have h1 := hb4 hmem
            have h2 := (hg.mirror a b ca cb hca0 hcb0).1 (hb2 a hmem)
            rw [hd] at hca0
            cases hca0
            exact h1 h2
          · rw [if_neg has]
            rw [← hg.mirror a b ca cb hca0 hcb0]
            exact ⟨hb2 a, hb3 a has⟩

/-- One round of the loop of `AddNewLinks`, read through the pointers. -/
theorem AddNewLinks_round_deref (self ptr : CellPtr) (t : Sheet) (me c0 c : Cell)
    (hme : t.deref self = some me) (hptr : t.deref ptr = some c0)
    (hc : (t.store self { me with dependent_cells_ := setInsert ptr me.dependent_cells_ }).deref ptr
      = some c)
    (p : CellPtr) (cp2 : Cell)
    (hp : ((t.store self { me with dependent_cells_ := setInsert ptr me.dependent_cells_ }).store
      ptr { c with referenced_cells_ := setInsert self c.referenced_cells_ }).deref p = some cp2) :
    ∃ cp, t.deref p = some cp ∧
      (∀ q, q ∈ cp2.dependent_cells_ ↔ q ∈ cp.dependent_cells_ ∨ (p = self ∧ q = ptr)) ∧
      (∀ q, q ∈ cp2.referenced_cells_ ↔ q ∈ cp.referenced_cells_ ∨ (p = ptr ∧ q = self)) := by
  have h1 := fun x => deref_store t self me
    { me with dependent_cells_ := setInsert ptr me.dependent_cells_ } x hme rfl
  rw [deref_store _ ptr c { c with referenced_cells_ := setInsert self c.referenced_cells_ } p hc
    rfl] at hp
  rw [h1 ptr] at hc
  by_cases hpp : p = ptr
  · subst hpp
    rw [if_pos rfl] at hp
    cases hp
    by_cases hps : p = self
    · subst hps
      rw [if_pos rfl] at hc
      cases hc
      refine ⟨me, hme, fun q => ?_, fun q => ?_⟩
      · simp only [mem_setInsert]
        tauto
      · simp only [mem_setInsert]
        tauto
    · rw [if_neg hps] at hc
      rw [hptr] at hc
      cases hc
      refine ⟨c0, hptr, fun q => ?_, fun q => ?_⟩
      · simp only [hps, false_and, or_false]
      · simp only [mem_setInsert]
        tauto
  · rw [if_neg hpp, h1 p] at hp
    by_cases hps : p = self
    · subst hps
      rw [if_pos rfl] at hp
      cases hp
      refine ⟨me, hme, fun q => ?_, fun q => ?_⟩
      · simp only [mem_setInsert]
        tauto
      · simp only [hpp, false_and, or_false]
    · rw [if_neg hps] at hp
      refine ⟨cp2, hp, fun q => ?_, fun q => ?_⟩
      · simp only [hps, false_and, or_false]
      · simp only [hpp, false_and, or_false]

theorem AddNewLinksLoop_graphInv (self : CellPtr) (l : List Position) (t : Sheet)
    (hg : GraphInv t) : Res.Leaves GraphInv (AddNewLinksLoop self l t) := by
  induction l generalizing t with
  | nil => exact hg
  | cons pos rest ih =>
    simp only [AddNewLinksLoop]
    cases hv : pos.IsValid with
    | false =>
      rw [GetCell_invalid t pos hv]
      exact hg
    | true =>
      rw [GetCell_valid t pos hv]
      simp only [Res.bind]
      cases hc0 : t.cellAt pos with
      | none => trivial
      | some c0 =>
        simp only [Option.map_some']
        have hptr := deref_ptr_of_cellAt t pos c0 hv hc0
        obtain ⟨ptr, hpd⟩ : ∃ ptr : CellPtr, ptr = ⟨pos, c0.serial⟩ := ⟨_, rfl⟩
        rw [← hpd] at hptr ⊢
        cases hme : t.deref self with
        | none => trivial
        | some me =>
          simp only
          cases hc : (t.store self
              { me with dependent_cells_ := setInsert ptr me.dependent_cells_ }).deref ptr with
          | none => trivial
          | some c =>
            simp only
            apply ih
            have key := AddNewLinks_round_deref self ptr t me c0 c hme hptr hc
            have hal : ((t.store self
                { me with dependent_cells_ := setInsert ptr me.dependent_cells_ }).store ptr
                { c with referenced_cells_ := setInsert self c.referenced_cells_ }).allocated
                = t.allocated := by
              rw [store_allocated, store_allocated]
            refine ⟨?_, ?_, ?_⟩
            · intro p cp2 hp
              obtain ⟨cp, hcp, _⟩ := key p cp2 hp
              rw [hal]
              exact hg.cell_fresh p cp hcp
            · intro p cp2 hp q hq
              obtain ⟨cp, hcp, h1, h2⟩ := key p cp2 hp
              rw [hal]
              rcases hq with hq | hq
              · rcases (h1 q).1 hq with h3 | ⟨_, h3⟩
                · exact hg.edge_fresh p cp hcp q (Or.inl h3)
                · subst h3
                  exact hg.cell_fresh _ c0 hptr
              · rcases (h2 q).1 hq with h3 | ⟨_, h3⟩
                · exact hg.edge_fresh p cp hcp q (Or.inr h3)
                · subst h3
                  exact hg.cell_fresh _ me hme
            · intro a b ca2 cb2 hca hcb
              obtain ⟨ca, hca0, _, ha2⟩ := key a ca2 hca
              obtain ⟨cb, hcb0, hb1, _⟩ := key b cb2 hcb
              rw [hb1 a, ha2 b, hg.mirror a b ca cb hca0 hcb0]
              tauto

theorem AddNewLinks_graphInv (self : CellPtr) (s : Sheet) (hg : GraphInv s) :
    Res.Leaves GraphInv (AddNewLinks self s) := by
  simp only [AddNewLinks, GetReferencedCells]
  cases hd : s.deref self with
  | none => trivial
  | some c =>
    simp only
    cases hi : c.impl_ with
    | none => trivial
    | some impl => exact AddNewLinksLoop_graphInv self _ s hg

theorem RemoveInvalidLinks_leaves_graphInv (self : CellPtr) (s : Sheet) (hg : GraphInv s) :
    Res.Leaves GraphInv (RemoveInvalidLinks self s) := by
  have h1 := RemoveInvalidLinks_graphInv self s
  have h2 := RemoveInvalidLinks_not_raised self s
  revert h1 h2
  cases RemoveInvalidLinks self s with
  | ok u t => intro h1 _; exact h1 t hg rfl
  | raised e t => intro _ h2; exact absurd rfl (h2 e t)
  | undefined => intro _ _; trivial
  | exhausted => intro _ _; trivial

end Cell

namespace Sheet

theorem GraphInv.store_same_edges {t : Sheet} (h : GraphInv t) (p : CellPtr) (c c' : Cell)
    (hd : t.deref p = some c) (hs : c'.serial = c.serial)
    (h1 : c'.dependent_cells_ = c.dependent_cells_)
    (h2 : c'.referenced_cells_ = c.referenced_cells_) : GraphInv (t.store p c') := by
  refine h.of_same_edges (store_allocated t p c') (fun q cq hq => ?_)
  rw [deref_store t p c c' q hd hs] at hq
  by_cases hqp : q = p
  · subst hqp
    rw [if_pos rfl] at hq
    cases hq
    exact ⟨c, hd, h1, h2⟩
  · rw [if_neg hqp] at hq
    exact ⟨cq, hq, rfl, rfl⟩

theorem GraphInv.store_impl {t : Sheet} (h : GraphInv t) (p : CellPtr) (c : Cell) (impl : Impl)
    (hd : t.deref p = some c) :
    GraphInv (t.store p { c with impl_ := some impl }) :=
  h.store_same_edges p c _ hd rfl rfl rfl

end Sheet

namespace Cell

open Sheet

theorem Set_graphInv (text : String) (n : Nat) (self : CellPtr) (s : Sheet) (h : GraphInv s) :
    Res.Leaves GraphInv (Cell.Set (SetCellAux (n + 1)) self text s) := by
  simp only [Cell.Set]
  cases hm : makeImpl text with
  | none => exact h
  | some temp =>
    simp only
    have hvalid := fun q hq => makeImpl_refs_valid text temp hm q hq
    rcases CreateEmptyCells_spec n temp.GetReferencedCells s hvalid with ⟨s1, h1, _, _, _⟩
    have hs1 : GraphInv s1 := CreateEmptyCells_graphInv n _ s s1 hvalid h h1
    rw [h1]
    simp only [Res.bind]
    rcases IsCircularDependent_res (s1.slotCount + 2) s1 self (some temp) []
      with ⟨b, hb⟩ | hb | hb | hb
    · rw [hb]
      simp only
      cases b with
      | true => exact hs1
      | false =>
        simp only [Bool.false_eq_true, if_false]
        cases hd : s1.deref self with
        | none => trivial
        | some c =>
          simp only
          refine Res.Leaves.seq (RemoveInvalidLinks_leaves_graphInv self _
            (hs1.store_impl self c temp hd)) (fun _ s2 hs2 => ?_)
          refine Res.Leaves.seq (AddNewLinks_graphInv self s2 hs2) (fun _ s3 hs3 => ?_)
          simp only [IsCacheValid]
          cases hd3 : s3.deref self with
          | none => trivial
          | some c3 =>
            simp only
            cases hi3 : c3.impl_ with
            | none => trivial
            | some impl3 =>
              simp only [Res.bind]
              split
              · refine (InvalidateCache_keeps (fun t p c impl ht hd _ =>
                  ht.store_impl p c _ hd) self s3 hs3).seq (fun _ s5 hs5 => ?_)
                exact InvalidateDependentCache_keeps (fun t p c impl ht hd _ =>
                  ht.store_impl p c _ hd) self s5 hs5
              · exact hs3
    · rw [hb]
      exact hs1
    · rw [hb]
      trivial
    · rw [hb]
      trivial

end Cell

namespace Sheet

theorem SetCell_graphInv (pos : Position) (text : String) (s : Sheet) (h : GraphInv s) :
    Res.Leaves GraphInv (SetCell pos text s) := by
  cases hv : pos.IsValid with
  | false =>
    rw [SetCell_invalid pos text s hv]
    exact h
  | true =>
    rw [SetCell_valid pos text s hv]
    exact Cell.Set_graphInv text 0 _ _ (h.after_ensureCell pos)

theorem GetValue_graphInv (fuel : Nat) (ptr : CellPtr) (s : Sheet) (h : GraphInv s) :
    Res.Leaves GraphInv (Cell.GetValue fuel ptr s) :=
  Cell.GetValue_keeps (fun _ p c f _ x ht hd _ => ht.store_impl p c (.FormulaImpl f (some x)) hd)
    fuel ptr s h

/-- The stored edge sets mirror each other in every sheet the operations produce. -/
theorem Reachable.graphInv {s : Sheet} (h : Reachable s) : GraphInv s := by
  induction h with
  | create =>
    have hnone : ∀ p, CreateSheet.deref p = none := by
      intro p
      simp [CreateSheet, deref, slot]
    refine ⟨?_, ?_, ?_⟩
    · intro p c hc
      rw [hnone p] at hc
      cases hc
    · intro p c hc
      rw [hnone p] at hc
      cases hc
    · intro a b ca cb hca
      rw [hnone a] at hca
      cases hca
  | setCell s s' pos text _ hs ih =>
    have := SetCell_graphInv pos text s ih
    rw [hs] at this
    exact this
  | setCellRaised s s' pos text e _ hs ih =>
    have := SetCell_graphInv pos text s ih
    rw [hs] at this
    exact this
  | clearCell s s' pos _ hs ih => exact ih.clearCell pos hs
  | getValue s s' fuel pos v _ hs ih =>
    simp only [Sheet.GetValue] at hs
    cases hv : pos.IsValid with
    | false =>
      rw [GetCell_invalid s pos hv] at hs
      cases hs
    | true =>
      rw [GetCell_valid s pos hv] at hs
      simp only [Res.bind] at hs
      cases hc : s.cellAt pos with
      | none => simp [hc] at hs
      | some c =>
        simp only [hc, Option.map_some'] at hs
        have := GetValue_graphInv fuel ⟨pos, c.serial⟩ s ih
        rw [hs] at this
        exact this
  | getValueRaised s s' fuel pos e _ hs ih =>
    simp only [Sheet.GetValue] at hs
    cases hv : pos.IsValid with
    | false =>
      rw [GetCell_invalid s pos hv] at hs
      simp only [Res.bind, Res.raised.injEq] at hs
      rw [← hs.2]
      exact ih
    | true =>
      rw [GetCell_valid s pos hv] at hs
      simp only [Res.bind] at hs
      cases hc : s.cellAt pos with
      | none => simp [hc] at hs
      | some c =>
        simp only [hc, Option.map_some'] at hs
        have := GetValue_graphInv fuel ⟨pos, c.serial⟩ s ih
        rw [hs] at this
        exact this
  | printValues s s' fuel out _ hs ih =>
    have : Res.Leaves GraphInv (PrintValues fuel s) := by
      simp only [PrintValues, PrintTable]
      refine printRows_leaves _ (fun ptr t ht => ?_) _ _ _ s ih
      exact (GetValue_graphInv fuel ptr t ht).seq (fun v s2 hs2 => hs2)
    rw [hs] at this
    exact this
  | printValuesRaised s s' fuel e _ hs ih =>
    have : Res.Leaves GraphInv (PrintValues fuel s) := by
      simp only [PrintValues, PrintTable]
      refine printRows_leaves _ (fun ptr t ht => ?_) _ _ _ s ih
      exact (GetValue_graphInv fuel ptr t ht).seq (fun v s2 hs2 => hs2)
    rw [hs] at this
    exact this

/-- In every sheet reached by calls of `SetCell` (returning or raising), `ClearCell`,
`GetValue` and `PrintValues`, the stored sets mirror each other as sets of pointers to cell
objects: for any two pointers `a` and `b` to cell objects of the sheet, `a` is in the set
`dependent_cells_` of the cell of `b` exactly if `b` is in the set `referenced_cells_` of the
cell of `a`, and the same with the two sets exchanged. A pointer is a slot together with the
serial number of the construction: the pointer to a cell that `ClearCell` destroyed refers
to no cell object and differs from the pointer to a cell constructed later in that slot, so
this says nothing about the stale entries such a cell leaves in the sets of others. -/
theorem stored_edge_sets_mirror (s : Sheet) (hs : Sheet.Reachable s) (a b : CellPtr)
    (ca cb : Cell) (ha : s.deref a = some ca) (hb : s.deref b = some cb) :
    (a ∈ cb.dependent_cells_ ↔ b ∈ ca.referenced_cells_) ∧
    (a ∈ cb.referenced_cells_ ↔ b ∈ ca.dependent_cells_) :=
  ⟨hs.graphInv.mirror a b ca cb ha hb, (hs.graphInv.mirror b a cb ca hb ha).symm⟩

end Sheet
/-! ## Reading a formula against the sheet as it stands -/

namespace Sheet

theorem staticLeaf_done (m : Nat) (s : Sheet) (pos : Position) (x : ℚ)
    (hv : pos.IsValid = true) (h : s.staticLeaf pos = .done x) :
    Formula.cell_value (Cell.GetValue m) pos s = .ok x s := by
  simp only [staticLeaf] at h
  cases hc : s.cellAt pos with
  | none =>
    simp only [hc, StaticResult.done.injEq] at h
    subst h
    simp only [Formula.cell_value, GetCell_valid s pos hv, hc, Option.map_none', Res.bind]
  | some c =>
    simp only [hc] at h
    have hd := deref_ptr_of_cellAt s pos c hv hc
    rw [Formula.cell_value_of_cell m pos s c hv hc]
    cases hi : c.impl_ with
    | none => simp [hi] at h
    | some impl =>
      cases impl with
      | EmptyImpl =>
        simp only [hi, StaticResult.done.injEq] at h
        subst h
        rw [Cell.GetValue_Empty m _ s c hd hi]
        rfl
      | TextImpl t =>
        simp only [hi] at h
        have hg : Cell.GetValue m ⟨pos, c.serial⟩ s = .ok (.text (Impl.textValue t)) s := by
          cases m <;> simp [Cell.GetValue, hd, hi]
        rw [hg]
        simp only [Res.bind]
        cases hh : CellValueHandler (.text (Impl.textValue t)) with
        | ok y =>
          simp only [hh, StaticResult.done.injEq] at h
          subst h
          rfl
        | error fe => simp [hh] at h
      | FormulaImpl f cache =>
        cases cache with
        | none => simp [hi] at h
        | some y =>
          simp only [hi, StaticResult.done.injEq] at h
          subst h
          have hg : Cell.GetValue m ⟨pos, c.serial⟩ s = .ok (.number y) s := by
            cases m <;> simp [Cell.GetValue, hd, hi]
          rw [hg]
          rfl

theorem staticLeaf_failed (m : Nat) (s : Sheet) (pos : Position) (fe : Exception)
    (hv : pos.IsValid = true) (h : s.staticLeaf pos = .failed fe) :
    Formula.cell_value (Cell.GetValue m) pos s = .raised fe s := by
  simp only [staticLeaf] at h
  cases hc : s.cellAt pos with
  | none => simp [hc] at h
  | some c =>
    simp only [hc] at h
    have hd := deref_ptr_of_cellAt s pos c hv hc
    rw [Formula.cell_value_of_cell m pos s c hv hc]
    cases hi : c.impl_ with
    | none => simp [hi] at h
    | some impl =>
      cases impl with
      | EmptyImpl => simp [hi] at h
      | TextImpl t =>
        simp only [hi] at h
        have hg : Cell.GetValue m ⟨pos, c.serial⟩ s = .ok (.text (Impl.textValue t)) s := by
          cases m <;> simp [Cell.GetValue, hd, hi]
        rw [hg]
        simp only [Res.bind]
        cases hh : CellValueHandler (.text (Impl.textValue t)) with
        | ok y => simp [hh] at h
        | error fe1 =>
          simp only [hh, StaticResult.failed.injEq] at h
          subst h
          rfl
      | FormulaImpl f cache =>
        cases cache with
        | none => simp [hi] at h
        | some y => simp [hi] at h

theorem staticLeaf_needs (s : Sheet) (pos : Position) (p : CellPtr)
    (hv : pos.IsValid = true) (h : s.staticLeaf pos = .needs p) :
    ∃ c f, s.cellAt pos = some c ∧ p = ⟨pos, c.serial⟩ ∧ s.deref p = some c ∧
      c.impl_ = some (.FormulaImpl f none) := by
  simp only [staticLeaf] at h
  cases hc : s.cellAt pos with
  | none => simp [hc] at h
  | some c =>
    simp only [hc] at h
    have hd := deref_ptr_of_cellAt s pos c hv hc
    cases hi : c.impl_ with
    | none => simp [hi] at h
    | some impl =>
      cases impl with
      | EmptyImpl => simp [hi] at h
      | TextImpl t =>
        simp only [hi] at h
        cases hh : CellValueHandler (.text (Impl.textValue t)) <;> simp [hh] at h
      | FormulaImpl f cache =>
        cases cache with
        | some y => simp [hi] at h
        | none =>
          simp only [hi, StaticResult.needs.injEq] at h
          subst h
          exact ⟨c, f, rfl, rfl, hd, hi⟩

theorem staticExec_done (m : Nat) (s : Sheet) (e : FormulaAST) (x : ℚ)
    (h : s.staticExec e = .done x) :
    e.Execute (Formula.cell_value (Cell.GetValue m)) s = .ok x s := by
  induction e generalizing x with
  | number y =>
    simp only [staticExec, StaticResult.done.injEq] at h
    subst h
    rfl
  | cell p =>
    simp only [staticExec] at h
    simp only [FormulaAST.Execute]
    cases hv : p.IsValid with
    | false => simp [hv] at h
    | true =>
      simp only [hv, if_true] at h ⊢
      exact staticLeaf_done m s p x hv h
  | unary op e ih =>
    simp only [staticExec] at h
    simp only [FormulaAST.Execute]
    cases he : s.staticExec e with
    | done v =>
      rw [ih v he]
      simp only [he] at h
      cases op <;> simp only [StaticResult.done.injEq] at h <;> subst h <;> rfl
    | failed fe => simp [he] at h
    | needs q => simp [he] at h
    | stuck => simp [he] at h
  | binary op l r ihl ihr =>
    simp only [staticExec] at h
    simp only [FormulaAST.Execute]
    cases hl : s.staticExec l with
    | done a =>
      simp only [hl] at h
      cases hr : s.staticExec r with
      | done b =>
        simp only [hr] at h
        rw [ihl a hl]
        simp only [Res.bind]
        rw [ihr b hr]
        simp only
        cases op with
        | add => simp only [StaticResult.done.injEq] at h; subst h; rfl
        | sub => simp only [StaticResult.done.injEq] at h; subst h; rfl
        | mul => simp only [StaticResult.done.injEq] at h; subst h; rfl
        | div =>
          simp only at h ⊢
          by_cases hb : b = 0
          · simp [hb] at h
          · simp only [hb, if_false, StaticResult.done.injEq] at h ⊢
            subst h
            rfl
      | failed fe => simp [hr] at h
      | needs q => simp [hr] at h
      | stuck => simp [hr] at h
    | failed fe => simp [hl] at h
    | needs q => simp [hl] at h
    | stuck => simp [hl] at h

end Sheet

theorem CellValueHandler_error (v : Value) (e : Exception) (h : CellValueHandler v = .error e) :
    e = .OutOfRange ∨ ∃ fe, e = .FormulaError fe := by
  cases v with
  | text t =>
    simp only [CellValueHandler] at h
    split at h
    · split at h
      · cases h
      · simp only [Except.error.injEq] at h
        exact Or.inl h.symm
    · simp only [Except.error.injEq] at h
      exact Or.inr ⟨_, h.symm⟩
  | number x => simp [CellValueHandler] at h
  | error fe =>
    simp only [CellValueHandler, Except.error.injEq] at h
    exact Or.inr ⟨_, h.symm⟩

theorem FormulaAST.Execute_raised (cv : Position → Sheet → Res ℚ)
    (hcv : ∀ p t ex t', p.IsValid = true → cv p t = .raised ex t' →
      ex = .OutOfRange ∨ ∃ fe, ex = .FormulaError fe)
    (e : FormulaAST) (s : Sheet) (ex : Exception) (t : Sheet)
    (h : e.Execute cv s = .raised ex t) : ex = .OutOfRange ∨ ∃ fe, ex = .FormulaError fe := by
  induction e generalizing s ex t with
  | number x => simp [FormulaAST.Execute] at h
  | cell p =>
    simp only [FormulaAST.Execute] at h
    cases hv : p.IsValid with
    | true =>
      simp only [hv, if_true] at h
      exact hcv p s ex t hv h
    | false =>
      simp only [hv, Bool.false_eq_true, if_false, Res.raised.injEq] at h
      exact Or.inr ⟨_, h.1.symm⟩
  | unary op e ih =>
    simp only [FormulaAST.Execute] at h
    cases he : e.Execute cv s with
    | ok v s1 =>
      rw [he] at h
      cases op <;> simp [Res.bind] at h
    | raised ex1 t1 =>
      rw [he] at h
      simp only [Res.bind, Res.raised.injEq] at h
      exact h.1 ▸ ih s ex1 t1 he
    | undefined => rw [he] at h; simp [Res.bind] at h
    | exhausted => rw [he] at h; simp [Res.bind] at h
  | binary op l r ihl ihr =>
    simp only [FormulaAST.Execute] at h
    cases hl : l.Execute cv s with
    | ok a s1 =>
      rw [hl] at h
      simp only [Res.bind] at h
      cases hr : r.Execute cv s1 with
      | ok b s2 =>
        rw [hr] at h
        simp only at h
        cases op with
        | add => simp at h
        | sub => simp at h
        | mul => simp at h
        | div =>
          simp only at h
          split at h
          · simp only [Res.raised.injEq] at h
            exact Or.inr ⟨_, h.1.symm⟩
          · simp at h
      | raised ex1 t1 =>
        rw [hr] at h
        simp only [Res.raised.injEq] at h
        exact h.1 ▸ ihr s1 ex1 t1 hr
      | undefined => rw [hr] at h; simp at h
      | exhausted => rw [hr] at h; simp at h
    | raised ex1 t1 =>
      rw [hl] at h
      simp only [Res.bind, Res.raised.injEq] at h
      exact h.1 ▸ ihl s ex1 t1 hl
    | undefined => rw [hl] at h; simp [Res.bind] at h
    | exhausted => rw [hl] at h; simp [Res.bind] at h

theorem Formula.cell_value_raised (g : CellPtr → Sheet → Res Value)
    (hg : ∀ p t ex t', g p t = .raised ex t' → ex = .OutOfRange) (pos : Position) (s : Sheet)
    (ex : Exception) (t : Sheet) (hv : pos.IsValid = true)
    (h : Formula.cell_value g pos s = .raised ex t) :
    ex = .OutOfRange ∨ ∃ fe, ex = .FormulaError fe := by
  simp only [Formula.cell_value, Sheet.GetCell_valid s pos hv, Res.bind] at h
  cases hc : s.cellAt pos with
  | none => simp [hc] at h
  | some c =>
    simp only [hc, Option.map_some'] at h
    cases hgv : g ⟨pos, c.serial⟩ s with
    | ok v s1 =>
      rw [hgv] at h
      simp only at h
      cases hh : CellValueHandler v with
      | ok y => simp [hh] at h
      | error e =>
        simp only [hh, Res.raised.injEq] at h
        exact h.1 ▸ CellValueHandler_error v e hh
    | raised ex1 t1 =>
      rw [hgv] at h
      simp only [Res.raised.injEq] at h
      exact Or.inl (h.1 ▸ hg _ _ _ _ hgv)
    | undefined => rw [hgv] at h; simp at h
    | exhausted => rw [hgv] at h; simp at h

/-- The only exception that leaves `Formula::Evaluate` is the `std::out_of_range` of
`std::stod`. -/
theorem Formula.Evaluate_raised (g : CellPtr → Sheet → Res Value)
    (hg : ∀ p t ex t', g p t = .raised ex t' → ex = .OutOfRange) (f : Formula) (s : Sheet)
    (ex : Exception) (t : Sheet) (h : f.Evaluate g s = .raised ex t) : ex = .OutOfRange := by
  simp only [Formula.Evaluate] at h
  cases he : f.ast_.Execute (Formula.cell_value g) s with
  | ok v s1 => rw [he] at h; simp at h
  | raised ex1 t1 =>
    rcases FormulaAST.Execute_raised (Formula.cell_value g)
      (fun p t0 ex0 t0' hv h0 => Formula.cell_value_raised g hg p t0 ex0 t0' hv h0)
      f.ast_ s ex1 t1 he with hex | ⟨fe, hfe⟩
    · subst hex
      rw [he] at h
      simp only [Res.raised.injEq] at h
      exact h.1.symm
    · subst hfe
      rw [he] at h
      simp at h
  | undefined => rw [he] at h; simp at h
  | exhausted => rw [he] at h; simp at h

/-- The only exception that leaves `Cell::GetValue` is the `std::out_of_range` of
`std::stod`. -/
theorem Cell.GetValue_raised (n : Nat) (p : CellPtr) (s : Sheet) (ex : Exception)
    (t : Sheet) (h : Cell.GetValue n p s = .raised ex t) : ex = .OutOfRange := by
  induction n generalizing p s ex t with
  | zero =>
    simp only [Cell.GetValue] at h
    cases hd : s.deref p with
    | none => simp [hd] at h
    | some c =>
      simp only [hd] at h
      cases hi : c.impl_ with
      | none => simp [hi] at h
      | some impl =>
        cases impl with
        | EmptyImpl => simp [hi] at h
        | TextImpl _ => simp [hi] at h
        | FormulaImpl f cache => cases cache <;> simp [hi] at h
  | succ n ih =>
    simp only [Cell.GetValue] at h
    cases hd : s.deref p with
    | none => simp [hd] at h
    | some c =>
      simp only [hd] at h
      cases hi : c.impl_ with
      | none => simp [hi] at h
      | some impl =>
        cases impl with
        | EmptyImpl => simp [hi] at h
        | TextImpl _ => simp [hi] at h
        | FormulaImpl f cache =>
          cases cache with
          | some x => simp [hi] at h
          | none =>
            simp only [hi] at h
            cases hev : f.Evaluate (Cell.GetValue n) s with
            | ok v s1 =>
              rw [hev] at h
              simp only [Res.bind] at h
              cases v <;> simp at h
            | raised ex1 t1 =>
              rw [hev] at h
              simp only [Res.bind, Res.raised.injEq] at h
              exact h.1 ▸ Formula.Evaluate_raised (Cell.GetValue n)
                (fun p t ex t' hh => ih p t ex t' hh) f s ex1 t1 hev
            | undefined => rw [hev] at h; simp [Res.bind] at h
            | exhausted => rw [hev] at h; simp [Res.bind] at h

namespace Sheet

theorem staticExec_needs (m : Nat) (s : Sheet) (e : FormulaAST) (p : CellPtr)
    (h : s.staticExec e = .needs p) :
    s.Uncached p ∧
    ((∃ v s1, Cell.GetValue m p s = .ok v s1) ∨
      (∃ ex s1, Cell.GetValue m p s = .raised ex s1) ∨
      e.Execute (Formula.cell_value (Cell.GetValue m)) s = .undefined ∨
      e.Execute (Formula.cell_value (Cell.GetValue m)) s = .exhausted) := by
  induction e with
  | number y => simp [staticExec] at h
  | cell q =>
    simp only [staticExec] at h
    simp only [FormulaAST.Execute]
    cases hv : q.IsValid with
    | false => simp [hv] at h
    | true =>
      simp only [hv, if_true] at h ⊢
      obtain ⟨c, f, hc, hp, hd, hi⟩ := staticLeaf_needs s q p hv h
      refine ⟨⟨c, f, hd, hi⟩, ?_⟩
      rw [Formula.cell_value_of_cell m q s c hv hc, ← hp]
      cases hg : Cell.GetValue m p s with
      | ok v s1 => exact Or.inl ⟨v, s1, rfl⟩
      | raised ex t => exact Or.inr (Or.inl ⟨ex, t, rfl⟩)
      | undefined => exact Or.inr (Or.inr (Or.inl rfl))
      | exhausted => exact Or.inr (Or.inr (Or.inr rfl))
  | unary op e ih =>
    simp only [staticExec] at h
    simp only [FormulaAST.Execute]
    cases he : s.staticExec e with
    | done v =>
      simp only [he] at h
      cases op <;> simp at h
    | failed fe => simp [he] at h
    | stuck => simp [he] at h
    | needs q =>
      simp only [he, StaticResult.needs.injEq] at h
      subst h
      obtain ⟨hu, h1 | h1 | h1 | h1⟩ := ih he
      · exact ⟨hu, Or.inl h1⟩
      · exact ⟨hu, Or.inr (Or.inl h1)⟩
      · exact ⟨hu, Or.inr (Or.inr (Or.inl (by rw [h1]; rfl)))⟩
      · exact ⟨hu, Or.inr (Or.inr (Or.inr (by rw [h1]; rfl)))⟩
  | binary op l r ihl ihr =>
    simp only [staticExec] at h
    simp only [FormulaAST.Execute]
    cases hl : s.staticExec l with
    | done a =>
      simp only [hl] at h
      rw [staticExec_done m s l a hl]
      simp only [Res.bind]
      cases hr : s.staticExec r with
      | done b =>
        simp only [hr] at h
        cases op with
        | add => simp at h
        | sub => simp at h
        | mul => simp at h
        | div =>
          simp only at h
          split at h <;> simp at h
      | failed fe => simp [hr] at h
      | stuck => simp [hr] at h
      | needs q =>
        simp only [hr, StaticResult.needs.injEq] at h
        subst h
        obtain ⟨hu, h1 | h1 | h1 | h1⟩ := ihr hr
        · exact ⟨hu, Or.inl h1⟩
        · exact ⟨hu, Or.inr (Or.inl h1)⟩
        · exact ⟨hu, Or.inr (Or.inr (Or.inl (by rw [h1])))⟩
        · exact ⟨hu, Or.inr (Or.inr (Or.inr (by rw [h1])))⟩
    | failed fe => simp [hl] at h
    | stuck => simp [hl] at h
    | needs q =>
      simp only [hl, StaticResult.needs.injEq] at h
      subst h
      obtain ⟨hu, h1 | h1 | h1 | h1⟩ := ihl hl
      · exact ⟨hu, Or.inl h1⟩
      · exact ⟨hu, Or.inr (Or.inl h1)⟩
      · exact ⟨hu, Or.inr (Or.inr (Or.inl (by rw [h1]; rfl)))⟩
      · exact ⟨hu, Or.inr (Or.inr (Or.inr (by rw [h1]; rfl)))⟩

/-- Formula cells with empty caches that need each other neither return a value nor throw:
a call on one of them runs into undefined behaviour or out of budget. -/
theorem GetValue_stuck_cases (s : Sheet) (C : CellPtr → Prop)
    (hC : ∀ x, C x → ∃ c f, s.deref x = some c ∧ c.impl_ = some (.FormulaImpl f none) ∧
      ∃ q, C q ∧ s.staticExec f.ast_ = .needs q)
    (m : Nat) (x : CellPtr) (hx : C x) :
    Cell.GetValue m x s = .undefined ∨ Cell.GetValue m x s = .exhausted := by
  induction m generalizing x with
  | zero =>
    obtain ⟨c, f, hd, hi, _⟩ := hC x hx
    simp [Cell.GetValue, hd, hi]
  | succ m ih =>
    obtain ⟨c, f, hd, hi, q, hq, hn⟩ := hC x hx
    simp only [Cell.GetValue, hd, hi, Formula.Evaluate]
    obtain ⟨_, h1 | h1 | h1 | h1⟩ := staticExec_needs m s f.ast_ q hn
    · obtain ⟨v1, s2, h2⟩ := h1
      rcases ih q hq with h3 | h3 <;> rw [h3] at h2 <;> cases h2
    · obtain ⟨ex, s2, h2⟩ := h1
      rcases ih q hq with h3 | h3 <;> rw [h3] at h2 <;> cases h2
    · rw [h1]
      simp [Res.bind]
    · rw [h1]
      simp [Res.bind]

/-- Formula cells with empty caches that need each other never return a value. -/
theorem GetValue_stuck (s : Sheet) (C : CellPtr → Prop)
    (hC : ∀ x, C x → ∃ c f, s.deref x = some c ∧ c.impl_ = some (.FormulaImpl f none) ∧
      ∃ q, C q ∧ s.staticExec f.ast_ = .needs q)
    (m : Nat) (x : CellPtr) (hx : C x) (v : Value) (s1 : Sheet) :
    Cell.GetValue m x s ≠ .ok v s1 := by
  intro h
  rcases GetValue_stuck_cases s C hC m x hx with h3 | h3 <;> rw [h3] at h <;> cases h

end Sheet

/-! ## Caches only fill during a call of GetValue -/

namespace Cell

theorem CacheGrows.same_state (c : Cell) : CacheGrows c c := ⟨rfl, rfl, Or.inl rfl⟩

theorem CacheGrows.step_state (a b c : Cell) (h1 : CacheGrows a b) (h2 : CacheGrows b c) :
    CacheGrows a c := by
  refine ⟨h2.1.trans h1.1, h2.2.1.trans h1.2.1, ?_⟩
  rcases h1.2.2 with e1 | ⟨f, x, e1, e2⟩
  · rcases h2.2.2 with e3 | ⟨g, y, e3, e4⟩
    · exact Or.inl (e3.trans e1)
    · exact Or.inr ⟨g, y, e1 ▸ e3, e4⟩
  · rcases h2.2.2 with e3 | ⟨g, y, e3, e4⟩
    · exact Or.inr ⟨f, x, e1, e3.trans e2⟩
    · rw [e2] at e3
      cases e3

end Cell

namespace Sheet

/-- Replacing the state of a live object by a state related to its state in `s`. -/
theorem Evolves.store_over {ρ : Cell → Cell → Prop} {s t : Sheet} (h : Evolves ρ s t)
    (p : CellPtr) (c0 c1 c' : Cell) (hs : s.deref p = some c0) (ht : t.deref p = some c1)
    (hser : c'.serial = c1.serial) (hρ : ρ c0 c') : Evolves ρ s (t.store p c') := by
  have hs' := (deref_eq_some s p c0).1 hs
  have ht' := (deref_eq_some t p c1).1 ht
  refine ⟨(store_allocated t p c').trans h.1, fun row col => ?_⟩
  by_cases hne : p.pos.row.toNat ≠ row ∨ p.pos.col.toNat ≠ col
  · rw [slot_store_ne t p c' row col hne]
    exact h.2 row col
  · have h1 : p.pos.row.toNat = row := by
      by_contra hx
      exact hne (Or.inl hx)
    have h2 : p.pos.col.toNat = col := by
      by_contra hx
      exact hne (Or.inr hx)
    subst h1
    subst h2
    have hslot : s.slot p.pos.row.toNat p.pos.col.toNat = some c0 := hs'.2.1
    have hslot1 : t.slot p.pos.row.toNat p.pos.col.toNat = some c1 := ht'.2.1
    rw [slot_store_same t p c' (inRange_of_slot_eq_some t _ _ c1 hslot1), hslot]
    refine ⟨fun c hc => ?_, fun hn => by cases hn⟩
    cases hc
    exact ⟨c', rfl, hser.trans (ht'.2.2.trans hs'.2.2.symm), hρ⟩

end Sheet

namespace Cell

open Sheet

/-- A call of `GetValue` fills empty caches and changes nothing else. -/
theorem GetValue_cacheGrows (fuel : Nat) (ptr : CellPtr) (s : Sheet) :
    Res.Leaves (Evolves CacheGrows s) (Cell.GetValue fuel ptr s) := by
  have hrefl := Evolves.of_refl CacheGrows.same_state
  induction fuel generalizing ptr s with
  | zero =>
    simp only [Cell.GetValue]
    cases s.deref ptr with
    | none => trivial
    | some c =>
      simp only
      cases c.impl_ with
      | none => trivial
      | some impl =>
        cases impl with
        | EmptyImpl => exact hrefl s
        | TextImpl t => exact hrefl s
        | FormulaImpl f cache =>
          cases cache with
          | some x => exact hrefl s
          | none => trivial
  | succ n ih =>
    simp only [Cell.GetValue]
    cases hd : s.deref ptr with
    | none => trivial
    | some c =>
      simp only
      cases hi : c.impl_ with
      | none => trivial
      | some impl =>
        cases impl with
        | EmptyImpl => exact hrefl s
        | TextImpl t => exact hrefl s
        | FormulaImpl f cache =>
          cases cache with
          | some x => exact hrefl s
          | none =>
            simp only
            refine (Formula.Evaluate_leaves (P := Evolves CacheGrows s) (Cell.GetValue n)
              (fun p t ht => (ih p t).imp
                (fun u hu => Evolves.of_trans CacheGrows.step_state ht hu)) f s
              (hrefl s)).seq (fun a t ht => ?_)
            cases a with
            | error fe => exact ht
            | number x =>
              simp only [Res.Leaves, Sheet.setCache]
              obtain ⟨c1, hd1, hg1⟩ := ht.deref_live ptr c hd
              rw [hd1]
              simp only
              rcases hg1.2.2 with e1 | ⟨g, y, e1, e2⟩
              · rw [e1, hi]
                simp only
                exact ht.store_over ptr c c1 _ hd hd1 rfl
                  ⟨hg1.1, hg1.2.1, Or.inr ⟨f, x, hi, rfl⟩⟩
              · rw [e2]
                simp only
                rw [hi] at e1
                cases e1
                exact ht.store_over ptr c c1 _ hd hd1 rfl
                  ⟨hg1.1, hg1.2.1, Or.inr ⟨f, x, hi, rfl⟩⟩

end Cell

theorem FormulaAST.Execute_cacheGrows (m : Nat) (e : FormulaAST) (s : Sheet) :
    Res.Leaves (Sheet.Evolves Cell.CacheGrows s)
      (e.Execute (Formula.cell_value (Cell.GetValue m)) s) :=
  FormulaAST.Execute_leaves (P := Sheet.Evolves Cell.CacheGrows s) _
    (fun p t ht => Formula.cell_value_leaves _
      (fun ptr u hu => (Cell.GetValue_cacheGrows m ptr u).imp
        (fun _ hw => Sheet.Evolves.of_trans Cell.CacheGrows.step_state hu hw)) p t ht)
    e s (Sheet.Evolves.of_refl Cell.CacheGrows.same_state s)

namespace Sheet

/-- A leaf read against a sheet with more caches filled: the same, unless the cell it needed
has its cache filled now. -/
theorem staticLeaf_grows {s t : Sheet} (h : Evolves Cell.CacheGrows s t) (pos : Position) :
    t.staticLeaf pos = s.staticLeaf pos ∨
      ∃ p, s.staticLeaf pos = .needs p ∧ ¬ t.Uncached p := by
  cases hc : s.cellAt pos with
  | none =>
    left
    simp only [staticLeaf, hc, h.cellAt_none pos hc]
  | some c =>
    obtain ⟨c', hc', hser, hg⟩ := h.cellAt_some pos c hc
    rcases hg.2.2 with e1 | ⟨f, x, e1, e2⟩
    · left
      simp only [staticLeaf, hc, hc', e1, hser]
    · right
      refine ⟨⟨pos, c.serial⟩, ?_, ?_⟩
      · simp only [staticLeaf, hc, e1]
      · rintro ⟨c2, f2, hd2, hi2⟩
        have := (deref_eq_some t _ c2).1 hd2
        simp only at this
        rw [hc'] at this
        have e := this.2.1
        cases e
        rw [e2] at hi2
        cases hi2

theorem staticExec_grows {s t : Sheet} (h : Evolves Cell.CacheGrows s t) (e : FormulaAST) :
    (∀ x, s.staticExec e = .done x → t.staticExec e = .done x) ∧
    (∀ fe, s.staticExec e = .failed fe → t.staticExec e = .failed fe) ∧
    (∀ p, s.staticExec e = .needs p → t.Uncached p → t.staticExec e = .needs p) := by
  induction e with
  | number y =>
    refine ⟨fun x hx => hx, fun fe hfe => hfe, fun p hp _ => hp⟩
  | cell q =>
    simp only [staticExec]
    cases hv : q.IsValid with
    | false => simp
    | true =>
      simp only [if_true]
      rcases staticLeaf_grows h q with e1 | ⟨p, e1, e2⟩
      · rw [e1]
        exact ⟨fun _ hx => hx, fun _ hfe => hfe, fun _ hp _ => hp⟩
      · rw [e1]
        refine ⟨fun _ hx => (by cases hx), fun _ hfe => (by cases hfe), fun p1 hp hu => ?_⟩
        cases hp
        exact absurd hu e2
  | unary op e ih =>
    obtain ⟨i1, i2, i3⟩ := ih
    simp only [staticExec]
    cases he : s.staticExec e with
    | done v =>
      rw [i1 v he]
      exact ⟨fun _ hx => hx, fun _ hfe => hfe, fun _ hp _ => hp⟩
    | failed fe =>
      rw [i2 fe he]
      exact ⟨fun _ hx => hx, fun _ hfe => hfe, fun _ hp _ => hp⟩
    | stuck =>
      exact ⟨fun _ hx => (by cases hx), fun _ hfe => (by cases hfe), fun _ hp => (by cases hp)⟩
    | needs q =>
      refine ⟨fun _ hx => (by cases hx), fun _ hfe => (by cases hfe), fun p hp hu => ?_⟩
      cases hp
      rw [i3 q he hu]
  | binary op l r ihl ihr =>
    obtain ⟨l1, l2, l3⟩ := ihl
    obtain ⟨r1, r2, r3⟩ := ihr
    simp only [staticExec]
    cases hl : s.staticExec l with
    | done a =>
      rw [l1 a hl]
      simp only
      cases hr : s.staticExec r with
      | done b =>
        rw [r1 b hr]
        exact ⟨fun _ hx => hx, fun _ hfe => hfe, fun _ hp _ => hp⟩
      | failed fe =>
        rw [r2 fe hr]
        exact ⟨fun _ hx => hx, fun _ hfe => hfe, fun _ hp _ => hp⟩
      | stuck =>
        exact ⟨fun _ hx => (by cases hx), fun _ hfe => (by cases hfe), fun _ hp => (by cases hp)⟩
      | needs q =>
        refine ⟨fun _ hx => (by cases hx), fun _ hfe => (by cases hfe), fun p hp hu => ?_⟩
        cases hp
        rw [r3 q hr hu]
    | failed fe =>
      rw [l2 fe hl]
      exact ⟨fun _ hx => hx, fun _ hfe => hfe, fun _ hp _ => hp⟩
    | stuck =>
      exact ⟨fun _ hx => (by cases hx), fun _ hfe => (by cases hfe), fun _ hp => (by cases hp)⟩
    | needs q =>
      refine ⟨fun _ hx => (by cases hx), fun _ hfe => (by cases hfe), fun p hp hu => ?_⟩
      cases hp
      rw [l3 q hl hu]

/-- After `cell_value` has returned a number for a position, the number can be read there
without evaluating. -/
theorem staticLeaf_after (m : Nat) (s s' : Sheet) (pos : Position) (x : ℚ)
    (hv : pos.IsValid = true)
    (h : Formula.cell_value (Cell.GetValue m) pos s = .ok x s') :
    s'.staticLeaf pos = .done x := by
  cases hc : s.cellAt pos with
  | none =>
    simp only [Formula.cell_value, GetCell_valid s pos hv, hc, Option.map_none', Res.bind,
      Res.ok.injEq] at h
    obtain ⟨rfl, rfl⟩ := h
    simp only [staticLeaf, hc]
  | some c =>
    rw [Formula.cell_value_of_cell m pos s c hv hc] at h
    have hd := deref_ptr_of_cellAt s pos c hv hc
    have hgrow := Cell.GetValue_cacheGrows m ⟨pos, c.serial⟩ s
    cases hg : Cell.GetValue m ⟨pos, c.serial⟩ s with
    | raised ex t => rw [hg] at h; simp [Res.bind] at h
    | undefined => rw [hg] at h; simp [Res.bind] at h
    | exhausted => rw [hg] at h; simp [Res.bind] at h
    | ok v s1 =>
      rw [hg] at h hgrow
      simp only [Res.bind] at h
      have hs1 : s1 = s' ∧ CellValueHandler v = .ok x := by
        cases hh : CellValueHandler v with
        | ok y =>
          simp only [hh, Res.ok.injEq] at h
          exact ⟨h.2, by rw [h.1]⟩
        | error fe => simp [hh] at h
      obtain ⟨rfl, hcv⟩ := hs1
      obtain ⟨c1, hc1, hser, hcg⟩ := Evolves.cellAt_some hgrow pos c hc
      -- the cell after the call, by the kind of the cell before
      cases hi : c.impl_ with
      | none => cases m <;> simp [Cell.GetValue, hd, hi] at hg
      | some impl =>
        cases impl with
        | EmptyImpl =>
          rw [Cell.GetValue_Empty m _ s c hd hi] at hg
          simp only [Res.ok.injEq] at hg
          obtain ⟨rfl, rfl⟩ := hg
          simp only [CellValueHandler, Except.ok.injEq] at hcv
          subst hcv
          simp only [staticLeaf, hc, hi]
        | TextImpl t =>
          have hg2 : Cell.GetValue m ⟨pos, c.serial⟩ s = .ok (.text (Impl.textValue t)) s := by
            cases m <;> simp [Cell.GetValue, hd, hi]
          rw [hg2] at hg
          simp only [Res.ok.injEq] at hg
          obtain ⟨rfl, rfl⟩ := hg
          simp only [staticLeaf, hc, hi, hcv]
        | FormulaImpl f cache =>
          cases cache with
          | some y =>
            have hg2 : Cell.GetValue m ⟨pos, c.serial⟩ s = .ok (.number y) s := by
              cases m <;> simp [Cell.GetValue, hd, hi]
            rw [hg2] at hg
            simp only [Res.ok.injEq] at hg
            obtain ⟨rfl, rfl⟩ := hg
            simp only [CellValueHandler, Except.ok.injEq] at hcv
            subst hcv
            simp only [staticLeaf, hc, hi]
          | none =>
            cases m with
            | zero => simp [Cell.GetValue, hd, hi] at hg
            | succ k =>
              simp only [Cell.GetValue, hd, hi] at hg
              cases hev : f.Evaluate (Cell.GetValue k) s with
              | raised ex t => rw [hev] at hg; simp [Res.bind] at hg
              | undefined => rw [hev] at hg; simp [Res.bind] at hg
              | exhausted => rw [hev] at hg; simp [Res.bind] at hg
              | ok ev t1 =>
                rw [hev] at hg
                simp only [Res.bind] at hg
                cases ev with
                | error fe =>
                  simp only [Res.ok.injEq] at hg
                  obtain ⟨rfl, rfl⟩ := hg
                  simp [CellValueHandler] at hcv
                | number y =>
                  simp only [Res.ok.injEq] at hg
                  obtain ⟨rfl, hst⟩ := hg
                  simp only [CellValueHandler, Except.ok.injEq] at hcv
                  subst hcv
                  -- the cache of the cell after `cache_ = value`
                  have hev2 : Evolves Cell.CacheGrows s t1 := by
                    have := Formula.Evaluate_leaves (P := Evolves Cell.CacheGrows s)
                      (Cell.GetValue k)
                      (fun p t ht => (Cell.GetValue_cacheGrows k p t).imp
                        (fun _ hu => Evolves.of_trans Cell.CacheGrows.step_state ht hu)) f s
                      (Evolves.of_refl Cell.CacheGrows.same_state s)
                    rw [hev] at this
                    exact this
                  obtain ⟨c2, hd2, hg2⟩ := hev2.deref_live _ c hd
                  have hf2 : ∃ cache2, c2.impl_ = some (.FormulaImpl f cache2) := by
                    rcases hg2.2.2 with e1 | ⟨g, z, e1, e2⟩
                    · exact ⟨none, e1.trans hi⟩
                    · rw [hi] at e1
                      cases e1
                      exact ⟨some z, e2⟩
                  obtain ⟨cache2, hi2⟩ := hf2
                  have hst2 : s1 = t1.store ⟨pos, c.serial⟩
                      { c2 with impl_ := some (.FormulaImpl f (some y)) } := by
                    rw [← hst]
                    simp only [Sheet.setCache, hd2, hi2]
                  have hd3 : s1.deref ⟨pos, c.serial⟩
                      = some { c2 with impl_ := some (.FormulaImpl f (some y)) } := by
                    rw [hst2, deref_store t1 _ c2
                      { c2 with impl_ := some (.FormulaImpl f (some y)) } _ hd2 rfl, if_pos rfl]
                  have hc3 := ((deref_eq_some s1 _ _).1 hd3).2.1
                  simp only at hc3
                  simp only [staticLeaf, hc3]

/-- A tree that has been executed to a value can be read to that value without evaluating,
against the sheet the execution left. -/
theorem staticExec_after (m : Nat) (e : FormulaAST) (s s' : Sheet) (x : ℚ)
    (h : e.Execute (Formula.cell_value (Cell.GetValue m)) s = .ok x s') :
    s'.staticExec e = .done x := by
  induction e generalizing s s' x with
  | number y =>
    simp only [FormulaAST.Execute, Res.ok.injEq] at h
    obtain ⟨rfl, rfl⟩ := h
    rfl
  | cell q =>
    simp only [FormulaAST.Execute] at h
    cases hv : q.IsValid with
    | false => simp [hv] at h
    | true =>
      simp only [hv, if_true] at h
      simp only [staticExec, hv, if_true]
      exact staticLeaf_after m s s' q x hv h
  | unary op e ih =>
    simp only [FormulaAST.Execute] at h
    cases he : e.Execute (Formula.cell_value (Cell.GetValue m)) s with
    | raised ex t => rw [he] at h; simp [Res.bind] at h
    | undefined => rw [he] at h; simp [Res.bind] at h
    | exhausted => rw [he] at h; simp [Res.bind] at h
    | ok v s1 =>
      rw [he] at h
      simp only [Res.bind] at h
      cases op with
      | plus =>
        simp only [Res.ok.injEq] at h
        obtain ⟨rfl, rfl⟩ := h
        simp only [staticExec, ih s s1 v he]
      | minus =>
        simp only [Res.ok.injEq] at h
        obtain ⟨rfl, rfl⟩ := h
        simp only [staticExec, ih s s1 v he]
  | binary op l r ihl ihr =>
    simp only [FormulaAST.Execute] at h
    cases hl : l.Execute (Formula.cell_value (Cell.GetValue m)) s with
    | raised ex t => rw [hl] at h; simp [Res.bind] at h
    | undefined => rw [hl] at h; simp [Res.bind] at h
    | exhausted => rw [hl] at h; simp [Res.bind] at h
    | ok a s1 =>
      rw [hl] at h
      simp only [Res.bind] at h
      cases hr : r.Execute (Formula.cell_value (Cell.GetValue m)) s1 with
      | raised ex t => rw [hr] at h; simp at h
      | undefined => rw [hr] at h; simp at h
      | exhausted => rw [hr] at h; simp at h
      | ok b s2 =>
        rw [hr] at h
        simp only at h
        have hgrow := FormulaAST.Execute_cacheGrows m r s1
        rw [hr] at hgrow
        have hl2 : s2.staticExec l = .done a :=
          (staticExec_grows hgrow l).1 a (ihl s s1 a hl)
        have hr2 : s2.staticExec r = .done b := ihr s1 s2 b hr
        cases op with
        | add =>
          simp only [Res.ok.injEq] at h
          obtain ⟨rfl, rfl⟩ := h
          simp only [staticExec, hl2, hr2]
        | sub =>
          simp only [Res.ok.injEq] at h
          obtain ⟨rfl, rfl⟩ := h
          simp only [staticExec, hl2, hr2]
        | mul =>
          simp only [Res.ok.injEq] at h
          obtain ⟨rfl, rfl⟩ := h
          simp only [staticExec, hl2, hr2]
        | div =>
          simp only at h
          by_cases hb : b = 0
          · simp [hb] at h
          · simp only [hb, if_false, Res.ok.injEq] at h
            obtain ⟨rfl, rfl⟩ := h
            simp only [staticExec, hl2, hr2, hb, if_false]

end Sheet

/-! ## A call of GetValue that returns does not call itself -/

namespace Sheet

theorem staticLeaf_stuck (m : Nat) (s : Sheet) (pos : Position)
    (hv : pos.IsValid = true) (h : s.staticLeaf pos = .stuck) :
    Formula.cell_value (Cell.GetValue m) pos s = .undefined := by
  simp only [staticLeaf] at h
  cases hc : s.cellAt pos with
  | none => simp [hc] at h
  | some c =>
    simp only [hc] at h
    have hd := deref_ptr_of_cellAt s pos c hv hc
    rw [Formula.cell_value_of_cell m pos s c hv hc]
    cases hi : c.impl_ with
    | none =>
      have : Cell.GetValue m ⟨pos, c.serial⟩ s = .undefined := by
        cases m <;> simp [Cell.GetValue, hd, hi]
      rw [this]
      rfl
    | some impl =>
      cases impl with
      | EmptyImpl => simp [hi] at h
      | TextImpl t =>
        simp only [hi] at h
        cases hh : CellValueHandler (.text (Impl.textValue t)) <;> simp [hh] at h
      | FormulaImpl f cache => cases cache <;> simp [hi] at h

/-- An empty cache that is still empty after caches were filled belongs to the same
formula. -/
theorem Uncached.formula_of_grows {s t : Sheet} (h : Evolves Cell.CacheGrows s t) (p : CellPtr)
    (c : Cell) (f : Formula) (hd : s.deref p = some c) (hi : c.impl_ = some (.FormulaImpl f none))
    (hu : t.Uncached p) :
    ∃ c', t.deref p = some c' ∧ c'.impl_ = some (.FormulaImpl f none) := by
  obtain ⟨c1, hd1, hg⟩ := h.deref_live p c hd
  obtain ⟨c2, f2, hd2, hi2⟩ := hu
  rw [hd1] at hd2
  cases hd2
  rcases hg.2.2 with e1 | ⟨g, x, _, e2⟩
  · exact ⟨c1, hd1, e1.trans hi⟩
  · rw [e2] at hi2
    cases hi2

theorem Pending.uncached {t : Sheet} {X : List CellPtr} {p : CellPtr} (h : Pending t X p) :
    ∀ x ∈ X, t.Uncached x := by
  induction X generalizing p with
  | nil => intro x hx; cases hx
  | cons y rest ih =>
    intro x hx
    obtain ⟨⟨c, f, hd, hi, _⟩, hrest⟩ := h
    rcases List.mem_cons.mp hx with rfl | hx
    · exact ⟨c, f, hd, hi⟩
    · exact ih hrest x hx

theorem Pending.needs_mem {t : Sheet} {X : List CellPtr} {p : CellPtr} (h : Pending t X p) :
    ∀ x ∈ X, ∃ c f, t.deref x = some c ∧ c.impl_ = some (.FormulaImpl f none) ∧
      ∃ q, (q = p ∨ q ∈ X) ∧ t.staticExec f.ast_ = .needs q := by
  induction X generalizing p with
  | nil => intro x hx; cases hx
  | cons y rest ih =>
    intro x hx
    obtain ⟨⟨c, f, hd, hi, hn⟩, hrest⟩ := h
    rcases List.mem_cons.mp hx with rfl | hx
    · exact ⟨c, f, hd, hi, p, Or.inl rfl, hn⟩
    · obtain ⟨c1, f1, hd1, hi1, q, hq, hn1⟩ := ih hrest x hx
      refine ⟨c1, f1, hd1, hi1, q, Or.inr ?_, hn1⟩
      rcases hq with rfl | hq
      · exact List.mem_cons_self _ _
      · exact List.mem_cons_of_mem _ hq

/-- A call on a cell whose own call is in progress neither returns nor throws. -/
theorem Pending.stuck_cases {t : Sheet} {X : List CellPtr} {p : CellPtr} (h : Pending t X p)
    (hp : p ∈ X) (m : Nat) :
    Cell.GetValue m p t = .undefined ∨ Cell.GetValue m p t = .exhausted := by
  apply GetValue_stuck_cases t (fun x => x ∈ X) _ m p hp
  intro x hx
  obtain ⟨c, f, hd, hi, q, hq, hn⟩ := h.needs_mem x hx
  refine ⟨c, f, hd, hi, q, ?_, hn⟩
  rcases hq with rfl | hq
  · exact hp
  · exact hq

/-- A call on a cell whose own call is in progress does not return. -/
theorem Pending.stuck {t : Sheet} {X : List CellPtr} {p : CellPtr} (h : Pending t X p)
    (hp : p ∈ X) (m : Nat) (v : Value) (s1 : Sheet) : Cell.GetValue m p t ≠ .ok v s1 := by
  intro hr
  rcases h.stuck_cases hp m with h3 | h3 <;> rw [h3] at hr <;> cases hr

theorem Pending.grows {t t' : Sheet} {X : List CellPtr} {p : CellPtr} (h : Pending t X p)
    (hg : Evolves Cell.CacheGrows t t') (hX : ∀ x ∈ X, t'.Uncached x)
    (hp : X ≠ [] → t'.Uncached p) : Pending t' X p := by
  induction X generalizing p with
  | nil => trivial
  | cons y rest ih =>
    obtain ⟨⟨c, f, hd, hi, hn⟩, hrest⟩ := h
    have hy := hX y (List.mem_cons_self _ _)
    obtain ⟨c', hd', hi'⟩ := Uncached.formula_of_grows hg y c f hd hi hy
    refine ⟨⟨c', f, hd', hi', ?_⟩, ?_⟩
    · exact (staticExec_grows hg f.ast_).2.2 p hn (hp (List.cons_ne_nil _ _))
    · exact ih hrest (fun x hx => hX x (List.mem_cons_of_mem _ hx)) (fun _ => hy)

end Sheet

namespace Cell

open Sheet

/-- The execution of a part of the tree of a call in progress leaves the caches of the calls
in progress empty, if the calls it makes do. -/
theorem Execute_pending (n : Nat)
    (hG : ∀ p t X, Pending t X p →
      Res.Leaves (fun t' => ∀ x ∈ X, t'.Uncached x) (Cell.GetValue n p t))
    (p : CellPtr) (t : Sheet) (c : Cell) (F : Formula) (X : List CellPtr)
    (hd : t.deref p = some c) (hi : c.impl_ = some (.FormulaImpl F none))
    (hchain : Pending t X p) (e : FormulaAST) (ta : Sheet)
    (hgrow : Evolves CacheGrows t ta) (hunc : ∀ x ∈ p :: X, ta.Uncached x)
    (hpre : ∀ tc, Evolves CacheGrows ta tc → ∀ q, tc.staticExec e = .needs q →
      tc.staticExec F.ast_ = .needs q) :
    Res.Leaves (fun tb => ∀ x ∈ p :: X, tb.Uncached x)
      (e.Execute (Formula.cell_value (Cell.GetValue n)) ta) := by
  induction e generalizing ta with
  | number y => exact hunc
  | cell q =>
    simp only [FormulaAST.Execute]
    cases hv : q.IsValid with
    | false => exact hunc
    | true =>
      simp only [if_true]
      cases hs : ta.staticLeaf q with
      | done x =>
        rw [staticLeaf_done n ta q x hv hs]
        exact hunc
      | failed fe =>
        rw [staticLeaf_failed n ta q fe hv hs]
        exact hunc
      | stuck =>
        rw [staticLeaf_stuck n ta q hv hs]
        trivial
      | needs ptr =>
        obtain ⟨c0, f0, hc0, hptr, hd0, hi0⟩ := staticLeaf_needs ta q ptr hv hs
        have hneeds : ta.staticExec F.ast_ = .needs ptr := by
          apply hpre ta (Evolves.of_refl CacheGrows.same_state ta)
          simp only [staticExec, hv, if_true, hs]
        have hp' := hunc p (List.mem_cons_self _ _)
        obtain ⟨ca, hda, hia⟩ := Uncached.formula_of_grows hgrow p c F hd hi hp'
        have hpend : Pending ta (p :: X) ptr :=
          ⟨⟨ca, F, hda, hia, hneeds⟩,
            hchain.grows hgrow (fun x hx => hunc x (List.mem_cons_of_mem _ hx)) (fun _ => hp')⟩
        rw [Formula.cell_value_of_cell n q ta c0 hv hc0, ← hptr]
        have hleaves := hG ptr ta (p :: X) hpend
        revert hleaves
        cases Cell.GetValue n ptr ta with
        | ok v s1 =>
          intro hleaves
          simp only [Res.bind]
          split <;> exact hleaves
        | raised ex t1 => intro hleaves; exact hleaves
        | undefined => intro _; trivial
        | exhausted => intro _; trivial
  | unary op e ih =>
    simp only [FormulaAST.Execute]
    have h1 := ih ta hgrow hunc (fun tc htc q hq => hpre tc htc q (by
      simp only [staticExec, hq]))
    revert h1
    cases e.Execute (Formula.cell_value (Cell.GetValue n)) ta with
    | ok v s1 =>
      intro h1
      simp only [Res.bind]
      cases op <;> exact h1
    | raised ex t1 => intro h1; exact h1
    | undefined => intro _; trivial
    | exhausted => intro _; trivial
  | binary op l r ihl ihr =>
    simp only [FormulaAST.Execute]
    have h1 := ihl ta hgrow hunc (fun tc htc q hq => hpre tc htc q (by
      simp only [staticExec, hq]))
    have hg1 := FormulaAST.Execute_cacheGrows n l ta
    cases hl : l.Execute (Formula.cell_value (Cell.GetValue n)) ta with
    | raised ex t1 =>
      rw [hl] at h1
      exact h1
    | undefined => trivial
    | exhausted => trivial
    | ok a s1 =>
      rw [hl] at h1 hg1
      simp only [Res.bind]
      have hla := staticExec_after n l ta s1 a hl
      have h2 := ihr s1 (Evolves.of_trans CacheGrows.step_state hgrow hg1) h1
        (fun tc htc q hq => hpre tc (Evolves.of_trans CacheGrows.step_state hg1 htc) q (by
          simp only [staticExec, (staticExec_grows htc l).1 a hla, hq]))
      revert h2
      cases r.Execute (Formula.cell_value (Cell.GetValue n)) s1 with
      | ok b s2 =>
        intro h2
        simp only
        cases op
        · exact h2
        · exact h2
        · exact h2
        · simp only
          split <;> exact h2
      | raised ex t1 => intro h2; exact h2
      | undefined => intro _; trivial
      | exhausted => intro _; trivial

/-- The evaluation of the formula of a call in progress leaves the caches of the calls in
progress empty, the cache of the evaluated cell included, also when it throws. -/
theorem Evaluate_pending_step (n : Nat)
    (hG : ∀ p t X, Pending t X p →
      Res.Leaves (fun t' => ∀ x ∈ X, t'.Uncached x) (Cell.GetValue n p t))
    (p : CellPtr) (t : Sheet) (c : Cell) (F : Formula) (X : List CellPtr)
    (hd : t.deref p = some c) (hi : c.impl_ = some (.FormulaImpl F none))
    (hchain : Pending t X p) :
    Res.Leaves (fun t1 => ∀ x ∈ p :: X, t1.Uncached x) (F.Evaluate (Cell.GetValue n) t) := by
  have hunc : ∀ x ∈ p :: X, t.Uncached x := by
    intro x hx
    rcases List.mem_cons.mp hx with rfl | hx
    · exact ⟨c, F, hd, hi⟩
    · exact hchain.uncached x hx
  have h1 := Execute_pending n hG p t c F X hd hi hchain F.ast_ t
    (Evolves.of_refl CacheGrows.same_state t) hunc (fun _ _ _ hq => hq)
  simp only [Formula.Evaluate]
  revert h1
  cases F.ast_.Execute (Formula.cell_value (Cell.GetValue n)) t with
  | ok x s1 => intro h1; exact h1
  | raised ex s1 =>
    intro h1
    cases ex <;> exact h1
  | undefined => intro _; trivial
  | exhausted => intro _; trivial

/-- A call of `GetValue` leaves the caches of the calls in progress empty, whether it returns
or throws. -/
theorem GetValue_pending_leaves (n : Nat) (p : CellPtr) (t : Sheet) (X : List CellPtr)
    (hchain : Pending t X p) :
    Res.Leaves (fun t' => ∀ x ∈ X, t'.Uncached x) (Cell.GetValue n p t) := by
  induction n generalizing p t X with
  | zero =>
    simp only [Cell.GetValue]
    cases hd : t.deref p with
    | none => trivial
    | some c =>
      simp only
      cases hi : c.impl_ with
      | none => trivial
      | some impl =>
        cases impl with
        | EmptyImpl => exact hchain.uncached
        | TextImpl _ => exact hchain.uncached
        | FormulaImpl f cache =>
          cases cache with
          | some x => exact hchain.uncached
          | none => trivial
  | succ n ih =>
    by_cases hp : p ∈ X
    · rcases hchain.stuck_cases hp (n + 1) with h3 | h3 <;> rw [h3] <;> trivial
    · simp only [Cell.GetValue]
      cases hd : t.deref p with
      | none => trivial
      | some c =>
        simp only
        cases hi : c.impl_ with
        | none => trivial
        | some impl =>
          cases impl with
          | EmptyImpl => exact hchain.uncached
          | TextImpl _ => exact hchain.uncached
          | FormulaImpl F cache =>
            cases cache with
            | some x => exact hchain.uncached
            | none =>
              simp only
              have hstep := Evaluate_pending_step n (fun p t X hc => ih p t X hc)
                p t c F X hd hi hchain
              revert hstep
              cases F.Evaluate (Cell.GetValue n) t with
              | raised ex s1 =>
                intro hstep
                exact fun x hx => hstep x (List.mem_cons_of_mem _ hx)
              | undefined => intro _; trivial
              | exhausted => intro _; trivial
              | ok ev t1 =>
                intro hstep
                simp only [Res.bind]
                cases ev with
                | error fe => exact fun x hx => hstep x (List.mem_cons_of_mem _ hx)
                | number y =>
                  intro x hx
                  obtain ⟨cx, fx, hdx, hix⟩ := hstep x (List.mem_cons_of_mem _ hx)
                  obtain ⟨cp, fp, hdp, hip⟩ := hstep p (List.mem_cons_self _ _)
                  have hne : x ≠ p := fun e => hp (e ▸ hx)
                  refine ⟨cx, fx, ?_, hix⟩
                  simp only [Sheet.setCache, hdp, hip]
                  rw [deref_store t1 p cp { cp with impl_ := some (.FormulaImpl fp (some y)) } x
                    hdp rfl, if_neg hne]
                  exact hdx

/-- A call of `GetValue` that returns leaves the caches of the calls in progress empty. -/
theorem GetValue_pending (n : Nat) (p : CellPtr) (t : Sheet) (v : Value) (t' : Sheet)
    (X : List CellPtr) (h : Cell.GetValue n p t = .ok v t') (hchain : Pending t X p) :
    ∀ x ∈ X, t'.Uncached x := by
  have := GetValue_pending_leaves n p t X hchain
  rw [h] at this
  exact this

/-- The evaluation of the formula of a cell with an empty cache, when it returns, has not
filled the cache of that cell. -/
theorem Evaluate_keeps_cache_empty (n : Nat) (p : CellPtr) (t : Sheet) (c : Cell) (F : Formula)
    (hd : t.deref p = some c) (hi : c.impl_ = some (.FormulaImpl F none))
    (ev : FormulaValue) (t1 : Sheet) (h : F.Evaluate (Cell.GetValue n) t = .ok ev t1) :
    ∃ c1, t1.deref p = some c1 ∧ c1.impl_ = some (.FormulaImpl F none) ∧
      c1.dependent_cells_ = c.dependent_cells_ ∧ c1.referenced_cells_ = c.referenced_cells_ := by
  have hu : t1.Uncached p := by
    have := Evaluate_pending_step n (fun p t X hc => GetValue_pending_leaves n p t X hc)
      p t c F [] hd hi trivial
    rw [h] at this
    exact this p (List.mem_cons_self _ _)
  have hgrow : Evolves CacheGrows t t1 := by
    have := Formula.Evaluate_leaves (P := Evolves CacheGrows t) (Cell.GetValue n)
      (fun q u hu => (Cell.GetValue_cacheGrows n q u).imp
        (fun _ hw => Evolves.of_trans CacheGrows.step_state hu hw)) F t
      (Evolves.of_refl CacheGrows.same_state t)
    rw [h] at this
    exact this
  obtain ⟨c1, hd1, hg1⟩ := hgrow.deref_live p c hd
  obtain ⟨c2, hd2, hi2⟩ := Uncached.formula_of_grows hgrow p c F hd hi hu
  rw [hd1] at hd2
  cases hd2
  exact ⟨c1, hd1, hi2, hg1.1, hg1.2.1⟩

end Cell

/-! ## Materialisation of the referenced cells -/

namespace Sheet

/-- After a `SetCell` that returned normally, every referenced position other than the
assigned one holds a cell: an Empty cell if there was none before the call, and otherwise
the cell that was there, with the same content. -/
theorem SetCell_materialises_other_references (pos : Position) (text : String) (s s' : Sheet)
    (temp : Impl) (h : SetCell pos text s = .ok () s') (hm : Cell.makeImpl text = some temp)
    (q : Position) (hq : q ∈ temp.GetReferencedCells) (hne : q ≠ pos) :
    ∃ c, s'.cellAt q = some c ∧
      (s.cellAt q = none → c.impl_ = some .EmptyImpl) ∧
      (∀ c0, s.cellAt q = some c0 → c.serial = c0.serial ∧ Cell.SameContent c0 c) := by
  have hqv : q.IsValid = true := Cell.makeImpl_refs_valid text temp hm q hq
  cases hv : pos.IsValid with
  | false =>
    rw [SetCell_invalid pos text s hv] at h
    cases h
  | true =>
    rw [SetCell_valid pos text s hv] at h
    obtain ⟨c0, hd0, _, _⟩ := ensureCell_deref s pos hv
    obtain ⟨temp1, s1, hm1, hext, hpres, hd1, hev⟩ := Cell.Set_ok_content 0 _ text _ s' c0 hd0 h
    rw [hm] at hm1
    cases hm1
    have hidx := idx_ne_of_valid pos q hv hqv hne
    have hs0 : (s.ensureCell pos).2.cellAt q = s.cellAt q :=
      ensureCell_slot_ne s pos _ _ hidx
    have hstore : (s1.store (s.ensureCell pos).1 { c0 with impl_ := some temp }).cellAt q
        = s1.cellAt q := by
      simp only [cellAt]
      apply slot_store_ne
      rw [ensureCell_pos]
      exact hidx
    cases hc1 : s1.cellAt q with
    | none => exact absurd hc1 (hpres q hq)
    | some c1 =>
      rw [hc1] at hstore
      obtain ⟨c, hc, hser, hsc⟩ := hev.cellAt_some q c1 hstore
      refine ⟨c, hc, ?_, ?_⟩
      · intro hnone
        rw [← hs0] at hnone
        rcases (hext _ _).2 hnone with h1 | ⟨c2, h1, h2, _, _⟩
        · simp only [cellAt] at hc1
          rw [h1] at hc1
          cases hc1
        · simp only [cellAt] at hc1
          rw [h1] at hc1
          cases hc1
          rcases Cell.SameContent.impl_cases hsc with h3 | h3 | ⟨t, h3, _⟩ | ⟨f, x, y, h3, _⟩
          · rw [h2] at h3
            cases h3.1
          · exact h3.2
          · rw [h2] at h3
            cases h3
          · rw [h2] at h3
            cases h3
      · intro cq hcq
        rw [← hs0] at hcq
        have := (hext _ _).1 cq hcq
        simp only [cellAt] at hc1
        rw [this] at hc1
        cases hc1
        exact ⟨hser, hsc⟩

end Sheet


/-! ## Cells without implementation: which calls leave one -/

theorem Sheet.stable_implemented : Stable (fun c : Cell => c.impl_ ≠ none) :=
  ⟨fun _ _ h => h, fun _ _ h => h, fun _ _ _ _ => by simp, fun _ _ _ _ _ _ => by simp⟩

theorem Res.Defined.bind_of {α β : Type} {P : Sheet → Prop} {r : Res α} {f : α → Sheet → Res β}
    (h : Res.Defined P r) (hf : ∀ a t, P t → Res.Defined P (f a t)) :
    Res.Defined P (r.bind f) := by
  cases r with
  | ok a s => exact hf a s h
  | raised e s => exact h
  | undefined => exact h
  | exhausted => trivial

theorem Res.Defined.ne_undefined {α : Type} {P : Sheet → Prop} {r : Res α}
    (h : Res.Defined P r) : r ≠ .undefined := by
  intro hr
  rw [hr] at h
  exact h

theorem FormulaAST.Execute_defined {P : Sheet → Prop} (cv : Position → Sheet → Res ℚ)
    (hcv : ∀ p t, p.IsValid = true → P t → Res.Defined P (cv p t)) (e : FormulaAST) (s : Sheet)
    (h : P s) : Res.Defined P (e.Execute cv s) := by
  induction e generalizing s with
  | number x => exact h
  | cell p =>
    simp only [FormulaAST.Execute]
    split
    · rename_i hp
      exact hcv p s hp h
    · exact h
  | unary op e ih =>
    simp only [FormulaAST.Execute]
    refine (ih s h).bind_of (fun a t ht => ?_)
    cases op <;> exact ht
  | binary op l r ihl ihr =>
    simp only [FormulaAST.Execute]
    refine (ihl s h).bind_of (fun a t ht => (ihr t ht).bind_of (fun b u hu => ?_))
    cases op
    · exact hu
    · exact hu
    · exact hu
    · simp only
      split <;> exact hu

theorem Formula.cell_value_defined {P : Sheet → Prop} (g : CellPtr → Sheet → Res Value)
    (hg : ∀ ptr t, P t → t.deref ptr ≠ none → Res.Defined P (g ptr t)) (p : Position)
    (hv : p.IsValid = true) (s : Sheet) (h : P s) :
    Res.Defined P (Formula.cell_value g p s) := by
  simp only [Formula.cell_value]
  rw [Sheet.GetCell_valid s p hv]
  simp only [Res.bind]
  cases hc : s.cellAt p with
  | none => exact h
  | some c =>
    simp only [Option.map_some']
    refine (hg _ s h (by rw [Sheet.deref_ptr_of_cellAt s p c hv hc]; simp)).bind_of
      (fun v t ht => ?_)
    cases CellValueHandler v <;> exact ht

theorem Formula.Evaluate_defined {P : Sheet → Prop} (g : CellPtr → Sheet → Res Value)
    (hg : ∀ ptr t, P t → t.deref ptr ≠ none → Res.Defined P (g ptr t)) (f : Formula)
    (s : Sheet) (h : P s) : Res.Defined P (f.Evaluate g s) := by
  have := FormulaAST.Execute_defined (Formula.cell_value g)
    (fun p t hp ht => Formula.cell_value_defined g hg p hp t ht) f.ast_ s h
  simp only [Formula.Evaluate]
  revert this
  cases FormulaAST.Execute (Formula.cell_value g) f.ast_ s <;> intro hh
  · exact hh
  · rename_i e _
    cases e <;> exact hh
  · exact hh
  · trivial

/-- On a sheet whose cells all have an implementation, `Cell::GetValue` on a cell of the
sheet runs into no undefined behaviour, and every cell has an implementation afterwards. -/
theorem Cell.GetValue_defined (fuel : Nat) (ptr : CellPtr) (s : Sheet)
    (hs : Sheet.Implemented s) (hd : s.deref ptr ≠ none) :
    Res.Defined Sheet.Implemented (Cell.GetValue fuel ptr s) := by
  induction fuel generalizing ptr s with
  | zero =>
    simp only [Cell.GetValue]
    cases hc : s.deref ptr with
    | none => exact absurd hc hd
    | some c =>
      simp only
      cases hi : c.impl_ with
      | none => exact absurd hi (Sheet.CellsSatisfy.of_deref hs ptr c hc)
      | some impl =>
        cases impl with
        | EmptyImpl => exact hs
        | TextImpl t => exact hs
        | FormulaImpl f cache =>
          cases cache with
          | none => trivial
          | some x => exact hs
  | succ n ih =>
    simp only [Cell.GetValue]
    cases hc : s.deref ptr with
    | none => exact absurd hc hd
    | some c =>
      simp only
      cases hi : c.impl_ with
      | none => exact absurd hi (Sheet.CellsSatisfy.of_deref hs ptr c hc)
      | some impl =>
        cases impl with
        | EmptyImpl => exact hs
        | TextImpl t => exact hs
        | FormulaImpl f cache =>
          cases cache with
          | some x => exact hs
          | none =>
            simp only
            refine (Formula.Evaluate_defined (Cell.GetValue n)
              (fun p t ht hp => ih p t ht hp) f s hs).bind_of (fun ev t ht => ?_)
            cases ev with
            | number x => exact Sheet.CellsSatisfy.setCache_of ht Sheet.stable_implemented ptr x
            | error fe => exact ht

namespace Sheet

/-- On a sheet whose cells all have an implementation, the three reads of a cell that
`GetCell` returns are defined: `GetText` and `GetReferencedCells` return, and `GetValue`
runs into no undefined behaviour. -/
theorem Implemented.reads_defined {s : Sheet} (hs : Implemented s) (pos : Position)
    (hv : pos.IsValid = true) (c : Cell) (hc : s.cellAt pos = some c) :
    (∃ impl, c.impl_ = some impl ∧ Sheet.GetText pos s = .ok impl.GetText s ∧
      Sheet.GetReferencedCells pos s = .ok impl.GetReferencedCells s) ∧
    ∀ fuel, Sheet.GetValue fuel pos s ≠ .undefined := by
  have hde := deref_ptr_of_cellAt s pos c hv hc
  constructor
  · cases hi : c.impl_ with
    | none => exact absurd hi (hs _ _ c hc)
    | some impl =>
      refine ⟨impl, rfl, ?_, ?_⟩
      · simp only [Sheet.GetText, GetCell_valid s pos hv, hc, Option.map_some', Res.bind,
          Cell.GetText, hde, hi]
      · simp only [Sheet.GetReferencedCells, GetCell_valid s pos hv, hc, Option.map_some',
          Res.bind, Cell.GetReferencedCells, hde, hi]
  · intro fuel
    simp only [Sheet.GetValue, GetCell_valid s pos hv, hc, Option.map_some', Res.bind]
    exact (Cell.GetValue_defined fuel _ s hs (by rw [hde]; simp)).ne_undefined

theorem SameContent_impl_ne_none {c c' : Cell} (h : Cell.SameContent c c')
    (hc : c.impl_ ≠ none) : c'.impl_ ≠ none := by
  unfold Cell.SameContent at h
  intro hn
  rw [hn] at h
  cases hi : c.impl_ with
  | none => exact hc hi
  | some impl =>
    rw [hi] at h
    cases h

/-- A `SetCell` that returns normally leaves an implementation in every cell, if every cell
had one before. -/
theorem SetCell_ok_implemented (pos : Position) (text : String) (s s' : Sheet)
    (hs : Implemented s) (h : SetCell pos text s = .ok () s') : Implemented s' := by
  cases hv : pos.IsValid with
  | false =>
    rw [SetCell_invalid pos text s hv] at h
    cases h
  | true =>
    rw [SetCell_valid pos text s hv] at h
    obtain ⟨c0, hd0, _, _⟩ := ensureCell_deref s pos hv
    obtain ⟨temp, s1, hm, hext, hpres, hd1, hev⟩ := Cell.Set_ok_content 0 _ text _ s' c0 hd0 h
    intro row col c hc
    obtain ⟨cb, hcb, _, hsc⟩ := hev.slot_some_back row col c hc
    refine SameContent_impl_ne_none hsc ?_
    by_cases hne : pos.row.toNat ≠ row ∨ pos.col.toNat ≠ col
    · rw [slot_store_ne _ _ _ row col (by rw [ensureCell_pos]; exact hne)] at hcb
      have hse := ensureCell_slot_ne s pos row col hne
      cases hs0 : s.slot row col with
      | some c2 =>
        rw [hs0] at hse
        rw [(hext row col).1 c2 hse] at hcb
        cases hcb
        exact hs row col _ hs0
      | none =>
        rw [hs0] at hse
        rcases (hext row col).2 hse with h1 | ⟨c3, h1, h2, _, _⟩
        · rw [h1] at hcb
          cases hcb
        · rw [h1] at hcb
          cases hcb
          rw [h2]
          simp
    · have e1 : pos.row.toNat = row := by
        by_contra hx
        exact hne (Or.inl hx)
      have e2 : pos.col.toNat = col := by
        by_contra hx
        exact hne (Or.inr hx)
      subst e1
      subst e2
      have hin : s1.inRange (s.ensureCell pos).1.pos.row.toNat (s.ensureCell pos).1.pos.col.toNat :=
        inRange_of_slot_eq_some _ _ _ c0 ((deref_eq_some _ _ _).mp hd1).2.1
      have := slot_store_same s1 (s.ensureCell pos).1 { c0 with impl_ := some temp } hin
      rw [ensureCell_pos] at this
      rw [this] at hcb
      cases hcb
      simp

/-- A `SetCell` that raises formula-syntax or circular-dependency on a position that holds a
cell leaves an implementation in every cell, if every cell had one before. -/
theorem SetCell_raised_implemented (pos : Position) (text : String) (s s' : Sheet)
    (e : Exception) (hs : Implemented s) (h : SetCell pos text s = .raised e s')
    (he : e ≠ .InvalidPosition) (hpos : s.cellAt pos ≠ none) : Implemented s' :=
  CellsSatisfy.extends hs (SetCell_raised_extends pos text s s' e h he hpos) (fun _ => by simp)

/-- The method `ClearCell` leaves an implementation in every cell, if every cell had one before. -/
theorem ClearCell_implemented (pos : Position) (s s' : Sheet) (hs : Implemented s)
    (h : ClearCell pos s = .ok () s') : Implemented s' := by
  have := ClearCell_leaves pos s hs
  rw [h] at this
  exact this

/-- A read of a value leaves an implementation in every cell, if every cell had one before. -/
theorem GetValue_implemented (fuel : Nat) (pos : Position) (s s' : Sheet) (v : Value)
    (hs : Implemented s) (h : Sheet.GetValue fuel pos s = .ok v s') : Implemented s' := by
  have := GetValue_at_leaves stable_implemented fuel pos s hs
  rw [h] at this
  exact this

/-- A `SetCell` that raises formula-syntax or circular-dependency on a position without a
cell leaves a cell without implementation there: `GetCell` returns it, and its `GetValue`,
`GetText` and `GetReferencedCells` go through the null `impl_`. -/
theorem SetCell_raised_null_impl (pos : Position) (text : String) (s s' : Sheet)
    (e : Exception) (h : SetCell pos text s = .raised e s') (he : e ≠ .InvalidPosition)
    (hnone : s.cellAt pos = none) :
    s'.cellAt pos = some ⟨s.allocated, none, [], []⟩ ∧
    s'.GetCell pos = .ok (some ⟨pos, s.allocated⟩) s' ∧
    (∀ fuel, Sheet.GetValue fuel pos s' = .undefined) ∧
    Sheet.GetText pos s' = .undefined ∧
    Sheet.GetReferencedCells pos s' = .undefined := by
  obtain ⟨hv, hext, _⟩ := SetCell_raised_cases pos text s s' e h he
  obtain ⟨c, hd, _, hc⟩ := ensureCell_deref s pos hv
  have hc' := hc hnone
  subst hc'
  have hslot := ((deref_eq_some _ _ _).mp hd).2.1
  rw [ensureCell_pos] at hslot
  have hat : s'.cellAt pos = some ⟨s.allocated, none, [], []⟩ := (hext _ _).1 _ hslot
  have hde : s'.deref ⟨pos, s.allocated⟩ = some ⟨s.allocated, none, [], []⟩ :=
    deref_ptr_of_cellAt s' pos _ hv hat
  refine ⟨hat, ?_, ?_, ?_, ?_⟩
  · rw [GetCell_valid s' pos hv, hat]
    rfl
  · intro fuel
    simp only [Sheet.GetValue, GetCell_valid s' pos hv, hat, Option.map_some', Res.bind]
    cases fuel <;> simp only [Cell.GetValue, hde]
  · simp only [Sheet.GetText, GetCell_valid s' pos hv, hat, Option.map_some', Res.bind,
      Cell.GetText, hde]
  · simp only [Sheet.GetReferencedCells, GetCell_valid s' pos hv, hat, Option.map_some',
      Res.bind, Cell.GetReferencedCells, hde]

end Sheet

/-! ## The lookup policy of `cell_value` -/

theorem inDoubleRange_of_overflow (v : ℚ) (h : DBL_OVERFLOW ≤ v ∨ v ≤ -DBL_OVERFLOW) :
    inDoubleRange v = false := by
  cases hr : inDoubleRange v with
  | false => rfl
  | true =>
    simp only [inDoubleRange, Bool.and_eq_true, decide_eq_true_eq] at hr
    rcases h with h | h
    · exact absurd hr.1.2 (not_lt.mpr h)
    · exact absurd hr.1.1 (not_lt.mpr h)

/-- The number `cell_value` of `Formula::Evaluate` obtains for a valid position. It is 0
when the slot holds no cell and when it holds an Empty cell. For a Text cell whose display
value (the text without a leading escape sign) is a text of the grammar
`-?(0|[1-9][0-9]*)(\.[0-9]+)?` it is the decimal number that text denotes, provided the
number lies in the range of `double`; if it does not, in particular if its magnitude
converts to infinity, the `std::out_of_range` of `std::stod` leaves the lookup. For every
other text `#VALUE!` is thrown. In terms of the display value `GetValue` returns: a double
is passed on, a text is read as above, an error is thrown unchanged; the sheet is the one
`GetValue` leaves. The texts `text`, `01`, `+1`, `1e5`, ` 1` (and the empty text, `-`, `1.`,
`.5`, `1.5x`, `--1`) are not texts of the grammar. -/
theorem Formula.cell_value_policy (fuel : Nat) (pos : Position) (s : Sheet)
    (hv : pos.IsValid = true) :
    (s.cellAt pos = none → Formula.cell_value (Cell.GetValue fuel) pos s = .ok 0 s) ∧
    (∀ c, s.cellAt pos = some c → c.impl_ = some .EmptyImpl →
      Formula.cell_value (Cell.GetValue fuel) pos s = .ok 0 s) ∧
    (∀ c text_, s.cellAt pos = some c → c.impl_ = some (.TextImpl text_) →
      (∀ d : DoubleText, d.wellFormed = true → d.chars = (Impl.textValue text_).data →
        (inDoubleRange d.denotes = true →
          Formula.cell_value (Cell.GetValue fuel) pos s = .ok d.denotes s) ∧
        (inDoubleRange d.denotes = false →
          Formula.cell_value (Cell.GetValue fuel) pos s = .raised .OutOfRange s)) ∧
      ((¬ ∃ d : DoubleText, d.wellFormed = true ∧ d.chars = (Impl.textValue text_).data) →
        Formula.cell_value (Cell.GetValue fuel) pos s = .raised (.FormulaError .Value) s)) ∧
    (∀ v s1, Sheet.GetValue fuel pos s = .ok v s1 →
      match v with
      | .number x => Formula.cell_value (Cell.GetValue fuel) pos s = .ok x s1
      | .error fe => Formula.cell_value (Cell.GetValue fuel) pos s = .raised (.FormulaError fe) s1
      | .text t =>
        (∀ d : DoubleText, d.wellFormed = true → d.chars = t.data →
          (inDoubleRange d.denotes = true →
            Formula.cell_value (Cell.GetValue fuel) pos s = .ok d.denotes s1) ∧
          (inDoubleRange d.denotes = false →
            Formula.cell_value (Cell.GetValue fuel) pos s = .raised .OutOfRange s1)) ∧
        ((¬ ∃ d : DoubleText, d.wellFormed = true ∧ d.chars = t.data) →
          Formula.cell_value (Cell.GetValue fuel) pos s = .raised (.FormulaError .Value) s1)) ∧
    (∀ t ∈ ["text", "01", "+1", "1e5", " 1", "", "-", "1.", ".5", "1.5x", "--1"],
      ¬ ∃ d : DoubleText, d.wellFormed = true ∧ d.chars = t.data) := by
  refine ⟨?_, ?_, ?_, ?_, ?_⟩
  · intro hc
    simp only [Formula.cell_value, Sheet.GetCell_valid s pos hv, hc, Option.map_none', Res.bind]
  · intro c hc hi
    rw [Formula.cell_value_of_cell fuel pos s c hv hc,
      Cell.GetValue_Empty fuel _ s c (Sheet.deref_ptr_of_cellAt s pos c hv hc) hi]
    rfl
  · intro c text_ hc hi
    have hg : Cell.GetValue fuel ⟨pos, c.serial⟩ s = .ok (.text (Impl.textValue text_)) s := by
      cases fuel <;> simp [Cell.GetValue, Sheet.deref_ptr_of_cellAt s pos c hv hc, hi]
    rw [Formula.cell_value_of_cell fuel pos s c hv hc, hg]
    have ht := CellValueHandler_text (Impl.textValue text_)
    refine ⟨fun d hwf hch => ⟨fun hr => ?_, fun hr => ?_⟩, fun h => ?_⟩
    · simp only [Res.bind, (ht.1 d hwf hch).1 hr]
    · simp only [Res.bind, (ht.1 d hwf hch).2 hr]
    · simp only [Res.bind, ht.2 h]
  · intro v s1 hg
    cases hc : s.cellAt pos with
    | none =>
      simp [Sheet.GetValue, Sheet.GetCell_valid s pos hv, hc, Res.bind] at hg
    | some c =>
      rw [Sheet.GetValue_of_cell fuel pos s c hv hc] at hg
      rw [Formula.cell_value_of_cell fuel pos s c hv hc, hg]
      cases v with
      | number x => rfl
      | error fe => rfl
      | text t =>
        have ht := CellValueHandler_text t
        refine ⟨fun d hwf hch => ⟨fun hr => ?_, fun hr => ?_⟩, fun h => ?_⟩
        · simp only [Res.bind, (ht.1 d hwf hch).1 hr]
        · simp only [Res.bind, (ht.1 d hwf hch).2 hr]
        · simp only [Res.bind, ht.2 h]
  · intro t ht
    rw [← matchesDoublePattern_iff]
    simp only [List.mem_cons, List.mem_singleton, List.not_mem_nil, or_false] at ht
    rcases ht with rfl | rfl | rfl | rfl | rfl | rfl | rfl | rfl | rfl | rfl | rfl <;> decide

/-! ## Cells nothing refers to -/

namespace Sheet

theorem Unreferenced_iff (s : Sheet) (pos : Position) :
    s.Unreferenced pos = true ↔ ∀ row col c, s.slot row col = some c →
      (∀ impl, c.impl_ = some impl → pos ∉ impl.GetReferencedCells) ∧
      (∀ p ∈ c.dependent_cells_, p.pos ≠ pos) ∧ (∀ p ∈ c.referenced_cells_, p.pos ≠ pos) := by
  simp only [Unreferenced, List.all_eq_true, Bool.and_eq_true, bne_iff_ne, ne_eq]
  constructor
  · intro h row col c hc
    obtain ⟨⟨h1, h2⟩, h3⟩ := h c ((mem_cells s c).2 ⟨row, col, hc⟩)
    refine ⟨?_, h2, h3⟩
    intro impl hi
    rw [hi] at h1
    simpa using h1
  · intro h c hc
    obtain ⟨row, col, hs⟩ := (mem_cells s c).1 hc
    obtain ⟨h1, h2, h3⟩ := h row col c hs
    refine ⟨⟨?_, h2⟩, h3⟩
    cases hi : c.impl_ with
    | none => rfl
    | some impl => simpa using h1 impl hi

theorem deref_setSlot_ne (s : Sheet) (pos : Position) (hv : pos.IsValid = true) (v : Option Cell)
    (p : CellPtr) (hp : p.pos ≠ pos) :
    (s.setSlot pos.row.toNat pos.col.toNat v).deref p = s.deref p := by
  cases hpv : p.pos.IsValid with
  | false => simp [deref, hpv]
  | true =>
    simp only [deref, hpv, if_true]
    rw [slot_setSlot_ne s _ _ _ _ v (idx_ne_of_valid pos p.pos hv hpv hp)]

end Sheet
/-! ## The claims -/

/-- C4 (amended): if `SetCell(pos, text)` raises formula-syntax or circular-dependency, every
cell that existed before the call is still in its slot and is the same object state
(implementation with its cache, both edge sets), so its `GetText` and `GetReferencedCells`
are unchanged; a position other than `pos` that held no cell holds no cell or an Empty cell
without edges afterwards; and when `pos` held a cell before the call, `GetValue` of every
cell that existed is unchanged. -/
theorem SetCell_raised_keeps_cells (pos : Position) (text : String) (s s' : Sheet)
    (e : Exception) (h : Sheet.SetCell pos text s = .raised e s')
    (he : e = .FormulaException ∨ e = .CircularDependency) :
    (∀ q c, s.cellAt q = some c → s'.cellAt q = some c) ∧
    (∀ q, s.cellAt q ≠ none →
      (Sheet.GetText q s').outcome = (Sheet.GetText q s).outcome ∧
      (Sheet.GetReferencedCells q s').outcome = (Sheet.GetReferencedCells q s).outcome) ∧
    (∀ q, q.IsValid = true → q ≠ pos → s.cellAt q = none →
      s'.cellAt q = none ∨ ∃ c, s'.cellAt q = some c ∧ c.impl_ = some .EmptyImpl ∧
        c.dependent_cells_ = [] ∧ c.referenced_cells_ = []) ∧
    (s.cellAt pos ≠ none → ∀ fuel q, s.cellAt q ≠ none →
      (Sheet.GetValue fuel q s').outcome = (Sheet.GetValue fuel q s).outcome) := by
  have hne : e ≠ .InvalidPosition := by
    rcases he with he | he <;> rw [he] <;> simp
  rcases Sheet.SetCell_raised_cases pos text s s' e h hne with ⟨hv, hext, _⟩
  have keep : ∀ q c, s.cellAt q = some c → s'.cellAt q = some c := fun q c hc =>
    (hext _ _).1 c (Sheet.ensureCell_slot_some s pos _ _ c hc)
  refine ⟨keep, ?_, ?_, ?_⟩
  · intro q hq
    cases hc : s.cellAt q with
    | none => exact absurd hc hq
    | some c =>
      rw [Sheet.GetText_outcome, Sheet.GetText_outcome, Sheet.GetReferencedCells_outcome,
        Sheet.GetReferencedCells_outcome, hc, keep q c hc]
      exact ⟨rfl, rfl⟩
  · intro q hq hqp hn
    have h1 := (hext q.row.toNat q.col.toNat).2
    rw [Sheet.ensureCell_slot_ne s pos _ _ (Sheet.idx_ne_of_valid pos q hv hq hqp)] at h1
    exact h1 hn
  · intro hpos fuel q hq
    exact Sheet.GetValue_outcome_of_extends s s'
      (Sheet.SetCell_raised_extends pos text s s' e h hne hpos) fuel q hq

/-- C4, witness: the theorem applied to `SetCell(A1,"=B1+A1")` on the sheet where A1 holds
the text `x`. -/
theorem SetCell_raised_keeps_cells_witness :
    Sheet.SetCell A1 "=B1+A1" (Sheet.SetCell A1 "x" CreateSheet).sheet
      = .raised .CircularDependency
          (Sheet.SetCell A1 "=B1+A1" (Sheet.SetCell A1 "x" CreateSheet).sheet).sheet
    ∧ (∀ q c, (Sheet.SetCell A1 "x" CreateSheet).sheet.cellAt q = some c →
        (Sheet.SetCell A1 "=B1+A1" (Sheet.SetCell A1 "x" CreateSheet).sheet).sheet.cellAt q
          = some c) :=
  ⟨by decide!,
   (SetCell_raised_keeps_cells A1 "=B1+A1" (Sheet.SetCell A1 "x" CreateSheet).sheet _
      .CircularDependency (by decide!) (Or.inr rfl)).1⟩

/-- C5: if `SetCell(pos, text)` raises formula-syntax or circular-dependency and `pos` held a
cell, that cell is left unchanged: the same object state sits in the slot (implementation,
cached value, edge sets), and its `GetText`, `GetReferencedCells` and `GetValue` give what
they gave before the call. -/
theorem SetCell_raised_cell_unchanged (pos : Position) (text : String) (s s' : Sheet)
    (e : Exception) (c : Cell) (h : Sheet.SetCell pos text s = .raised e s')
    (he : e = .FormulaException ∨ e = .CircularDependency) (hc : s.cellAt pos = some c) :
    s'.cellAt pos = some c ∧
    (Sheet.GetText pos s').outcome = (Sheet.GetText pos s).outcome ∧
    (Sheet.GetReferencedCells pos s').outcome = (Sheet.GetReferencedCells pos s).outcome ∧
    (∀ fuel, (Sheet.GetValue fuel pos s').outcome = (Sheet.GetValue fuel pos s).outcome) := by
  have hne : e ≠ .InvalidPosition := by
    rcases he with he | he <;> rw [he] <;> simp
  have hpos : s.cellAt pos ≠ none := by
    rw [hc]
    simp
  have hext := Sheet.SetCell_raised_extends pos text s s' e h hne hpos
  have hc' : s'.cellAt pos = some c := (hext _ _).1 c hc
  refine ⟨hc', ?_, ?_, fun fuel => Sheet.GetValue_outcome_of_extends s s' hext fuel pos hpos⟩
  · rw [Sheet.GetText_outcome, Sheet.GetText_outcome, hc, hc']
  · rw [Sheet.GetReferencedCells_outcome, Sheet.GetReferencedCells_outcome, hc, hc']

/-- C5, witness: the theorem applied to `SetCell(A1,"=(")`, a syntax error, on the sheet
where A1 holds the text `x`. -/
theorem SetCell_raised_cell_unchanged_witness :
    Sheet.SetCell A1 "=(" (Sheet.SetCell A1 "x" CreateSheet).sheet
      = .raised .FormulaException
          (Sheet.SetCell A1 "=(" (Sheet.SetCell A1 "x" CreateSheet).sheet).sheet
    ∧ (Sheet.SetCell A1 "x" CreateSheet).sheet.cellAt A1 = some ⟨0, some (.TextImpl "x"), [], []⟩
    ∧ (Sheet.SetCell A1 "=(" (Sheet.SetCell A1 "x" CreateSheet).sheet).sheet.cellAt A1
        = some ⟨0, some (.TextImpl "x"), [], []⟩ :=
  ⟨by decide!, by decide!,
   (SetCell_raised_cell_unchanged A1 "=(" (Sheet.SetCell A1 "x" CreateSheet).sheet _
      .FormulaException _ (by decide!) (Or.inl rfl) (by decide!)).1⟩

/-- C6: if `SetCell(pos, text)` raises circular-dependency, then `text` is a formula and
`pos` is among its referenced positions or is reached from them through the referenced
cells of the current implementations of cells other than the one at `pos`; hence a formula
that does not reference `pos` and whose referenced positions held no cell before the call
does not raise circular-dependency. -/
theorem SetCell_circular_only_if_reaches (pos : Position) (text : String) (s : Sheet) :
    (∀ s', Sheet.SetCell pos text s = .raised .CircularDependency s' →
      ∃ temp, Cell.makeImpl text = some temp ∧ Sheet.Reaches s pos temp.GetReferencedCells) ∧
    (∀ temp, Cell.makeImpl text = some temp → pos ∉ temp.GetReferencedCells →
      (∀ q ∈ temp.GetReferencedCells, s.cellAt q = none) →
      ∀ s', Sheet.SetCell pos text s ≠ .raised .CircularDependency s') := by
  have main : ∀ s', Sheet.SetCell pos text s = .raised .CircularDependency s' →
      ∃ temp, Cell.makeImpl text = some temp ∧
        Sheet.Reaches s pos temp.GetReferencedCells := by
    intro s' h
    rcases Sheet.SetCell_raised_cases pos text s s' _ h (by simp) with
      ⟨hv, hext, ⟨_, h2⟩ | ⟨temp, h1, _, h3⟩⟩
    · cases h2
    · refine ⟨temp, h1, ?_⟩
      rcases Sheet.ensureCell_deref s pos hv with ⟨c0, hd0, _, _⟩
      have hlive : s'.deref (s.ensureCell pos).1 ≠ none := by
        rw [hext.deref_some _ c0 hd0]
        simp
      rcases Cell.IsCircularDependent_sound _ s' _ hlive _ _ _ h3 with ⟨impl, hi, hr⟩
      cases hi
      rw [Sheet.ensureCell_pos] at hr
      refine hr.transfer (fun q c impl hq hqp hc hi hnil => ?_)
      have hsl := Sheet.ensureCell_slot_ne s pos _ _ (Sheet.idx_ne_of_valid pos q hv hq hqp)
      cases hs : s.slot q.row.toNat q.col.toNat with
      | some c1 =>
        have := (hext _ _).1 c1 (by rw [hsl]; exact hs)
        simp only [Sheet.cellAt] at hc
        rw [this] at hc
        cases hc
        exact hs
      | none =>
        exfalso
        rcases (hext _ _).2 (by rw [hsl]; exact hs) with h4 | ⟨c1, h4, h5, _, _⟩
        · simp only [Sheet.cellAt] at hc
          rw [h4] at hc
          cases hc
        · simp only [Sheet.cellAt] at hc
          rw [h4] at hc
          cases hc
          rw [h5] at hi
          cases hi
          exact hnil rfl
  refine ⟨main, ?_⟩
  intro temp ht hpos habs s' h
  rcases main s' h with ⟨temp', ht', hr⟩
  rw [ht] at ht'
  cases ht'
  cases hr with
  | here hm => exact hpos hm
  | step q c impl hq hv hne hc hi hr' =>
    rw [habs q hq] at hc
    cases hc

/-- C6, witness: `SetCell(B1,"=A1")` after `SetCell(A1,"=B1")` raises circular-dependency,
and B1 is reached from the reference A1. -/
theorem SetCell_circular_only_if_reaches_witness :
    Sheet.SetCell B1 "=A1" (Sheet.SetCell A1 "=B1" CreateSheet).sheet
      = .raised .CircularDependency
          (Sheet.SetCell B1 "=A1" (Sheet.SetCell A1 "=B1" CreateSheet).sheet).sheet
    ∧ ∃ temp, Cell.makeImpl "=A1" = some temp ∧
        Sheet.Reaches (Sheet.SetCell A1 "=B1" CreateSheet).sheet B1 temp.GetReferencedCells :=
  ⟨by decide!,
   (SetCell_circular_only_if_reaches B1 "=A1" (Sheet.SetCell A1 "=B1" CreateSheet).sheet).1
     (Sheet.SetCell B1 "=A1" (Sheet.SetCell A1 "=B1" CreateSheet).sheet).sheet (by decide!)⟩

/-- C9 (amended): `ClearCell(pos)` on a position that holds a cell to which nothing in the
sheet refers (no implementation names `pos` among its referenced cells and no edge set holds
a pointer to a cell at `pos`) returns normally and resets the slot: afterwards `GetCell(pos)`
is null (no Empty cell takes the place of the destroyed one), every other slot holds what it
held, so at every other valid position `GetCell` returns the same cell, with the same
`GetText` and `GetReferencedCells`, as before; still nothing refers to `pos`, every pointer
in an edge set refers to what it referred to, and every valid position a cell references
holds what it held. -/
theorem ClearCell_unreferenced_resets_slot (pos : Position) (s : Sheet)
    (hv : pos.IsValid = true) (hc : s.cellAt pos ≠ none) (hfree : s.Unreferenced pos = true) :
    ∃ s', Sheet.ClearCell pos s = .ok () s' ∧ s'.GetCell pos = .ok none s' ∧
      (∀ row col, (pos.row.toNat ≠ row ∨ pos.col.toNat ≠ col) →
        s'.slot row col = s.slot row col) ∧
      (∀ q, q.IsValid = true → q ≠ pos →
        (s'.GetCell q).value = (s.GetCell q).value ∧
        (Sheet.GetText q s').outcome = (Sheet.GetText q s).outcome ∧
        (Sheet.GetReferencedCells q s').outcome = (Sheet.GetReferencedCells q s).outcome) ∧
      s'.Unreferenced pos = true ∧
      (∀ row col c, s'.slot row col = some c →
        (∀ p, p ∈ c.dependent_cells_ ∨ p ∈ c.referenced_cells_ → s'.deref p = s.deref p) ∧
        (∀ impl, c.impl_ = some impl → ∀ q ∈ impl.GetReferencedCells, q.IsValid = true →
          s'.cellAt q = s.cellAt q)) := by
  cases hcell : s.cellAt pos with
  | none => exact absurd hcell hc
  | some c =>
    have hin : s.inRange pos.row.toNat pos.col.toNat :=
      Sheet.inRange_of_slot_eq_some s _ _ c hcell
    have hfree' := (Sheet.Unreferenced_iff s pos).1 hfree
    have hback : ∀ row col c1,
        (s.setSlot pos.row.toNat pos.col.toNat none).slot row col = some c1 →
        s.slot row col = some c1 := by
      intro row col c1 h1
      rcases Sheet.slot_setSlot_cases s pos.row.toNat pos.col.toNat row col none with h2 | h2
      · rw [h2] at h1
        cases h1
      · rw [h2] at h1
        exact h1
    refine ⟨s.setSlot pos.row.toNat pos.col.toNat none, ?_, ?_, ?_, ?_, ?_, ?_⟩
    · simp [Sheet.ClearCell, Sheet.GetCell_valid s pos hv, hcell, Res.bind]
    · rw [Sheet.GetCell_valid _ pos hv]
      simp only [Sheet.cellAt]
      rw [Sheet.slot_setSlot_same s _ _ none hin]
      rfl
    · intro row col hne
      exact Sheet.slot_setSlot_ne s _ _ row col none hne
    · intro q hq hne
      have hsl : (s.setSlot pos.row.toNat pos.col.toNat none).cellAt q = s.cellAt q :=
        Sheet.slot_setSlot_ne s _ _ _ _ none (Sheet.idx_ne_of_valid pos q hv hq hne)
      rw [Sheet.GetCell_valid _ q hq, Sheet.GetCell_valid _ q hq, Sheet.GetText_outcome,
        Sheet.GetText_outcome, Sheet.GetReferencedCells_outcome,
        Sheet.GetReferencedCells_outcome, hsl]
      exact ⟨rfl, rfl, rfl⟩
    · rw [Sheet.Unreferenced_iff]
      intro row col c1 h1
      exact hfree' row col c1 (hback row col c1 h1)
    · intro row col c1 h1
      obtain ⟨ha, hb, hc'⟩ := hfree' row col c1 (hback row col c1 h1)
      constructor
      · intro p hp
        apply Sheet.deref_setSlot_ne s pos hv none p
        rcases hp with hp | hp
        · exact hb p hp
        · exact hc' p hp
      · intro impl hi q hq hqv
        have hne : q ≠ pos := fun e => ha impl hi (e ▸ hq)
        exact Sheet.slot_setSlot_ne s _ _ _ _ none (Sheet.idx_ne_of_valid pos q hv hqv hne)

/-- C9, witness: the theorem applied to `ClearCell(C1)` after `SetCell(A1,"=B1");
SetCell(C1,"x")`: nothing refers to C1, while B1 and A1 are referred to. -/
theorem ClearCell_unreferenced_resets_slot_witness :
    C1.IsValid = true ∧
    ((Sheet.SetCell A1 "=B1" CreateSheet).bind fun _ s1 =>
      Sheet.SetCell C1 "x" s1).sheet.cellAt C1 ≠ none ∧
    ((Sheet.SetCell A1 "=B1" CreateSheet).bind fun _ s1 =>
      Sheet.SetCell C1 "x" s1).sheet.Unreferenced C1 = true ∧
    ((Sheet.SetCell A1 "=B1" CreateSheet).bind fun _ s1 =>
      Sheet.SetCell C1 "x" s1).sheet.Unreferenced B1 = false ∧
    ((Sheet.SetCell A1 "=B1" CreateSheet).bind fun _ s1 =>
      Sheet.SetCell C1 "x" s1).sheet.Unreferenced A1 = false ∧
    ∃ s', Sheet.ClearCell C1 ((Sheet.SetCell A1 "=B1" CreateSheet).bind fun _ s1 =>
      Sheet.SetCell C1 "x" s1).sheet = .ok () s' ∧ s'.GetCell C1 = .ok none s' ∧
      s'.Unreferenced C1 = true :=
  ⟨by decide, by decide!, by decide!, by decide!, by decide!,
   (ClearCell_unreferenced_resets_slot C1 _ (by decide) (by decide!) (by decide!)).imp
      (fun _ h => ⟨h.1, h.2.1, h.2.2.2.2.1⟩)⟩

/-- C10: on every reachable sheet, `SetCell`, `GetCell` and `ClearCell` raise
invalid-position exactly when the position fails `IsValid`, and then they leave the sheet
as it was; for a valid position `GetCell` returns normally the cell in the slot, or null
when the slot holds none or lies outside the table, without changing the sheet. -/
theorem invalid_position_iff (s : Sheet) (hs : Sheet.Reachable s) (pos : Position)
    (text : String) :
    (∀ s', Sheet.SetCell pos text s = .raised .InvalidPosition s' ↔
      (pos.IsValid = false ∧ s' = s)) ∧
    (∀ s', s.GetCell pos = .raised .InvalidPosition s' ↔ (pos.IsValid = false ∧ s' = s)) ∧
    (∀ s', Sheet.ClearCell pos s = .raised .InvalidPosition s' ↔
      (pos.IsValid = false ∧ s' = s)) ∧
    (pos.IsValid = true →
      s.GetCell pos = .ok ((s.cellAt pos).map fun c => ⟨pos, c.serial⟩) s) := by
  refine ⟨?_, ?_, ?_, fun hv => Sheet.GetCell_valid s pos hv⟩
  · intro s'
    cases hv : pos.IsValid with
    | false =>
      rw [Sheet.SetCell_invalid pos text s hv]
      simp only [Res.raised.injEq, true_and]
      constructor
      · intro h
        exact h.symm
      · intro h
        exact h.symm
    | true =>
      rw [Sheet.SetCell_valid pos text s hv]
      have hrv : Sheet.RefsValid (s.ensureCell pos).2 := by
        refine Sheet.CellsSatisfy.ensureCell hs.refsValid pos ?_
        intro n impl hi
        cases hi
      constructor
      · intro h
        exact absurd h (Cell.Set_not_invalidPosition 0 _ text _ hrv s')
      · intro h
        cases h.1
  · intro s'
    cases hv : pos.IsValid with
    | false =>
      rw [Sheet.GetCell_invalid s pos hv]
      simp only [Res.raised.injEq, true_and]
      constructor
      · intro h
        exact h.symm
      · intro h
        exact h.symm
    | true =>
      rw [Sheet.GetCell_valid s pos hv]
      constructor
      · intro h
        cases h
      · intro h
        cases h.1
  · intro s'
    cases hv : pos.IsValid with
    | false =>
      simp only [Sheet.ClearCell, Sheet.GetCell_invalid s pos hv, Res.bind, Res.raised.injEq,
        true_and]
      constructor
      · intro h
        exact h.symm
      · intro h
        exact h.symm
    | true =>
      simp only [Sheet.ClearCell, Sheet.GetCell_valid s pos hv, Res.bind]
      constructor
      · intro h
        cases hc : s.cellAt pos with
        | none =>
          rw [hc] at h
          cases h
        | some c =>
          rw [hc] at h
          cases h
      · intro h
        cases h.1

/-- C10, witness: the theorem applied to the fresh sheet and the position (-1, 0). -/
theorem invalid_position_iff_witness :
    Sheet.Reachable CreateSheet ∧
    (∀ s', Sheet.SetCell ⟨-1, 0⟩ "x" CreateSheet = .raised .InvalidPosition s' ↔
      ((⟨-1, 0⟩ : Position).IsValid = false ∧ s' = CreateSheet)) :=
  ⟨Sheet.Reachable.create,
   (invalid_position_iff CreateSheet Sheet.Reachable.create ⟨-1, 0⟩ "x").1⟩

/-- C13: the reference list of a formula built from a tree is strictly ascending in the
row-major order of positions, hence free of duplicates, and holds exactly the (valid)
positions of the reference leaves of the tree; this holds for every parsed formula and for
the implementation `Cell::Set` builds from any text, and the lists of Text and Empty
implementations are empty. -/
theorem GetReferencedCells_strictly_ascending (ast : FormulaAST) :
    ((Formula.create ast).GetReferencedCells.Pairwise (fun a b => a.lt b = true) ∧
      (Formula.create ast).GetReferencedCells.Nodup ∧
      ∀ q, q ∈ (Formula.create ast).GetReferencedCells ↔
        (q ∈ ast.referenceLeaves ∧ q.IsValid = true)) ∧
    (∀ expression f, ParseFormula expression = some f →
      f.GetReferencedCells.Pairwise (fun a b => a.lt b = true) ∧ f.GetReferencedCells.Nodup ∧
      ∀ q, q ∈ f.GetReferencedCells ↔ (q ∈ f.ast_.referenceLeaves ∧ q.IsValid = true)) ∧
    (∀ text impl, Cell.makeImpl text = some impl →
      impl.GetReferencedCells.Pairwise (fun a b => a.lt b = true) ∧
      impl.GetReferencedCells.Nodup) ∧
    (∀ text_, (Impl.TextImpl text_).GetReferencedCells = []) ∧
    Impl.EmptyImpl.GetReferencedCells = [] := by
  have main : ∀ a : FormulaAST,
      (Formula.create a).GetReferencedCells.Pairwise (fun a b => a.lt b = true) ∧
      (Formula.create a).GetReferencedCells.Nodup ∧
      ∀ q, q ∈ (Formula.create a).GetReferencedCells ↔
        (q ∈ a.referenceLeaves ∧ q.IsValid = true) := by
    intro a
    have h1 : (Formula.create a).GetReferencedCells.Pairwise (fun a b => a.lt b = true) :=
      uniquePositions_strict _ (sortPositions_sorted _)
    refine ⟨h1, pairwise_lt_nodup _ h1, fun q => ?_⟩
    rw [← FormulaAST.mem_GetCells]
    simp only [Formula.create, Formula.GetReferencedCells, mem_uniquePositions,
      mem_sortPositions]
  refine ⟨main ast, ?_, ?_, fun _ => rfl, rfl⟩
  · intro expression f hf
    simp only [ParseFormula, Option.map_eq_some'] at hf
    rcases hf with ⟨a, _, rfl⟩
    exact main a
  · intro text impl h
    simp only [Cell.makeImpl] at h
    split at h
    · simp only [ParseFormula, Option.map_map, Option.map_eq_some', Function.comp] at h
      rcases h with ⟨a, _, rfl⟩
      exact ⟨(main a).1, (main a).2.1⟩
    · split at h
      · cases h
        exact ⟨List.Pairwise.nil, List.nodup_nil⟩
      · cases h
        exact ⟨List.Pairwise.nil, List.nodup_nil⟩

/-- C13, witness: the reference list of the formula parsed from `B2+A1+B2+A1*C1+A2`. -/
theorem GetReferencedCells_strictly_ascending_witness :
    ParseFormula "B2+A1+B2+A1*C1+A2"
      = some (Formula.create (.binary .add (.binary .add (.binary .add (.binary .add
          (.cell ⟨1, 1⟩) (.cell ⟨0, 0⟩)) (.cell ⟨1, 1⟩))
          (.binary .mul (.cell ⟨0, 0⟩) (.cell ⟨0, 2⟩))) (.cell ⟨1, 0⟩)))
    ∧ (Formula.create (.binary .add (.binary .add (.binary .add (.binary .add
          (.cell ⟨1, 1⟩) (.cell ⟨0, 0⟩)) (.cell ⟨1, 1⟩))
          (.binary .mul (.cell ⟨0, 0⟩) (.cell ⟨0, 2⟩))) (.cell ⟨1, 0⟩))).GetReferencedCells
        = [⟨0, 0⟩, ⟨0, 2⟩, ⟨1, 0⟩, ⟨1, 1⟩]
    ∧ (Formula.create (.binary .add (.binary .add (.binary .add (.binary .add
          (.cell ⟨1, 1⟩) (.cell ⟨0, 0⟩)) (.cell ⟨1, 1⟩))
          (.binary .mul (.cell ⟨0, 0⟩) (.cell ⟨0, 2⟩))) (.cell ⟨1, 0⟩))).GetReferencedCells.Pairwise
        (fun a b => a.lt b = true) :=
  ⟨by decide!, by decide!,
   ((GetReferencedCells_strictly_ascending (.number 0)).2.1 "B2+A1+B2+A1*C1+A2" _
      (by decide!)).1⟩

/-- C20: the walk of `InvalidateDependentCache` on an arbitrary sheet state. It never runs
out of the round budget of the model, whatever the stored edges are (diamonds and cycles
included), and it returns when everything reachable through `dependent_cells_` from the
starting cell is a cell of the sheet with an implementation. A popped pointer that is in
the visited set is skipped. When the walk returns, the pointers it processed are without
repetition and are exactly the pointers reachable through `dependent_cells_`; the sheet left
behind is the given one with exactly those cells invalidated; so every reachable cell holds
no cached value afterwards (Text and Empty cells have no cache, a formula cell has an empty
one). -/
theorem InvalidateDependentCache_walks_once (self : CellPtr) (s : Sheet) :
    Cell.InvalidateDependentCache self s ≠ .exhausted ∧
    (∀ c, s.deref self = some c →
      (∀ q, s.DepReach self q → ∃ c1, s.deref q = some c1 ∧ c1.impl_ ≠ none) →
      ∃ s', Cell.InvalidateDependentCache self s = .ok () s') ∧
    (∀ n cell to_visit visited t, cell ∈ visited →
      Cell.InvalidateDependentCacheLoop (n + 1) (cell :: to_visit) visited t =
        Cell.InvalidateDependentCacheLoop n to_visit visited t) ∧
    (∀ s', Cell.InvalidateDependentCache self s = .ok () s' →
      (Cell.InvalidateDependentCacheVisits self s).Nodup ∧
      (∀ p, p ∈ Cell.InvalidateDependentCacheVisits self s ↔ s.DepReach self p) ∧
      (∀ p, s'.deref p =
        if p ∈ Cell.InvalidateDependentCacheVisits self s then
          (s.deref p).map Cell.invalidated
        else s.deref p) ∧
      (∀ p, s.DepReach self p →
        ∃ c, s'.deref p = some c ∧ c.impl_ ≠ none ∧ c.HoldsNoCache ∧
          ∀ f cache, c.impl_ = some (.FormulaImpl f cache) →
            (Impl.FormulaImpl f cache).IsCacheValid = false)) := by
  refine ⟨Cell.InvalidateDependentCache_not_exhausted self s,
    fun c hd hlive => Cell.InvalidateDependentCache_total self s c hd hlive, ?_, ?_⟩
  · intro n cell to_visit visited t hv
    simp only [Cell.InvalidateDependentCacheLoop, hv, if_true]
  · intro s' h
    obtain ⟨h1, h2, h3, h4⟩ := Cell.InvalidateDependentCache_spec self s s' h
    refine ⟨h1, h2, h3, fun p hp => ?_⟩
    obtain ⟨c, hc, hi⟩ := h4 p hp
    refine ⟨c.invalidated, ?_, ?_, Cell.invalidated_holdsNoCache c, ?_⟩
    · rw [h3 p, if_pos ((h2 p).2 hp), hc]
      rfl
    · cases hi1 : c.impl_ with
      | none => exact absurd hi1 hi
      | some impl => simp [Cell.invalidated, hi1]
    · intro f cache hf
      rw [Cell.invalidated_holdsNoCache c f cache hf]
      rfl

/-- C20, witness: after `SetCell(B1,"=A1+B1")` the set `dependent_cells_` of B1 holds A1 and
B1 itself, a cycle; the walk started at B1 returns and processes B1 and A1 once each. -/
theorem InvalidateDependentCache_walks_once_witness :
    Cell.InvalidateDependentCache ⟨B1, 0⟩ (Sheet.SetCell B1 "=A1+B1" CreateSheet).sheet
      ≠ .exhausted ∧
    ((Sheet.SetCell B1 "=A1+B1" CreateSheet).sheet.cellAt B1).map (fun c => c.dependent_cells_)
      = some [⟨A1, 1⟩, ⟨B1, 0⟩] ∧
    Cell.InvalidateDependentCacheVisits ⟨B1, 0⟩ (Sheet.SetCell B1 "=A1+B1" CreateSheet).sheet
      = [⟨B1, 0⟩, ⟨A1, 1⟩] ∧
    (Cell.InvalidateDependentCache ⟨B1, 0⟩
      (Sheet.SetCell B1 "=A1+B1" CreateSheet).sheet).outcome = .ok () :=
  ⟨(InvalidateDependentCache_walks_once ⟨B1, 0⟩
      (Sheet.SetCell B1 "=A1+B1" CreateSheet).sheet).1,
    by decide!, by decide!, by decide!⟩

/-- C19: `GetValue` on a formula cell with an empty cache. If the evaluation of the formula
yields a number `d`, the call returns `d`, the cache of the cell holds `d` afterwards, and
every further call returns `d` and leaves the sheet as it is, also with no budget for an
evaluation. If the evaluation yields an error, the call returns that error and leaves the
sheet as the evaluation left it, where the cache of the cell is still empty: the calls the
evaluation made did not fill it; so the next call evaluates the formula again. A filled
cache is returned as it is. Whatever cell it is called on, a call of `GetValue` that returns
leaves every cell object in place with the same edge sets and the same implementation up
to the cached value. With A1 holding `=1/B1` and B1 Empty the value of A1 is `#DIV/0!`, and
after `SetCell(B1,"4")` it is 0.25: the error was not kept. -/
theorem GetValue_memoizes_numbers_only (fuel : Nat) (self : CellPtr) (s : Sheet) (c : Cell)
    (f : Formula) (hd : s.deref self = some c) (hi : c.impl_ = some (.FormulaImpl f none)) :
    (∀ d s1, f.Evaluate (Cell.GetValue fuel) s = .ok (.number d) s1 →
      ∃ s', Cell.GetValue (fuel + 1) self s = .ok (.number d) s' ∧
        (∃ c', s'.deref self = some c' ∧ c'.impl_ = some (.FormulaImpl f (some d))) ∧
        ∀ n, Cell.GetValue n self s' = .ok (.number d) s') ∧
    (∀ fe s1, f.Evaluate (Cell.GetValue fuel) s = .ok (.error fe) s1 →
      Cell.GetValue (fuel + 1) self s = .ok (.error fe) s1 ∧
      (∃ c', s1.deref self = some c' ∧ c'.impl_ = some (.FormulaImpl f none)) ∧
      Cell.GetValue 0 self s1 = .exhausted ∧
      ∀ n, Cell.GetValue (n + 1) self s1 =
        (f.Evaluate (Cell.GetValue n) s1).bind fun evaluation s2 =>
          match evaluation with
          | .number x => .ok (.number x) (s2.setCache self x)
          | .error fe1 => .ok (.error fe1) s2) ∧
    (∀ p t c0 f0 x, t.deref p = some c0 → c0.impl_ = some (.FormulaImpl f0 (some x)) →
      ∀ n, Cell.GetValue n p t = .ok (.number x) t) ∧
    (∀ n p t v t', Cell.GetValue n p t = .ok v t' → Sheet.Evolves Cell.SameButCache t t') ∧
    ((Sheet.SetCell A1 "=1/B1" CreateSheet).bind fun _ s1 =>
      (Sheet.GetValue 8 A1 s1).bind fun v1 s2 =>
      (Sheet.SetCell B1 "4" s2).bind fun _ s3 =>
      (Sheet.GetValue 8 A1 s3).bind fun v2 s4 => .ok (v1, v2) s4).value
      = some (Value.error .Div0, Value.number (1 / 4)) := by
  have hcached : ∀ p t c0 f0 x, t.deref p = some c0 →
      c0.impl_ = some (.FormulaImpl f0 (some x)) →
      ∀ n, Cell.GetValue n p t = .ok (.number x) t := by
    intro p t c0 f0 x h1 h2 n
    cases n <;> simp [Cell.GetValue, h1, h2]
  refine ⟨?_, ?_, hcached, ?_, by decide!⟩
  · intro d s1 h
    obtain ⟨c1, hd1, hi1, _, _⟩ := Cell.Evaluate_keeps_cache_empty fuel self s c f hd hi _ s1 h
    have hs' : s1.setCache self d
        = s1.store self { c1 with impl_ := some (.FormulaImpl f (some d)) } := by
      simp only [Sheet.setCache, hd1, hi1]
    have hd' : (s1.setCache self d).deref self
        = some { c1 with impl_ := some (.FormulaImpl f (some d)) } := by
      rw [hs', Sheet.deref_store s1 self c1
        { c1 with impl_ := some (.FormulaImpl f (some d)) } self hd1 rfl, if_pos rfl]
    refine ⟨s1.setCache self d, ?_, ⟨_, hd', rfl⟩, hcached self _ _ f d hd' rfl⟩
    simp only [Cell.GetValue, hd, hi, h, Res.bind]
  · intro fe s1 h
    obtain ⟨c1, hd1, hi1, _, _⟩ := Cell.Evaluate_keeps_cache_empty fuel self s c f hd hi _ s1 h
    refine ⟨?_, ⟨c1, hd1, hi1⟩, ?_, fun n => ?_⟩
    · simp only [Cell.GetValue, hd, hi, h, Res.bind]
    · simp only [Cell.GetValue, hd1, hi1]
    · simp only [Cell.GetValue, hd1, hi1]
  · intro n p t v t' h
    exact (Cell.GetValue_sameButCache n p t).of_ok h

/-- C19, witness: A1 holds `=1+2` with an empty cache; the evaluation yields 3, the call
returns 3 and fills the cache, and a further call returns 3 without budget. -/
theorem GetValue_memoizes_numbers_only_witness :
    (Sheet.SetCell A1 "=1+2" CreateSheet).sheet.deref ⟨A1, 0⟩
      = some ⟨0, some (.FormulaImpl (Formula.create (.binary .add (.number 1) (.number 2)))
          none), [], []⟩ ∧
    ∃ s', Cell.GetValue (0 + 1) ⟨A1, 0⟩ (Sheet.SetCell A1 "=1+2" CreateSheet).sheet
        = .ok (.number 3) s' ∧
      (∃ c', s'.deref ⟨A1, 0⟩ = some c' ∧ c'.impl_ = some (.FormulaImpl
        (Formula.create (.binary .add (.number 1) (.number 2))) (some 3))) ∧
      ∀ n, Cell.GetValue n ⟨A1, 0⟩ s' = .ok (.number 3) s' :=
  ⟨by decide!,
    (GetValue_memoizes_numbers_only 0 ⟨A1, 0⟩ (Sheet.SetCell A1 "=1+2" CreateSheet).sheet
      ⟨0, some (.FormulaImpl (Formula.create (.binary .add (.number 1) (.number 2))) none),
        [], []⟩
      (Formula.create (.binary .add (.number 1) (.number 2))) (by decide!) rfl).1 3
      (Sheet.SetCell A1 "=1+2" CreateSheet).sheet (by decide!)⟩

/-! ## Scenarios evaluated on the code -/

/-- C1: the scenario `SetCell(A1,"2"); SetCell(A2,"=A1+1"); GetValue(A2); SetCell(A1,"5");
GetValue(A2)` run on the code: the first read of A2 gives 3 and the read after the second
assignment to A1 gives 3 again (not 6), because A2 keeps its cached value; evaluating the
formula of A2 on that sheet without the cache gives 6. -/
theorem GetValue_stale_after_SetCell :
    ((Sheet.SetCell A1 "2" CreateSheet).bind fun _ s1 =>
      (Sheet.SetCell A2 "=A1+1" s1).bind fun _ s2 =>
      (Sheet.GetValue 8 A2 s2).bind fun v1 s3 =>
      (Sheet.SetCell A1 "5" s3).bind fun _ s4 =>
      (Sheet.GetValue 8 A2 s4).bind fun v2 s5 =>
      match s5.cellAt A2 with
      | some ⟨_, some (.FormulaImpl formula_ _), _, _⟩ =>
        (formula_.Evaluate (Cell.GetValue 8) s5).bind fun fresh s6 => .ok (v1, v2, fresh) s6
      | _ => .undefined).value
    = some (Value.number 3, Value.number 3, FormulaValue.number 6) := by decide!

/-- C2: after `SetCell(C1,"=B1")` the call `SetCell(B1,"=A1+C1")` returns normally although
B1 is reachable from C1; afterwards B1 references C1 and C1 references B1. -/
theorem SetCell_accepts_cycle_behind_first_reference :
    ((Sheet.SetCell C1 "=B1" CreateSheet).bind fun _ s1 =>
      (Sheet.SetCell B1 "=A1+C1" s1).bind fun _ s2 =>
      (Sheet.GetReferencedCells B1 s2).bind fun rb s3 =>
      (Sheet.GetReferencedCells C1 s3).bind fun rc s4 => .ok (rb, rc) s4).value
    = some ([A1, C1], [B1]) := by decide!

/-- C3: on a fresh sheet `SetCell(B1,"=A1+B1")` returns normally although the formula
references B1 itself; afterwards the referenced cells of B1 are A1 and B1. -/
theorem SetCell_accepts_self_reference_behind_first :
    ((Sheet.SetCell B1 "=A1+B1" CreateSheet).bind fun _ s1 =>
      Sheet.GetReferencedCells B1 s1).value = some [A1, B1] := by decide!

/-- C4, counterexample: with A1 holding the text `x`, `SetCell(A1,"=B1+A1")` raises
circular-dependency, and `GetCell(B1)`, null before the call, is a cell afterwards; on a
fresh sheet `SetCell(A1,"=A1")` raises and `GetCell(A1)` is a cell afterwards; and after
`SetCell(A1,"=B1"); ClearCell(B1)` the raising call `SetCell(B1,"=B1")` turns `GetValue(A1)`
from 0 into a read through a cell without implementation. -/
theorem SetCell_raised_changes_GetCell :
    ((Sheet.SetCell A1 "x" CreateSheet).sheet.GetCell B1).value = some none
    ∧ (Sheet.SetCell A1 "=B1+A1" (Sheet.SetCell A1 "x" CreateSheet).sheet).exception
        = some .CircularDependency
    ∧ ((Sheet.SetCell A1 "=B1+A1" (Sheet.SetCell A1 "x" CreateSheet).sheet).sheet.GetCell B1).value
        = some (some ⟨B1, 1⟩)
    ∧ (CreateSheet.GetCell A1).value = some none
    ∧ (Sheet.SetCell A1 "=A1" CreateSheet).exception = some .CircularDependency
    ∧ ((Sheet.SetCell A1 "=A1" CreateSheet).sheet.GetCell A1).value = some (some ⟨A1, 0⟩)
    ∧ (Sheet.GetValue 8 A1
        ((Sheet.SetCell A1 "=B1" CreateSheet).bind fun _ s => Sheet.ClearCell B1 s).sheet).outcome
        = .ok (.number 0)
    ∧ (Sheet.SetCell B1 "=B1"
        ((Sheet.SetCell A1 "=B1" CreateSheet).bind fun _ s => Sheet.ClearCell B1 s).sheet).exception
        = some .CircularDependency
    ∧ (Sheet.GetValue 8 A1 (Sheet.SetCell B1 "=B1"
        ((Sheet.SetCell A1 "=B1" CreateSheet).bind fun _ s =>
          Sheet.ClearCell B1 s).sheet).sheet).outcome = .undefined := by
  decide!

/-- C7: after `SetCell(A1,"=C3")` on a fresh sheet the printable size is (3,3): the Empty
cell created at C3 as target of the reference is counted. -/
theorem GetPrintableSize_counts_placeholder :
    (Sheet.SetCell A1 "=C3" CreateSheet).sheet.GetPrintableSize = ⟨3, 3⟩
    ∧ (Sheet.GetText C3 (Sheet.SetCell A1 "=C3" CreateSheet).sheet).value = some "" := by
  decide!

/-- C8: after `SetCell(A1,"=B1")` on a fresh sheet, where B1 is an Empty cell,
`PrintValues` writes `0` for B1 while `PrintTexts` writes nothing for it. -/
theorem PrintValues_Empty_cell_prints_zero :
    (Sheet.PrintValues 8 (Sheet.SetCell A1 "=B1" CreateSheet).sheet).value = some "0\t0\n"
    ∧ (Sheet.PrintTexts (Sheet.SetCell A1 "=B1" CreateSheet).sheet).value = some "=B1\t\n" := by
  decide!

/-- C9, counterexample: with A1 holding the text `x`, `ClearCell(A1)` leaves no cell at A1
while `SetCell(A1,"")` leaves an Empty cell there. -/
theorem ClearCell_differs_from_SetCell_empty :
    ((Sheet.ClearCell A1 (Sheet.SetCell A1 "x" CreateSheet).sheet).bind fun _ s =>
        s.GetCell A1).value = some none
    ∧ ((Sheet.SetCell A1 "" (Sheet.SetCell A1 "x" CreateSheet).sheet).bind fun _ s =>
        s.GetCell A1).value = some (some ⟨A1, 0⟩)
    ∧ ((Sheet.SetCell A1 "" (Sheet.SetCell A1 "x" CreateSheet).sheet).bind fun _ s =>
        Sheet.GetText A1 s).value = some "" := by
  decide!

/-- C12: on a fresh sheet `SetCell(B1,"=A1+B1")` returns normally; B1 is among the referenced
cells of the formula and held no cell before the call, and afterwards the cell at B1 is the
formula cell, not an Empty cell: its text is `=A1+B1` and its referenced cells are A1 and
B1. With B1 holding the text `x` before, the same call returns normally and the content of
B1, a cell that existed at a referenced position, changes from `x` to `=A1+B1`. The
reference A1 is materialised as an Empty cell in both runs. -/
theorem SetCell_self_reference_not_Empty :
    (CreateSheet.GetCell B1).value = some none
    ∧ (Sheet.SetCell B1 "=A1+B1" CreateSheet).outcome = .ok ()
    ∧ (Sheet.GetReferencedCells B1 (Sheet.SetCell B1 "=A1+B1" CreateSheet).sheet).value
        = some [A1, B1]
    ∧ (Sheet.GetText B1 (Sheet.SetCell B1 "=A1+B1" CreateSheet).sheet).value = some "=A1+B1"
    ∧ (Sheet.GetText A1 (Sheet.SetCell B1 "=A1+B1" CreateSheet).sheet).value = some ""
    ∧ (Sheet.GetText B1 (Sheet.SetCell B1 "x" CreateSheet).sheet).value = some "x"
    ∧ (Sheet.SetCell B1 "=A1+B1" (Sheet.SetCell B1 "x" CreateSheet).sheet).outcome = .ok ()
    ∧ (Sheet.GetText B1
        (Sheet.SetCell B1 "=A1+B1" (Sheet.SetCell B1 "x" CreateSheet).sheet).sheet).value
        = some "=A1+B1" := by
  decide!

/-- C15: after `SetCell(A1,"2"); SetCell(A2,"=A1+1"); GetValue(A2)` the cell A2, which
references A1, holds the cached value 3; each of `SetCell(A1,"5")`, `SetCell(A1,"")` and
`SetCell(A1,"=7")` commits and leaves the cache of A2 valid, still holding 3. -/
theorem SetCell_leaves_cache_of_referrer :
    ((Sheet.SetCell A1 "2" CreateSheet).bind fun _ s1 =>
      (Sheet.SetCell A2 "=A1+1" s1).bind fun _ s2 =>
      (Sheet.GetValue 8 A2 s2).bind fun _ s3 =>
      (Sheet.GetReferencedCells A2 s3).bind fun refs s4 =>
      (Sheet.SetCell A1 "5" s4).bind fun _ s5 =>
      (Cell.IsCacheValid ⟨A2, 1⟩ s5).bind fun valid s6 =>
      (Sheet.GetValue 0 A2 s6).bind fun v s7 => .ok (refs, valid, v) s7).value
      = some ([A1], true, Value.number 3)
    ∧ ((Sheet.SetCell A1 "2" CreateSheet).bind fun _ s1 =>
      (Sheet.SetCell A2 "=A1+1" s1).bind fun _ s2 =>
      (Sheet.GetValue 8 A2 s2).bind fun _ s3 =>
      (Sheet.GetReferencedCells A2 s3).bind fun refs s4 =>
      (Sheet.SetCell A1 "" s4).bind fun _ s5 =>
      (Cell.IsCacheValid ⟨A2, 1⟩ s5).bind fun valid s6 =>
      (Sheet.GetValue 0 A2 s6).bind fun v s7 => .ok (refs, valid, v) s7).value
      = some ([A1], true, Value.number 3)
    ∧ ((Sheet.SetCell A1 "2" CreateSheet).bind fun _ s1 =>
      (Sheet.SetCell A2 "=A1+1" s1).bind fun _ s2 =>
      (Sheet.GetValue 8 A2 s2).bind fun _ s3 =>
      (Sheet.GetReferencedCells A2 s3).bind fun refs s4 =>
      (Sheet.SetCell A1 "=7" s4).bind fun _ s5 =>
      (Cell.IsCacheValid ⟨A2, 1⟩ s5).bind fun valid s6 =>
      (Sheet.GetValue 0 A2 s6).bind fun v s7 => .ok (refs, valid, v) s7).value
      = some ([A1], true, Value.number 3) := by
  decide!

/-- C17: the stored edge sets after successful calls. After `SetCell(A1,"=B1");
SetCell(A1,"=C1")` the referenced cells of A1 are `[C1]`, while `dependent_cells_` of A1,
the set `AddNewLinks` fills with the cells A1 references, holds B1 and C1, and
`referenced_cells_` of A1 is empty. After `SetCell(A1,"=B1"); SetCell(A1,"x")` the Text cell
A1 still has B1 in `dependent_cells_`. After `SetCell(A1,"2"); SetCell(A2,"=A1");
SetCell(A1,"5")` the cell A2 references A1 and both its sets are empty: re-assigning A1
removed the edge of A2. After the single call `SetCell(A1,"=B1")` the set `dependent_cells_`
of A1 holds B1 and `referenced_cells_` of A1 is empty. -/
theorem SetCell_leaves_wrong_forward_edges :
    (Sheet.GetReferencedCells A1 ((Sheet.SetCell A1 "=B1" CreateSheet).bind fun _ s1 =>
      Sheet.SetCell A1 "=C1" s1).sheet).value = some [C1]
    ∧ (((Sheet.SetCell A1 "=B1" CreateSheet).bind fun _ s1 =>
      Sheet.SetCell A1 "=C1" s1).sheet.cellAt A1).map (fun c => c.dependent_cells_)
      = some [⟨B1, 1⟩, ⟨C1, 2⟩]
    ∧ (((Sheet.SetCell A1 "=B1" CreateSheet).bind fun _ s1 =>
      Sheet.SetCell A1 "=C1" s1).sheet.cellAt A1).map (fun c => c.referenced_cells_) = some []
    ∧ (Sheet.GetText A1 ((Sheet.SetCell A1 "=B1" CreateSheet).bind fun _ s1 =>
      Sheet.SetCell A1 "x" s1).sheet).value = some "x"
    ∧ (((Sheet.SetCell A1 "=B1" CreateSheet).bind fun _ s1 =>
      Sheet.SetCell A1 "x" s1).sheet.cellAt A1).map (fun c => c.dependent_cells_)
      = some [⟨B1, 1⟩]
    ∧ (Sheet.GetReferencedCells A2 ((Sheet.SetCell A1 "2" CreateSheet).bind fun _ s1 =>
      (Sheet.SetCell A2 "=A1" s1).bind fun _ s2 => Sheet.SetCell A1 "5" s2).sheet).value
      = some [A1]
    ∧ (((Sheet.SetCell A1 "2" CreateSheet).bind fun _ s1 =>
      (Sheet.SetCell A2 "=A1" s1).bind fun _ s2 => Sheet.SetCell A1 "5" s2).sheet.cellAt A2).map
        (fun c => (c.dependent_cells_, c.referenced_cells_)) = some ([], [])
    ∧ ((Sheet.SetCell A1 "=B1" CreateSheet).sheet.cellAt A1).map
        (fun c => (c.dependent_cells_, c.referenced_cells_)) = some ([⟨B1, 1⟩], []) := by
  decide!

/-- C18: after `SetCell(A1,"=B1"); ClearCell(B1)` the position B1 is among the referenced
cells of A1 and in the stored set of A1, and `GetCell(B1)` is null; the cycle detector of a
following `SetCell(A2,"=A1")` calls a method through that null pointer, and the invalidation
walk of a following `SetCell(A1,"x")` reads the destroyed cell: both are undefined. -/
theorem ClearCell_leaves_reference_to_absent_cell :
    ((Sheet.SetCell A1 "=B1" CreateSheet).bind fun _ s1 =>
      (Sheet.ClearCell B1 s1).bind fun _ s2 =>
      (Sheet.GetReferencedCells A1 s2).bind fun refs s3 =>
      (s3.GetCell B1).bind fun cell s4 => .ok (refs, cell) s4).value = some ([B1], none)
    ∧ (((Sheet.SetCell A1 "=B1" CreateSheet).bind fun _ s1 =>
      Sheet.ClearCell B1 s1).sheet.cellAt A1).map (fun c => c.dependent_cells_)
      = some [⟨B1, 1⟩]
    ∧ ((Sheet.SetCell A1 "=B1" CreateSheet).bind fun _ s1 =>
      (Sheet.ClearCell B1 s1).bind fun _ s2 => Sheet.SetCell A2 "=A1" s2).outcome = .undefined
    ∧ ((Sheet.SetCell A1 "=B1" CreateSheet).bind fun _ s1 =>
      (Sheet.ClearCell B1 s1).bind fun _ s2 => Sheet.SetCell A1 "x" s2).outcome = .undefined := by
  decide!


/-- C21: a `SetCell` that raises on a position without a cell leaves a cell without
implementation there. On a fresh sheet `GetCell(A1)` is null and `SetCell(A1,"=A1")` raises
circular-dependency; afterwards `GetCell(A1)` is a cell whose `impl_` is null, so `GetValue`,
`GetText` and `GetReferencedCells` on it, `PrintValues` and `PrintTexts` on the sheet, and
the following `SetCell(A2,"=A1+1")`, which looks into A1 for cycles, go through the null
pointer. After `SetCell(A1,"1")`, where `PrintTexts` writes one line, `SetCell(B1,"=A1+")`
raises formula-syntax and then `GetText(B1)`, `PrintTexts` and `PrintValues` go through a
null pointer; the same happens after `SetCell(B1,"x"); ClearCell(B1)` when `SetCell(B1,"=B1")`
raises. A cell with an implementation need not have a value either: after
`SetCell(B1,"=A1+B1")`, which returns normally, `GetValue(B1)` evaluates B1 inside its own
evaluation and no budget suffices. -/
theorem SetCell_raised_leaves_cell_without_implementation :
    (CreateSheet.GetCell A1).value = some none
    ∧ (Sheet.SetCell A1 "=A1" CreateSheet).exception = some .CircularDependency
    ∧ ((Sheet.SetCell A1 "=A1" CreateSheet).sheet.GetCell A1).value = some (some ⟨A1, 0⟩)
    ∧ ((Sheet.SetCell A1 "=A1" CreateSheet).sheet.cellAt A1).map (fun c => c.impl_.isSome)
        = some false
    ∧ (∀ fuel, (Sheet.GetValue fuel A1 (Sheet.SetCell A1 "=A1" CreateSheet).sheet).outcome
        = .undefined)
    ∧ (Sheet.GetText A1 (Sheet.SetCell A1 "=A1" CreateSheet).sheet).outcome = .undefined
    ∧ (Sheet.GetReferencedCells A1 (Sheet.SetCell A1 "=A1" CreateSheet).sheet).outcome
        = .undefined
    ∧ (∀ fuel, (Sheet.PrintValues fuel (Sheet.SetCell A1 "=A1" CreateSheet).sheet).outcome
        = .undefined)
    ∧ (Sheet.PrintTexts (Sheet.SetCell A1 "=A1" CreateSheet).sheet).outcome = .undefined
    ∧ (Sheet.SetCell A2 "=A1+1" (Sheet.SetCell A1 "=A1" CreateSheet).sheet).outcome
        = .undefined
    ∧ (Sheet.PrintTexts (Sheet.SetCell A1 "1" CreateSheet).sheet).value = some "1\n"
    ∧ (Sheet.SetCell B1 "=A1+" (Sheet.SetCell A1 "1" CreateSheet).sheet).exception
        = some .FormulaException
    ∧ (Sheet.GetText B1
        (Sheet.SetCell B1 "=A1+" (Sheet.SetCell A1 "1" CreateSheet).sheet).sheet).outcome
        = .undefined
    ∧ (Sheet.PrintTexts
        (Sheet.SetCell B1 "=A1+" (Sheet.SetCell A1 "1" CreateSheet).sheet).sheet).outcome
        = .undefined
    ∧ (Sheet.PrintValues 8
        (Sheet.SetCell B1 "=A1+" (Sheet.SetCell A1 "1" CreateSheet).sheet).sheet).outcome
        = .undefined
    ∧ ((Sheet.SetCell B1 "x" CreateSheet).bind fun _ s1 =>
        (Sheet.ClearCell B1 s1).bind fun _ s2 => Sheet.SetCell B1 "=B1" s2).exception
        = some .CircularDependency
    ∧ (Sheet.GetText B1 ((Sheet.SetCell B1 "x" CreateSheet).bind fun _ s1 =>
        (Sheet.ClearCell B1 s1).bind fun _ s2 => Sheet.SetCell B1 "=B1" s2).sheet).outcome
        = .undefined
    ∧ (Sheet.SetCell B1 "=A1+B1" CreateSheet).outcome = .ok ()
    ∧ (∀ fuel, (Sheet.GetValue fuel B1 (Sheet.SetCell B1 "=A1+B1" CreateSheet).sheet).outcome
        = .exhausted) := by
  refine ⟨by decide!, by decide!, by decide!, by decide!, fun fuel => ?_, by decide!,
    by decide!, fun fuel => ?_, by decide!, by decide!, by decide!, by decide!, by decide!,
    by decide!, by decide!, by decide!, by decide!, by decide!, fun fuel => ?_⟩
  · cases fuel <;> rfl
  · cases fuel <;> rfl
  · have himpl : Sheet.Implemented (Sheet.SetCell B1 "=A1+B1" CreateSheet).sheet :=
      Sheet.SetCell_ok_implemented B1 "=A1+B1" CreateSheet _
        (fun row col c hc => by simp [CreateSheet, Sheet.slot] at hc) rfl
    have hcell : Sheet.GetValue fuel B1 (Sheet.SetCell B1 "=A1+B1" CreateSheet).sheet
        = Cell.GetValue fuel ⟨B1, 0⟩ (Sheet.SetCell B1 "=A1+B1" CreateSheet).sheet := rfl
    rw [hcell]
    have hstuck := Sheet.GetValue_stuck_cases (Sheet.SetCell B1 "=A1+B1" CreateSheet).sheet
      (fun x => x = ⟨B1, 0⟩)
      (fun x hx => by
        subst hx
        exact ⟨_, _, rfl, rfl, _, rfl, rfl⟩) fuel ⟨B1, 0⟩ rfl
    have hdef := (Cell.GetValue_defined fuel ⟨B1, 0⟩ _ himpl (by decide!)).ne_undefined
    rcases hstuck with hr | hr
    · exact absurd hr hdef
    · rw [hr]
      rfl

/-- C14: a text of the grammar whose number lies beyond the range of `double`. The text `1`
followed by 400 zeros is a text of the grammar `-?(0|[1-9][0-9]*)(\.[0-9]+)?` and denotes
10^400. After `SetCell(A1, that text); SetCell(A2,"=A1+1")`, both returning normally, the
display value of A1 is the text, the lookup of A1 throws the `std::out_of_range` of
`std::stod`, and `GetValue(A2)` and `PrintValues` throw it to the caller: the evaluator
obtains neither the denoted number nor `#VALUE!`. With the text `5` in A1 the lookup gives
5 and A2 is 6, and with `text` in A1 the value of A2 is `#VALUE!`. -/
theorem GetValue_throws_out_of_range :
    (DoubleText.mk false ('1' :: List.replicate 400 '0') none).wellFormed = true
    ∧ (DoubleText.mk false ('1' :: List.replicate 400 '0') none).chars
        = '1' :: List.replicate 400 '0'
    ∧ (DoubleText.mk false ('1' :: List.replicate 400 '0') none).denotes = 10 ^ 400
    ∧ matchesDoublePattern ('1' :: List.replicate 400 '0') = true
    ∧ ((Sheet.SetCell A1 (String.mk ('1' :: List.replicate 400 '0')) CreateSheet).bind
        fun _ s1 => Sheet.SetCell A2 "=A1+1" s1).outcome = .ok ()
    ∧ (Sheet.GetValue 8 A1
        ((Sheet.SetCell A1 (String.mk ('1' :: List.replicate 400 '0')) CreateSheet).bind
          fun _ s1 => Sheet.SetCell A2 "=A1+1" s1).sheet).value
        = some (.text (String.mk ('1' :: List.replicate 400 '0')))
    ∧ (Formula.cell_value (Cell.GetValue 8) A1
        ((Sheet.SetCell A1 (String.mk ('1' :: List.replicate 400 '0')) CreateSheet).bind
          fun _ s1 => Sheet.SetCell A2 "=A1+1" s1).sheet).exception = some .OutOfRange
    ∧ (Sheet.GetValue 8 A2
        ((Sheet.SetCell A1 (String.mk ('1' :: List.replicate 400 '0')) CreateSheet).bind
          fun _ s1 => Sheet.SetCell A2 "=A1+1" s1).sheet).exception = some .OutOfRange
    ∧ (Sheet.PrintValues 8
        ((Sheet.SetCell A1 (String.mk ('1' :: List.replicate 400 '0')) CreateSheet).bind
          fun _ s1 => Sheet.SetCell A2 "=A1+1" s1).sheet).exception = some .OutOfRange
    ∧ ((Sheet.SetCell A1 "5" CreateSheet).bind fun _ s1 =>
        (Sheet.SetCell A2 "=A1+1" s1).bind fun _ s2 => Sheet.GetValue 8 A2 s2).value
        = some (.number 6)
    ∧ ((Sheet.SetCell A1 "text" CreateSheet).bind fun _ s1 =>
        (Sheet.SetCell A2 "=A1+1" s1).bind fun _ s2 => Sheet.GetValue 8 A2 s2).value
        = some (.error .Value) := by
  decide!

/-- C16: after `SetCell(A1,"=B1"); ClearCell(B1); SetCell(B1,"x")`, three calls that return
normally, A1 and B1 are live cells with an implementation. A1 references B1, and the set
`dependent_cells_` of A1, which `AddNewLinks` fills with the cells A1 references, still has
its entry for the slot B1: the pointer to the cell that `ClearCell` destroyed. The cell now
at B1 was constructed afterwards and both its sets are empty, so B1 is among the forward
edges of A1 while A1 is not among the reverse edges of B1. Before `ClearCell(B1)` the cell
at B1 had A1 in its set `referenced_cells_`. -/
theorem ClearCell_breaks_edge_symmetry :
    ((Sheet.SetCell A1 "=B1" CreateSheet).bind fun _ s1 =>
      (Sheet.ClearCell B1 s1).bind fun _ s2 => Sheet.SetCell B1 "x" s2).outcome = .ok ()
    ∧ (((Sheet.SetCell A1 "=B1" CreateSheet).bind fun _ s1 =>
      (Sheet.ClearCell B1 s1).bind fun _ s2 => Sheet.SetCell B1 "x" s2).sheet.GetCell A1).value
      = some (some ⟨A1, 0⟩)
    ∧ (((Sheet.SetCell A1 "=B1" CreateSheet).bind fun _ s1 =>
      (Sheet.ClearCell B1 s1).bind fun _ s2 => Sheet.SetCell B1 "x" s2).sheet.GetCell B1).value
      = some (some ⟨B1, 2⟩)
    ∧ (Sheet.GetText A1 ((Sheet.SetCell A1 "=B1" CreateSheet).bind fun _ s1 =>
      (Sheet.ClearCell B1 s1).bind fun _ s2 => Sheet.SetCell B1 "x" s2).sheet).value
      = some "=B1"
    ∧ (Sheet.GetText B1 ((Sheet.SetCell A1 "=B1" CreateSheet).bind fun _ s1 =>
      (Sheet.ClearCell B1 s1).bind fun _ s2 => Sheet.SetCell B1 "x" s2).sheet).value
      = some "x"
    ∧ (Sheet.GetReferencedCells A1 ((Sheet.SetCell A1 "=B1" CreateSheet).bind fun _ s1 =>
      (Sheet.ClearCell B1 s1).bind fun _ s2 => Sheet.SetCell B1 "x" s2).sheet).value
      = some [B1]
    ∧ (((Sheet.SetCell A1 "=B1" CreateSheet).bind fun _ s1 =>
      (Sheet.ClearCell B1 s1).bind fun _ s2 => Sheet.SetCell B1 "x" s2).sheet.cellAt A1).map
      (fun c => c.dependent_cells_.map (fun p => p.pos)) = some [B1]
    ∧ (((Sheet.SetCell A1 "=B1" CreateSheet).bind fun _ s1 =>
      (Sheet.ClearCell B1 s1).bind fun _ s2 => Sheet.SetCell B1 "x" s2).sheet.cellAt A1).map
      (fun c => c.dependent_cells_) = some [⟨B1, 1⟩]
    ∧ (((Sheet.SetCell A1 "=B1" CreateSheet).bind fun _ s1 =>
      (Sheet.ClearCell B1 s1).bind fun _ s2 => Sheet.SetCell B1 "x" s2).sheet.cellAt A1).map
      (fun c => c.referenced_cells_) = some []
    ∧ (((Sheet.SetCell A1 "=B1" CreateSheet).bind fun _ s1 =>
      (Sheet.ClearCell B1 s1).bind fun _ s2 => Sheet.SetCell B1 "x" s2).sheet.cellAt B1).map
      (fun c => c.referenced_cells_) = some []
    ∧ (((Sheet.SetCell A1 "=B1" CreateSheet).bind fun _ s1 =>
      (Sheet.ClearCell B1 s1).bind fun _ s2 => Sheet.SetCell B1 "x" s2).sheet.cellAt B1).map
      (fun c => c.dependent_cells_) = some []
    ∧ ((Sheet.SetCell A1 "=B1" CreateSheet).sheet.cellAt B1).map
      (fun c => c.referenced_cells_) = some [⟨A1, 0⟩] := by
  decide!
end Spreadsheet
